import Mathlib

/-!
# TDL task-dispatch library: embedding of the scheduler core

Objects that the C++ code reaches through `std::shared_ptr` are addressed here by
natural numbers: a `TaskRef` is the address of a `Task` object, a worker is addressed
by its position in `Dispatcher::m_workers`.  A nullable `task_ptr` is an `Option`.
Every operation that runs on a thread receives the identifier of the calling thread
(`std::this_thread::get_id()`) as the argument `caller`.  Calls of `std::rand()` receive
the value that the call returns as an argument.
-/

namespace tdl

/-- Modulus of `std::atomic_uint` arithmetic (32-bit unsigned counter). -/
def UINT_MOD : Nat := 2 ^ 32

/-- Largest value of `std::atomic_uint`, the result of decrementing zero. -/
def UINT_MAX : Nat := UINT_MOD - 1

/-- Modulus of `std::size_t` arithmetic (64-bit machine word). -/
def SIZE_MOD : Nat := 2 ^ 64

/-- Address of a `Task` object. -/
abbrev TaskRef := Nat

/-- Nullable shared pointer to a task (`tdl::task_ptr`); `none` is `nullptr`. -/
abbrev task_ptr := Option TaskRef

/-- Identifier of a running thread. -/
abbrev ThreadId := Nat

/-- Value of type `std::thread::id`; `none` is the default-constructed id that
represents no thread. -/
abbrev thread_id := Option ThreadId

/-- The two affinity lanes of `enum class thread_affinity`. -/
inductive thread_affinity where
  | main
  | none
  deriving DecidableEq, Repr

/-- The exception classes of `exceptions.h`. -/
inductive tdl_exception where
  | task_context_exception
  | initialization_exception
  | wrong_thread_exception
  | scheduler_exception
  deriving DecidableEq, Repr

/-- How a call ends: it returns, it throws, or it runs into undefined behaviour
(null dereference, iterator past the end, division by zero). -/
inductive Signal where
  | returned
  | thrown (e : tdl_exception)
  | undefined
  deriving DecidableEq, Repr

/-- Data members of `class Task` (the condition variable and its mutex carry no data). -/
structure Task where
  m_task_id : Nat
  m_refcount : Nat
  m_parent : task_ptr
  m_continuation : task_ptr
  m_affinity : thread_affinity
  deriving DecidableEq, Repr

/-- Data members of `class Worker`.  `m_thread` is `some t` while the worker owns a
joinable thread `t`. -/
structure Worker where
  m_can_steal : Bool
  m_stop_flag : Bool
  m_deque : List TaskRef
  m_thread : Option ThreadId
  m_thread_id : thread_id
  m_current_task : task_ptr
  deriving DecidableEq, Repr

/-- A placement policy (`scheduler_t`).  It receives the workers of the iterator range
`[begin, end)`, the function-static counter of the round-robin policy and the value of
the next `std::rand()` call.  It yields the returned iterator as an offset from `begin`
(the offset `range.length` is `end`; `none` is undefined behaviour inside the policy)
and the new value of the counter. -/
abbrev scheduler_t := List Worker → Nat → Nat → Option Nat × Nat

/-- Data members of `class Dispatcher`. -/
structure Dispatcher where
  m_initialized : Bool
  m_workers : List Worker
  m_scheduler : scheduler_t
  m_worker_count : Nat
  m_main_thread_id : thread_id
  m_main_processing : Bool

/-- The whole program state: the task objects, the dispatcher singleton, the static
counter of `round_robin_scheduler::operator()`, and two history variables that no
operation reads: `returned` records, in order, every task whose `execute()` has
returned inside `Task::process`, and `spawned` records every pair (parent, child)
that `Dispatcher::spawn` has linked. -/
structure State where
  tasks : TaskRef → Task
  dispatcher : Dispatcher
  rr_counter : Nat
  returned : List TaskRef
  spawned : List (TaskRef × TaskRef)

/-- Result of a call: the state it leaves behind and how it ended. -/
structure Res where
  state : State
  signal : Signal

/-! ## Task -/

/-- Constructor `Task::Task()`: the id is `++s_task_id_counter`; yields the new task
and the new counter value. -/
def Task.construct (s_task_id_counter : Nat) : Task × Nat :=
  let c := (s_task_id_counter + 1) % UINT_MOD
  ({ m_task_id := c, m_refcount := 1, m_parent := none, m_continuation := none,
     m_affinity := thread_affinity.none }, c)

/-- Replace the task object at address `t`. -/
def State.setTask (s : State) (t : TaskRef) (v : Task) : State :=
  { s with tasks := fun x => if x = t then v else s.tasks x }

/-- Replace the worker at position `i` of `m_workers`. -/
def State.setWorker (s : State) (i : Nat) (w : Worker) : State :=
  { s with dispatcher := { s.dispatcher with m_workers := s.dispatcher.m_workers.set i w } }

/-- The deque of the worker at position `i` (empty when there is no such worker). -/
def State.deque (s : State) (i : Nat) : List TaskRef :=
  match s.dispatcher.m_workers[i]? with
  | some w => w.m_deque
  | none => []

/-- Append the pair (parent, child) to the spawn history. -/
def State.record_spawn (s : State) (parent child : TaskRef) : State :=
  { s with spawned := s.spawned ++ [(parent, child)] }

/-- Append a task to the history of returned payloads. -/
def State.record_return (s : State) (t : TaskRef) : State :=
  { s with returned := s.returned ++ [t] }

/-- Getter `Task::get_refcount`. -/
def Task.get_refcount (s : State) (t : TaskRef) : Nat := (s.tasks t).m_refcount

/-- Getter `Task::get_parent`. -/
def Task.get_parent (s : State) (t : TaskRef) : task_ptr := (s.tasks t).m_parent

/-- Getter `Task::get_continuation`. -/
def Task.get_continuation (s : State) (t : TaskRef) : task_ptr := (s.tasks t).m_continuation

/-- Getter `Task::get_thread_affinity`. -/
def Task.get_thread_affinity (s : State) (t : TaskRef) : thread_affinity :=
  (s.tasks t).m_affinity

/-- Setter `Task::set_parent`. -/
def Task.set_parent (s : State) (t : TaskRef) (parent : task_ptr) : State :=
  s.setTask t { s.tasks t with m_parent := parent }

/-- Setter `Task::set_continuation`. -/
def Task.set_continuation (s : State) (t : TaskRef) (continuation : task_ptr) : State :=
  s.setTask t { s.tasks t with m_continuation := continuation }

/-- Setter `Task::set_thread_affinity`. -/
def Task.set_thread_affinity (s : State) (t : TaskRef) (affinity : thread_affinity) : State :=
  s.setTask t { s.tasks t with m_affinity := affinity }

/-- The value stored by `--m_refcount` on the 32-bit unsigned counter: zero wraps to the
largest value. -/
def dec_value (r : Nat) : Nat := if r = 0 then UINT_MAX else r - 1

/-- Method `Task::increment_refcount`: `m_refcount++` on the 32-bit counter. -/
def Task.increment_refcount (s : State) (t : TaskRef) : State :=
  s.setTask t { s.tasks t with m_refcount := ((s.tasks t).m_refcount + 1) % UINT_MOD }

/-! ## Worker -/

/-- Constructor `Worker::Worker(bool is_main_worker)`, run on thread `caller`. -/
def Worker.construct (is_main_worker : Bool) (caller : ThreadId) : Worker :=
  { m_can_steal := !is_main_worker
    m_stop_flag := is_main_worker
    m_deque := []
    m_thread := none
    m_thread_id := if is_main_worker then some caller else none
    m_current_task := none }

/-- Method `Worker::submit`: push to the back of the deque. -/
def Worker.submit (w : Worker) (task : TaskRef) : Worker :=
  { w with m_deque := w.m_deque ++ [task] }

/-- Method `Worker::push_task`: push to the front of the deque. -/
def Worker.push_task (w : Worker) (task : TaskRef) : Worker :=
  { w with m_deque := task :: w.m_deque }

/-- Method `Worker::try_steal`: pop the front of the deque, `nullptr` when it is empty. -/
def Worker.try_steal (w : Worker) : task_ptr × Worker :=
  match w.m_deque with
  | [] => (none, w)
  | stolen :: rest => (some stolen, { w with m_deque := rest })

/-- Getter `Worker::current_task`. -/
def Worker.current_task (w : Worker) : task_ptr := w.m_current_task

/-- Getter `Worker::task_count`. -/
def Worker.task_count (w : Worker) : Nat := w.m_deque.length

/-- Getter `Worker::get_id`. -/
def Worker.get_id (w : Worker) : thread_id := w.m_thread_id

/-! ## Placement policies -/

/-- Library algorithm `std::min_element` with the comparison of
`load_balancing_scheduler` (`lhs->task_count() < rhs->task_count()`), continued from
position `i` of the range with the current smallest element at position `smallest`
holding `best` tasks: the position moves only on a strictly smaller element. -/
def min_element_from : List Worker → Nat → Nat → Nat → Nat
  | [], _, smallest, _ => smallest
  | w :: rest, i, smallest, best =>
    if w.task_count < best then min_element_from rest (i + 1) i w.task_count
    else min_element_from rest (i + 1) smallest best

/-- Library algorithm `std::min_element` over a range of workers compared by task
count: `last` for an empty range, else the first position of a smallest element. -/
def min_element : List Worker → Nat
  | [] => 0
  | w :: rest => min_element_from rest 1 0 w.task_count

/-- Functor `load_balancing_scheduler::operator()`. -/
def load_balancing_scheduler : scheduler_t :=
  fun range counter _ => (some (min_element range), counter)

/-- Functor `round_robin_scheduler::operator()`:
`index = counter++ % (end - begin)`; a remainder by zero is undefined. -/
def round_robin_scheduler : scheduler_t :=
  fun range counter _ =>
    if range.length = 0 then (none, (counter + 1) % SIZE_MOD)
    else (some (counter % range.length), (counter + 1) % SIZE_MOD)

/-- Functor `random_scheduler::operator()`: `index = std::rand() % (end - begin)`. -/
def random_scheduler : scheduler_t :=
  fun range counter rand =>
    if range.length = 0 then (none, counter)
    else (some (rand % range.length), counter)

/-! ## Dispatcher -/

/-- Constructor `Dispatcher::Dispatcher()`; `hardware_concurrency` is the value of
`std::thread::hardware_concurrency()`. -/
def Dispatcher.construct (hardware_concurrency : Nat) : Dispatcher :=
  { m_initialized := false
    m_workers := []
    m_scheduler := load_balancing_scheduler
    m_worker_count := hardware_concurrency
    m_main_thread_id := none
    m_main_processing := false }

/-- Library algorithm `std::find_if`: position of the first element satisfying `p`,
the length of the list (`end`) when there is none. -/
def find_if (p : Worker → Bool) : List Worker → Nat
  | [] => 0
  | w :: rest => if p w then 0 else find_if p rest + 1

/-- Method `Dispatcher::current_worker`: the position of the worker whose thread id is
the caller's, or `task_context_exception`. -/
def Dispatcher.current_worker (d : Dispatcher) (caller : ThreadId) :
    Except tdl_exception Nat :=
  let it := find_if (fun element => element.get_id == some caller) d.m_workers
  if it = 0 ∧ d.m_main_processing = false then
    Except.error tdl_exception.task_context_exception
  else if it ≠ d.m_workers.length then Except.ok it
  else Except.error tdl_exception.task_context_exception

/-- Method `Dispatcher::push_task`: push `task` to the front of the calling worker. -/
def Dispatcher.push_task (s : State) (caller : ThreadId) (task : TaskRef) : Res :=
  match Dispatcher.current_worker s.dispatcher caller with
  | Except.error e => ⟨s, Signal.thrown e⟩
  | Except.ok i =>
    match s.dispatcher.m_workers[i]? with
    | none => ⟨s, Signal.undefined⟩
    | some spawner => ⟨s.setWorker i (spawner.push_task task), Signal.returned⟩

/-- Function `tdl::detail::push_task`: a null task is ignored. -/
def detail.push_task (s : State) (caller : ThreadId) (task : task_ptr) : Res :=
  match task with
  | none => ⟨s, Signal.returned⟩
  | some t => Dispatcher.push_task s caller t

/-- Method `Task::decrement_refcount`: `--m_refcount` on the 32-bit counter (zero wraps
to the largest value); when the new value is zero the continuation (if any) is handed
to `detail::push_task`.  `notify_all` changes no data. -/
def Task.decrement_refcount (s : State) (caller : ThreadId) (t : TaskRef) : Res :=
  let value := dec_value (s.tasks t).m_refcount
  let s1 := s.setTask t { s.tasks t with m_refcount := value }
  if value = 0 then
    match (s1.tasks t).m_continuation with
    | some c => detail.push_task s1 caller (some c)
    | none => ⟨s1, Signal.returned⟩
  else ⟨s1, Signal.returned⟩

/-- The statements of `Task::process` that follow the return of `execute()`: the
return is recorded in the history, then the parent's refcount (if any) and the own
refcount are decremented. -/
def Task.process_after_execute (s : State) (caller : ThreadId) (t : TaskRef) : Res :=
  let s0 := s.record_return t
  match (s0.tasks t).m_parent with
  | some parent =>
    match Task.decrement_refcount s0 caller parent with
    | ⟨s1, Signal.returned⟩ => Task.decrement_refcount s1 caller t
    | r => r
  | none => Task.decrement_refcount s0 caller t

/-- Method `Task::process`.  The virtual `execute()` of task `t`, run on thread
`caller`, is the state transformer `execute t caller`; when it throws, the exception
leaves `process` at once. -/
def Task.process (execute : TaskRef → ThreadId → State → Res) (s : State)
    (caller : ThreadId) (t : TaskRef) : Res :=
  match execute t caller s with
  | ⟨s1, Signal.returned⟩ => Task.process_after_execute s1 caller t
  | r => r

/-- Method `Dispatcher::spawn`; the link is recorded in the spawn history once the
task has been pushed. -/
def Dispatcher.spawn (s : State) (caller : ThreadId) (task : TaskRef) : Res :=
  match Dispatcher.current_worker s.dispatcher caller with
  | Except.error e => ⟨s, Signal.thrown e⟩
  | Except.ok i =>
    match s.dispatcher.m_workers[i]? with
    | none => ⟨s, Signal.undefined⟩
    | some spawner =>
      let parent := spawner.current_task
      let s1 := Task.set_parent s task parent
      match parent with
      | none => ⟨s1, Signal.undefined⟩
      | some p =>
        let s2 := Task.increment_refcount s1 p
        ⟨(s2.setWorker i (spawner.push_task task)).record_spawn p task, Signal.returned⟩

/-- The statements of `Dispatcher::spawn` in program order: the state of the shared
data after `task->set_parent(parent)`, after `parent->increment_refcount()` and after
`spawner->push_task(task)`.  These are the states another thread can observe while the
call is under way.  The list ends where the call ends: it is empty when
`current_worker` throws, and the dereference of a null parent ends it after the first
statement. -/
def Dispatcher.spawn_steps (s : State) (caller : ThreadId) (task : TaskRef) : List State :=
  match Dispatcher.current_worker s.dispatcher caller with
  | Except.error _ => []
  | Except.ok i =>
    match s.dispatcher.m_workers[i]? with
    | none => []
    | some spawner =>
      let parent := spawner.current_task
      let s1 := Task.set_parent s task parent
      match parent with
      | none => [s1]
      | some p =>
        let s2 := Task.increment_refcount s1 p
        [s1, s2, s2.setWorker i (spawner.push_task task)]

/-- Method `Dispatcher::submit`; `rand` is the value of the next `std::rand()` call.
`++m_workers.begin()` and `*m_workers.begin()` on an empty list are undefined, and so
is dereferencing an iterator beyond `end`. -/
def Dispatcher.submit (s : State) (rand : Nat) (task : TaskRef) : Res :=
  match s.dispatcher.m_workers with
  | [] => ⟨s, Signal.undefined⟩
  | main_worker :: range =>
    if Task.get_thread_affinity s task = thread_affinity.main then
      ⟨s.setWorker 0 (main_worker.submit task), Signal.returned⟩
    else
      let r := s.dispatcher.m_scheduler range s.rr_counter rand
      let s1 : State := { s with rr_counter := r.2 }
      match r.1 with
      | none => ⟨s1, Signal.undefined⟩
      | some selected =>
        if selected = range.length then
          ⟨s1, Signal.thrown tdl_exception.scheduler_exception⟩
        else
          match range[selected]? with
          | none => ⟨s1, Signal.undefined⟩
          | some w => ⟨s1.setWorker (selected + 1) (w.submit task), Signal.returned⟩

/-- Method `Worker::start`: the new thread gets the identifier `tid`. -/
def Worker.start (w : Worker) (tid : ThreadId) : Worker :=
  { w with m_thread := some tid, m_thread_id := some tid }

/-- Method `Worker::stop`. -/
def Worker.stop (w : Worker) : Worker :=
  { w with m_stop_flag := true }

/-- Method `Worker::join`: `if (m_thread.joinable()) m_thread.join()`.  The call
returns when the thread of the worker has left the loop of `do_work`; what that thread
does until then (it goes on processing the tasks of its deque) is the loop
`Worker.do_work` run by that thread and is not part of this call, which records the
release of the thread handle only. -/
def Worker.join (w : Worker) : Worker :=
  match w.m_thread with
  | some _ => { w with m_thread := none }
  | none => w

/-- The start loop of `Dispatcher::initialize` over the positions from `i` on: the
worker at position `j` is started with the thread identifier `new_thread j`. -/
def start_workers (new_thread : Nat → ThreadId) : List Worker → Nat → List Worker
  | [], _ => []
  | w :: rest, i => w.start (new_thread i) :: start_workers new_thread rest (i + 1)

/-- Method `Dispatcher::initialize`, called on thread `caller`; `new_thread j` is the
identifier of the thread started for the worker at position `j`. -/
def Dispatcher.initialize (d : Dispatcher) (caller : ThreadId)
    (new_thread : Nat → ThreadId) : Dispatcher :=
  if d.m_initialized then d
  else
    let main_worker := Worker.construct true caller
    let workers := (d.m_workers ++ [main_worker])
      ++ (List.range d.m_worker_count).map (fun _ => Worker.construct false caller)
    match workers with
    | [] => d
    | first :: rest =>
      { d with
        m_main_thread_id := some caller
        m_workers := first :: start_workers new_thread rest 1
        m_initialized := true }

/-! ## Concrete states used to exercise the operations -/

/-- A dispatcher configured for two stealable workers and initialised on main thread
`100`; the worker at position `j` runs on thread `100 + j`. -/
def demo_dispatcher : Dispatcher :=
  Dispatcher.initialize { Dispatcher.construct 8 with m_worker_count := 2 } 100
    (fun j => 100 + j)

/-- A state over `demo_dispatcher` in which every address holds a freshly constructed
task. -/
def demo_state : State :=
  { tasks := fun _ => (Task.construct 0).1
    dispatcher := demo_dispatcher
    rr_counter := 1
    returned := []
    spawned := [] }

/-- The state `demo_state` in which task `1` has the continuation `2`. -/
def demo_continuation_state : State :=
  Task.set_continuation demo_state 1 (some 2)

/-! ## The worker loop -/

/-- Method `Dispatcher::choose_victim`: `index = 1 + std::rand() % m_worker_count`,
then `m_workers[index]`.  `none` stands for undefined behaviour (remainder by zero or
an index outside the worker list). -/
def Dispatcher.choose_victim (d : Dispatcher) (rand : Nat) : Option Nat :=
  if d.m_worker_count = 0 then none
  else if 1 + rand % d.m_worker_count < d.m_workers.length then
    some (1 + rand % d.m_worker_count)
  else none

/-- Loop body of `Worker::do_work` for the worker at position `i`, first part: under
its own lock the worker pops its front task into `m_current_task`, or stores `nullptr`
there when the deque is empty. -/
def Worker.do_work_take (s : State) (i : Nat) : State :=
  match s.dispatcher.m_workers[i]? with
  | none => s
  | some w =>
    match w.m_deque with
    | [] => s.setWorker i { w with m_current_task := none }
    | t :: rest => s.setWorker i { w with m_current_task := some t, m_deque := rest }

/-- Loop body of `Worker::do_work`, stealing branch: a victim is chosen; when it is the
worker itself the iteration ends, otherwise the victim's front task (if any) is moved
into the thief's `m_current_task`.  The locks taken around `try_steal` hold no data. -/
def Worker.do_work_steal (s : State) (i : Nat) (rand : Nat) : Res :=
  match Dispatcher.choose_victim s.dispatcher rand with
  | none => ⟨s, Signal.undefined⟩
  | some v =>
    if v = i then ⟨s, Signal.returned⟩
    else
      match s.dispatcher.m_workers[v]?, s.dispatcher.m_workers[i]? with
      | some victim, some self =>
        ⟨(s.setWorker v victim.try_steal.2).setWorker i
            { self with m_current_task := victim.try_steal.1 }, Signal.returned⟩
      | _, _ => ⟨s, Signal.undefined⟩

/-- Loop body of `Worker::do_work` up to the point where `m_current_task` is decided:
the own front task if there is one, else (stealable workers only) a steal attempt. -/
def Worker.do_work_acquire (s : State) (i : Nat) (rand : Nat) : Res :=
  let s1 := Worker.do_work_take s i
  match s1.dispatcher.m_workers[i]? with
  | none => ⟨s1, Signal.undefined⟩
  | some w =>
    match w.m_current_task with
    | some _ => ⟨s1, Signal.returned⟩
    | none => if w.m_can_steal then Worker.do_work_steal s1 i rand else ⟨s1, Signal.returned⟩

/-- One full iteration of the loop of `Worker::do_work` for worker `i`, run on thread
`caller`: acquire a task, then process it when there is one. -/
def Worker.do_work_iteration (execute : TaskRef → ThreadId → State → Res) (s : State)
    (caller : ThreadId) (i : Nat) (rand : Nat) : Res :=
  match Worker.do_work_acquire s i rand with
  | ⟨s1, Signal.returned⟩ =>
    match s1.dispatcher.m_workers[i]? with
    | some w =>
      match w.m_current_task with
      | some t => Task.process execute s1 caller t
      | none => ⟨s1, Signal.returned⟩
    | none => ⟨s1, Signal.undefined⟩
  | r => r

/-- The task that `tdl::this_task::get` finds for a thread: the current task of the
worker that `current_worker` returns, `nullptr` when there is none. -/
def running (s : State) (caller : ThreadId) : task_ptr :=
  match Dispatcher.current_worker s.dispatcher caller with
  | Except.ok i =>
    match s.dispatcher.m_workers[i]? with
    | some w => w.current_task
    | none => none
  | Except.error _ => none

/-! ## Interleaved executions

Threads interleave at the granularity of the operations of the scheduler.  An event
is one such operation performed by one thread. -/

/-- One scheduler operation performed by a thread. -/
inductive Event where
  /-- The loop of worker `i`, running on thread `caller`, acquires its next task. -/
  | acquire (caller : ThreadId) (i : Nat) (rand : Nat)
  /-- The payload running on thread `caller` calls `spawn` on `task`. -/
  | spawn (caller : ThreadId) (task : TaskRef)
  /-- The payload of `t` returns on thread `caller` and `Task::process` runs to its end. -/
  | finish (caller : ThreadId) (t : TaskRef)
  deriving DecidableEq, Repr

/-- The effect of an event on the state. -/
def Event.step (s : State) : Event → Res
  | Event.acquire _ i rand => Worker.do_work_acquire s i rand
  | Event.spawn caller task => Dispatcher.spawn s caller task
  | Event.finish caller t => Task.process_after_execute s caller t

/-- Whether an event can happen in a state.  A worker acquires a task only between
two tasks (its current task is null or has returned).  A payload spawns only while it
is running (its task has not returned), the spawned task is not the spawning task
itself, has not been spawned or returned before, and the parent's counter is below its
largest value.  A payload returns only once, on the worker whose current task it is. -/
def Event.enabled (s : State) : Event → Bool
  | Event.acquire caller i rand =>
    (match Dispatcher.current_worker s.dispatcher caller with
     | Except.ok j => decide (j = i)
     | Except.error _ => false) &&
    (match running s caller with
     | none => true
     | some t => decide (t ∈ s.returned)) &&
    decide ((Worker.do_work_acquire s i rand).signal = Signal.returned)
  | Event.spawn caller task =>
    match running s caller with
    | none => false
    | some q =>
      decide (q ∉ s.returned) && decide (task ≠ q) &&
      decide (task ∉ s.spawned.map Prod.snd) && decide (task ∉ s.returned) &&
      decide (Task.get_refcount s q < UINT_MAX)
  | Event.finish caller t =>
    decide (running s caller = some t) && decide (t ∉ s.returned)

/-- The state after a sequence of events. -/
def run (s : State) : List Event → State
  | [] => s
  | e :: es => run (e.step s).state es

/-- Whether every event of a sequence can happen in the state in which it is reached. -/
def valid (s : State) : List Event → Bool
  | [] => true
  | e :: es => e.enabled s && valid (e.step s).state es

/-- The children spawned so far under `P`, in spawn order. -/
def children (s : State) (P : TaskRef) : List TaskRef :=
  (s.spawned.filter (fun pc => pc.1 = P)).map Prod.snd

/-- The children of `P` whose payload has not returned yet. -/
def pending (s : State) (P : TaskRef) : List TaskRef :=
  (children s P).filter (fun c => decide (c ∉ s.returned))

/-- The number of times the processing of `P` or of one of its children has performed
its decrement on `P`: one for `P` when its payload has returned, one for each child
whose payload has returned. -/
def decrements_on (s : State) (P : TaskRef) : Nat :=
  (if P ∈ s.returned then 1 else 0)
    + ((children s P).filter (fun c => decide (c ∈ s.returned))).length

/-- How often `K` occurs in the deques of all workers. -/
def queued (s : State) (K : TaskRef) : Nat :=
  (s.dispatcher.m_workers.map (fun w => w.m_deque.count K)).sum

/-- Whether `d` has been spawned under `a` through at most `fuel + 1` parent links of
the spawn history (child, grandchild and deeper). -/
def descendant (spawned : List (TaskRef × TaskRef)) : Nat → TaskRef → TaskRef → Bool
  | 0, a, d => decide ((a, d) ∈ spawned)
  | fuel + 1, a, d =>
    decide ((a, d) ∈ spawned) ||
      spawned.any (fun pc => decide (pc.2 = d) && descendant spawned fuel a pc.1)

/-- The state `demo_state` after task `1` has been submitted (the default policy
places it on the worker at position `1`). -/
def demo_submitted_state : State :=
  (Dispatcher.submit demo_state 0 1).state

/-- The state `demo_submitted_state` after the worker at position `1` has taken
task `1` from its deque. -/
def demo_running_state : State :=
  (Worker.do_work_acquire demo_submitted_state 1 0).state

/-- The state `demo_running_state` after the payload of task `1` has spawned task `2`. -/
def demo_spawned_state : State :=
  (Dispatcher.spawn demo_running_state 101 2).state

/-- A payload that returns at once and changes nothing. -/
def idle_payload : TaskRef → ThreadId → State → Res :=
  fun _ _ s => ⟨s, Signal.returned⟩

/-- Two dispatchers agree on everything `current_worker` reads: the thread ids of
their workers, position by position, and the main-processing flag. -/
def same_threads (d d2 : Dispatcher) : Prop :=
  d.m_workers.map (fun w => w.m_thread_id) = d2.m_workers.map (fun w => w.m_thread_id) ∧
  d.m_main_processing = d2.m_main_processing

/-! ## Operations on the deque of one worker -/

/-- An operation on the deque of one worker: `Worker::submit`, `Worker::push_task`, or
a pop of the front (the worker's own take in `do_work`, or `Worker::try_steal` called
by a thief). -/
inductive DequeOp where
  | submit (task : TaskRef)
  | push_task (task : TaskRef)
  | pop
  deriving DecidableEq, Repr

/-- Apply one deque operation: the new worker and the task popped by it, if any. -/
def DequeOp.apply (w : Worker) : DequeOp → Worker × List TaskRef
  | DequeOp.submit t => (w.submit t, [])
  | DequeOp.push_task t => (w.push_task t, [])
  | DequeOp.pop => (w.try_steal.2, w.try_steal.1.toList)

/-- Apply a sequence of deque operations: the final worker and the tasks popped, in
the order in which they were popped. -/
def deque_run (w : Worker) : List DequeOp → Worker × List TaskRef
  | [] => (w, [])
  | op :: ops => ((deque_run (op.apply w).1 ops).1, (op.apply w).2 ++ (deque_run (op.apply w).1 ops).2)

/-- The tasks that a sequence of deque operations inserts, in order. -/
def inserted : List DequeOp → List TaskRef
  | [] => []
  | DequeOp.submit t :: ops => t :: inserted ops
  | DequeOp.push_task t :: ops => t :: inserted ops
  | DequeOp.pop :: ops => inserted ops

/-- The state `demo_running_state` in which task `5` carries main affinity and task
`1` (running on the worker at position `1`) has the main-affinity task `6` as its
continuation. -/
def demo_affinity_state : State :=
  Task.set_continuation
    (Task.set_thread_affinity
      (Task.set_thread_affinity demo_running_state 5 thread_affinity.main)
      6 thread_affinity.main)
    1 (some 6)

/-- The refcount bookkeeping of a task `P`: the tasks whose parent link is `P` are
exactly the children recorded under `P`, every child is recorded once, `P` is not its
own child, and the refcount of `P` is one for `P`'s own payload while it has not
returned plus one for every child whose payload has not returned. -/
def accounted (s : State) (P : TaskRef) : Prop :=
  (∀ t, Task.get_parent s t = some P ↔ t ∈ children s P) ∧
  (children s P).Nodup ∧
  P ∉ children s P ∧
  Task.get_refcount s P = (if P ∈ s.returned then 0 else 1) + (pending s P).length

/-- An execution from `demo_submitted_state` on the worker at position `1`: task `1`
is taken, spawns task `2` and returns; task `2` is taken, spawns task `3` and
returns.  Task `3` is still queued at the end. -/
def demo_grandchild_trace : List Event :=
  [Event.acquire 101 1 0, Event.spawn 101 2, Event.finish 101 1,
   Event.acquire 101 1 0, Event.spawn 101 3, Event.finish 101 2]

/-- An execution from `demo_submitted_state`: task `1` is taken by the worker at
position `1`, spawns task `2` and returns; the worker at position `2` steals task `2`
and runs it to its end. -/
def demo_child_trace : List Event :=
  [Event.acquire 101 1 0, Event.spawn 101 2, Event.finish 101 1,
   Event.acquire 102 2 0, Event.finish 102 2]

/-! ## Dispatcher configuration, shutdown and the main lane -/

/-- Method `Dispatcher::set_scheduler`. -/
def Dispatcher.set_scheduler (d : Dispatcher) (scheduler : scheduler_t) : Dispatcher :=
  if d.m_initialized = false then { d with m_scheduler := scheduler } else d

/-- Method `Dispatcher::get_scheduler`. -/
def Dispatcher.get_scheduler (d : Dispatcher) : scheduler_t := d.m_scheduler

/-- Method `Dispatcher::set_worker_count`. -/
def Dispatcher.set_worker_count (d : Dispatcher) (count : Nat) : Dispatcher :=
  if d.m_initialized = false then { d with m_worker_count := count } else d

/-- Method `Dispatcher::get_worker_count`. -/
def Dispatcher.get_worker_count (d : Dispatcher) : Nat := d.m_worker_count

/-- Method `Dispatcher::initialized`. -/
def Dispatcher.initialized (d : Dispatcher) : Bool := d.m_initialized

/-- Method `Dispatcher::shutdown`.  Both loops start at `++m_workers.begin()`: on an
empty worker list that iterator is beyond `end()`, the loop condition
`it != m_workers.end()` holds and the body dereferences it (undefined).  On a
non-empty list every worker after the first is stopped, then every worker after the
first is joined. -/
def Dispatcher.shutdown (d : Dispatcher) : Dispatcher × Signal :=
  match d.m_workers with
  | [] => (d, Signal.undefined)
  | first :: rest =>
    ({ d with m_workers := first :: (rest.map Worker.stop).map Worker.join }, Signal.returned)

/-- Destructor `Dispatcher::~Dispatcher`: calls `shutdown`. -/
def Dispatcher.destruct (d : Dispatcher) : Dispatcher × Signal :=
  Dispatcher.shutdown d

/-- Method `Worker::do_work` for the worker at position `i`, run on thread `caller`,
bounded by `fuel` iterations of its loop: `none` when the loop has not ended within the
bound.  The loop ends when the deque is empty and the stop flag is set.  `rands k` is
the value `std::rand()` returns in the iteration entered with `k` iterations left. -/
def Worker.do_work (execute : TaskRef → ThreadId → State → Res) :
    Nat → State → ThreadId → Nat → (Nat → Nat) → Option Res
  | 0, _, _, _, _ => none
  | fuel + 1, s, caller, i, rands =>
    match s.dispatcher.m_workers[i]? with
    | none => some ⟨s, Signal.undefined⟩
    | some w =>
      if w.m_deque.isEmpty && w.m_stop_flag then some ⟨s, Signal.returned⟩
      else
        match (Worker.do_work_iteration execute s caller i (rands fuel)).signal with
        | Signal.returned =>
          Worker.do_work execute fuel
            (Worker.do_work_iteration execute s caller i (rands fuel)).state caller i rands
        | _ => some (Worker.do_work_iteration execute s caller i (rands fuel))

/-- Set the main-processing flag of the dispatcher. -/
def State.set_main_processing (s : State) (flag : Bool) : State :=
  { s with dispatcher := { s.dispatcher with m_main_processing := flag } }

/-- Method `Dispatcher::process_main`, called on thread `caller`, with the loop of the
main worker bounded by `fuel`.  An exception leaving `do_work` skips the reset of the
flag. -/
def Dispatcher.process_main (execute : TaskRef → ThreadId → State → Res) (fuel : Nat)
    (s : State) (caller : ThreadId) (rands : Nat → Nat) : Option Res :=
  if s.dispatcher.m_main_thread_id ≠ some caller then
    some ⟨s, Signal.thrown tdl_exception.wrong_thread_exception⟩
  else
    match s.dispatcher.m_workers with
    | [] => some ⟨s.set_main_processing true, Signal.undefined⟩
    | _ :: _ =>
      match Worker.do_work execute fuel (s.set_main_processing true) caller 0 rands with
      | none => none
      | some r =>
        match r.signal with
        | Signal.returned => some ⟨r.state.set_main_processing false, Signal.returned⟩
        | _ => some r

/-! ## The library-level functions of `tdl.cpp` -/

/-- Function `tdl::detail::initialization_check`. -/
def detail.initialization_check (s : State) : Signal :=
  if s.dispatcher.initialized = false then
    Signal.thrown tdl_exception.initialization_exception
  else Signal.returned

/-- Function `tdl::submit`. -/
def submit (s : State) (rand : Nat) (task : task_ptr) : Res :=
  match task with
  | none => ⟨s, Signal.returned⟩
  | some t =>
    match detail.initialization_check s with
    | Signal.returned => Dispatcher.submit s rand t
    | sig => ⟨s, sig⟩

/-- Function `tdl::spawn`. -/
def spawn (s : State) (caller : ThreadId) (task : task_ptr) : Res :=
  match task with
  | none => ⟨s, Signal.returned⟩
  | some t =>
    match detail.initialization_check s with
    | Signal.returned => Dispatcher.spawn s caller t
    | sig => ⟨s, sig⟩

/-- Function `tdl::shutdown`. -/
def shutdown (s : State) : Res :=
  match detail.initialization_check s with
  | Signal.returned =>
    ⟨{ s with dispatcher := (Dispatcher.shutdown s.dispatcher).1 },
      (Dispatcher.shutdown s.dispatcher).2⟩
  | sig => ⟨s, sig⟩

/-- Function `tdl::process_main`. -/
def process_main (execute : TaskRef → ThreadId → State → Res) (fuel : Nat) (s : State)
    (caller : ThreadId) (rands : Nat → Nat) : Option Res :=
  match detail.initialization_check s with
  | Signal.returned => Dispatcher.process_main execute fuel s caller rands
  | sig => some ⟨s, sig⟩

/-- A state whose dispatcher was configured with worker count `0` and the policy `p`
and then initialised on main thread `100`: the worker list holds the main worker only.
Every address holds a freshly constructed task, except that task `7` carries main
affinity. -/
def demo_no_pool_state (p : scheduler_t) : State :=
  Task.set_thread_affinity
    { tasks := fun _ => (Task.construct 0).1
      dispatcher :=
        Dispatcher.initialize
          (Dispatcher.set_scheduler (Dispatcher.set_worker_count (Dispatcher.construct 8) 0) p)
          100 (fun j => 100 + j)
      rr_counter := 1
      returned := []
      spawned := [] }
    7 thread_affinity.main

/-- The state `demo_state` after the library-level `shutdown`. -/
def demo_shut_down_state : State :=
  (shutdown demo_state).state

/-! ## Operations that move tasks into and out of the deques -/

/-- An operation that changes the deques: `Dispatcher::submit`, `Dispatcher::spawn`,
the publication of a continuation (`Dispatcher::push_task`), the own take of a worker
in `do_work`, and the steal attempt of a worker in `do_work`. -/
inductive QueueOp where
  | submit (rand : Nat) (task : TaskRef)
  | spawn (caller : ThreadId) (task : TaskRef)
  | publish (caller : ThreadId) (task : TaskRef)
  | take (i : Nat)
  | steal (i : Nat) (rand : Nat)
  deriving DecidableEq, Repr

/-- The effect of a queue operation on the state. -/
def QueueOp.step (s : State) : QueueOp → Res
  | QueueOp.submit rand task => Dispatcher.submit s rand task
  | QueueOp.spawn caller task => Dispatcher.spawn s caller task
  | QueueOp.publish caller task => Dispatcher.push_task s caller task
  | QueueOp.take i => ⟨Worker.do_work_take s i, Signal.returned⟩
  | QueueOp.steal i rand => Worker.do_work_steal s i rand

/-- The task that a queue operation tries to put into a deque, if any. -/
def QueueOp.inserted : QueueOp → Option TaskRef
  | QueueOp.submit _ task => some task
  | QueueOp.spawn _ task => some task
  | QueueOp.publish _ task => some task
  | QueueOp.take _ => none
  | QueueOp.steal _ _ => none

/-- The state after a sequence of queue operations (an operation that fails leaves the
state in which it failed). -/
def queue_run (s : State) : List QueueOp → State
  | [] => s
  | op :: ops => queue_run (op.step s).state ops

/-- Whether every inserting operation of the sequence inserts a task that is in no
deque at the moment of the insertion. -/
def inserts_unqueued (s : State) : List QueueOp → Bool
  | [] => true
  | op :: ops =>
    (match op.inserted with
     | some t => decide (queued s t = 0)
     | none => true) && inserts_unqueued (op.step s).state ops

/-- Every task occurs at most once in the union of all deques. -/
def at_most_once (s : State) : Prop := ∀ K, queued s K ≤ 1

/-- A payload for the main lane that leaves the scheduler alone: called while the
main-processing flag is set and no task has a continuation, it returns normally,
leaves the dispatcher (so every deque) unchanged, sets no continuation, and leaves the
history of returned payloads alone. -/
def main_lane_payload (execute : TaskRef → ThreadId → State → Res) : Prop :=
  ∀ (t : TaskRef) (caller : ThreadId) (s : State),
    s.dispatcher.m_main_processing = true →
    (∀ x, Task.get_continuation s x = none) →
    (execute t caller s).signal = Signal.returned ∧
    (execute t caller s).state.dispatcher = s.dispatcher ∧
    (∀ x, Task.get_continuation (execute t caller s).state x = none) ∧
    (execute t caller s).state.returned = s.returned

/-- The state `demo_state` with the main-affinity tasks `7` and `8` submitted to the
main worker. -/
def demo_main_lane_state : State :=
  (Dispatcher.submit
    (Dispatcher.submit
      (Task.set_thread_affinity (Task.set_thread_affinity demo_state 7 thread_affinity.main)
        8 thread_affinity.main)
      0 7).state
    0 8).state

/-! ## Lock ordering -/

/-- The total order `operator<` of `std::thread::id`; the default-constructed id that
represents no thread is placed below every thread. -/
def thread_id_lt : thread_id → thread_id → Bool
  | none, none => false
  | none, some _ => true
  | some _, none => false
  | some a, some b => decide (a < b)

/-- An operation on the deque mutex `m_deque_guard` of the worker at a position of the
worker list. -/
inductive LockAction where
  | lock (worker : Nat)
  | unlock (worker : Nat)
  deriving DecidableEq, Repr

/-- The release of the mutex that an action acquires. -/
def LockAction.release : LockAction → LockAction
  | LockAction.lock w => LockAction.unlock w
  | LockAction.unlock w => LockAction.unlock w

/-- Method `Worker::lock_in_order`, called on the worker `self` at position `self_pos`
with the worker `other` at position `other_pos`: the mutex operations in the order in
which they are performed. -/
def Worker.lock_in_order (self_pos : Nat) (self : Worker) (other_pos : Nat)
    (other : Worker) : List LockAction :=
  if thread_id_lt self.get_id other.get_id then
    [LockAction.lock self_pos, LockAction.lock other_pos]
  else
    [LockAction.lock other_pos, LockAction.lock self_pos]

/-- Method `Worker::unlock_in_order`, called on the worker `self` at position
`self_pos` with the worker `other` at position `other_pos`. -/
def Worker.unlock_in_order (self_pos : Nat) (self : Worker) (other_pos : Nat)
    (other : Worker) : List LockAction :=
  if thread_id_lt self.get_id other.get_id then
    [LockAction.unlock other_pos, LockAction.unlock self_pos]
  else
    [LockAction.unlock self_pos, LockAction.unlock other_pos]

/-! ## Draining the main lane -/

/-- A payload body that calls the library-level `spawn` on each task of a list in
turn; a call that does not return normally ends the body at once. -/
def spawn_all (s : State) (caller : ThreadId) : List TaskRef → Res
  | [] => ⟨s, Signal.returned⟩
  | k :: ks =>
    match (spawn s caller (some k)).signal with
    | Signal.returned => spawn_all (spawn s caller (some k)).state caller ks
    | _ => spawn s caller (some k)

/-- The payloads that spawn: the payload of `t` spawns the tasks `kids t`, in this
order, and returns. -/
def spawning_payload (kids : TaskRef → List TaskRef) : TaskRef → ThreadId → State → Res :=
  fun t caller s => spawn_all s caller (kids t)

/-- The order in which a deque that is used from the front only hands out its tasks
when every task `t`, while it is being handled, puts the tasks `kids t` one by one in
front of the deque: `none` when the deque has not run empty within `n` tasks. -/
def front_order (kids : TaskRef → List TaskRef) : Nat → List TaskRef → Option (List TaskRef)
  | _, [] => some []
  | 0, _ :: _ => none
  | n + 1, t :: q => (front_order kids n ((kids t).reverse ++ q)).map (fun ts => t :: ts)

/-- The main lane is drained from state `s` to state `s3` by processing the tasks `ts`
in this order.  When its turn comes a task is at the front of the main deque and the
main-processing flag is set; the task is taken from the deque and made the current
task of the main worker, its payload is run on thread `caller` and returns normally,
and the statements of `Task::process` after the payload (the decrements on the parent
and on the task itself) return normally.  At the end the main deque is empty and the
stop flag of the main worker is set. -/
def main_lane_drain (execute : TaskRef → ThreadId → State → Res) (caller : ThreadId) :
    State → List TaskRef → State → Prop
  | s, [], s3 =>
    s3 = s ∧ ∃ main, s.dispatcher.m_workers[0]? = some main ∧ main.m_deque = [] ∧
      main.m_stop_flag = true
  | s, t :: ts, s3 =>
    ∃ main q, s.dispatcher.m_workers[0]? = some main ∧ main.m_deque = t :: q ∧
      s.dispatcher.m_main_processing = true ∧
      (execute t caller
        (s.setWorker 0 { main with m_current_task := some t, m_deque := q })).signal
        = Signal.returned ∧
      (Task.process_after_execute
        (execute t caller
          (s.setWorker 0 { main with m_current_task := some t, m_deque := q })).state
        caller t).signal = Signal.returned ∧
      main_lane_drain execute caller
        (Task.process_after_execute
          (execute t caller
            (s.setWorker 0 { main with m_current_task := some t, m_deque := q })).state
          caller t).state
        ts s3

/-- The payloads in which task `7` spawns task `9` and every other task spawns
nothing. -/
def demo_kids : TaskRef → List TaskRef :=
  fun t => if t = 7 then [9] else []

/-- The state `demo_state` in which the main-affinity task `7` has the continuation `9`
and is queued on the main worker. -/
def demo_main_continuation_state : State :=
  (Dispatcher.submit
    (Task.set_continuation (Task.set_thread_affinity demo_state 7 thread_affinity.main)
      7 (some 9))
    0 7).state

/-- The state `demo_state` after task `1` has been submitted twice: the default policy
places it on the worker at position `1` and then on the worker at position `2`. -/
def demo_twice_state : State :=
  (Dispatcher.submit demo_submitted_state 0 1).state

/-- An execution from `demo_twice_state` that breaks the discipline of one processing
per task: the worker at position `1` takes task `1`, which spawns task `2` and
returns; the worker at position `2` takes its copy of task `1` and processes it
again. -/
def demo_twice_trace : List Event :=
  [Event.acquire 101 1 0, Event.spawn 101 2, Event.finish 101 1,
   Event.acquire 102 2 0, Event.finish 102 1]

/-! # Theorems -/

/-! ## Machine words -/

theorem UINT_MOD_eq : UINT_MOD = 4294967296 := by
  unfold UINT_MOD
  rfl

theorem SIZE_MOD_eq : SIZE_MOD = 18446744073709551616 := by
  unfold SIZE_MOD
  rfl

/-! ## Placement policies -/

theorem min_element_from_spec (rest : List Worker) :
    ∀ (pre : List Worker) (smallest best : Nat),
      (∃ w, pre[smallest]? = some w ∧ w.task_count = best) →
      (∀ j w, pre[j]? = some w → best ≤ w.task_count ∧ (j < smallest → best < w.task_count)) →
      ∃ w, (pre ++ rest)[min_element_from rest pre.length smallest best]? = some w ∧
        ∀ j v, (pre ++ rest)[j]? = some v →
          w.task_count ≤ v.task_count ∧
          (j < min_element_from rest pre.length smallest best → w.task_count < v.task_count) := by
  induction rest with
  | nil =>
    intro pre smallest best hs hmin
    obtain ⟨w, hw, hb⟩ := hs
    refine ⟨w, by simpa [min_element_from] using hw, ?_⟩
    intro j v hv
    simp only [List.append_nil] at hv
    simpa [min_element_from, hb] using hmin j v hv
  | cons x rest ih =>
    intro pre smallest best hs hmin
    obtain ⟨w, hw, hb⟩ := hs
    have hsl : smallest < pre.length := by
      by_contra hc
      rw [List.getElem?_eq_none (by omega)] at hw
      cases hw
    have key := ih (pre ++ [x])
    simp only [List.length_append, List.length_singleton, List.append_assoc,
      List.singleton_append] at key
    unfold min_element_from
    by_cases hx : x.task_count < best
    · rw [if_pos hx]
      apply key pre.length x.task_count
      · exact ⟨x, by simp, rfl⟩
      · intro j v hv
        by_cases hj : j < pre.length
        · rw [List.getElem?_append_left hj] at hv
          have := (hmin j v hv).1
          exact ⟨by omega, fun _ => by omega⟩
        · have hj2 : j = pre.length := by
            by_contra hne
            rw [List.getElem?_eq_none (by simp; omega)] at hv
            cases hv
          subst hj2
          simp at hv
          subst hv
          exact ⟨le_refl _, fun h => absurd h (lt_irrefl _)⟩
    · rw [if_neg hx]
      apply key smallest best
      · exact ⟨w, by rw [List.getElem?_append_left hsl]; exact hw, hb⟩
      · intro j v hv
        by_cases hj : j < pre.length
        · rw [List.getElem?_append_left hj] at hv
          exact hmin j v hv
        · have hj2 : j = pre.length := by
            by_contra hne
            rw [List.getElem?_eq_none (by simp; omega)] at hv
            cases hv
          subst hj2
          simp at hv
          subst hv
          exact ⟨by omega, fun h => by omega⟩

/-- C9: the dispatcher is constructed with the load-balancing policy; on an empty range
the policy returns the end sentinel (offset `range.length`), on a non-empty range it
returns the position of a worker whose deque length is minimal over the range, and
every worker at an earlier position has a strictly longer deque (earliest minimum).
The round-robin counter is left alone. -/
theorem load_balancing_scheduler_first_minimum (range : List Worker)
    (counter rand hardware_concurrency : Nat) :
    (Dispatcher.construct hardware_concurrency).m_scheduler range counter rand
        = load_balancing_scheduler range counter rand ∧
    (load_balancing_scheduler range counter rand).2 = counter ∧
    ∃ k, (load_balancing_scheduler range counter rand).1 = some k ∧
      (range = [] → k = range.length) ∧
      (range ≠ [] → ∃ w, range[k]? = some w ∧
        ∀ j v, range[j]? = some v →
          w.task_count ≤ v.task_count ∧ (j < k → w.task_count < v.task_count)) := by
  refine ⟨rfl, rfl, min_element range, rfl, ?_, ?_⟩
  · intro h
    subst h
    rfl
  · intro h
    cases range with
    | nil => exact absurd rfl h
    | cons x rest =>
      have key := min_element_from_spec rest [x] 0 x.task_count ⟨x, rfl, rfl⟩ (by
        intro j w hw
        cases j with
        | zero =>
          simp at hw
          subst hw
          exact ⟨le_refl _, fun h0 => absurd h0 (lt_irrefl _)⟩
        | succ j => simp at hw)
      simpa [min_element] using key

/-- C10: on a pool of `n ≥ 1` workers a round-robin call with counter value `c`
returns the index `c mod n`, which lies in `[0, n)`, and leaves the counter at
`(c + 1) mod 2^64`; the next call on a pool of the same size again returns an index in
`[0, n)` (also when the counter has wrapped), and when the counter did not wrap that
index is the successor modulo `n` of the first one. -/
theorem round_robin_scheduler_index (range range2 : List Worker) (c rand rand2 : Nat)
    (hn : 1 ≤ range.length) (hlen : range2.length = range.length) :
    (round_robin_scheduler range c rand).1 = some (c % range.length) ∧
    (round_robin_scheduler range c rand).2 = (c + 1) % SIZE_MOD ∧
    c % range.length < range.length ∧
    (∃ i2, (round_robin_scheduler range2 (round_robin_scheduler range c rand).2 rand2).1
        = some i2 ∧ i2 < range.length) ∧
    (c + 1 < SIZE_MOD →
      (round_robin_scheduler range2 (round_robin_scheduler range c rand).2 rand2).1
        = some ((c % range.length + 1) % range.length)) := by
  have h0 : range.length ≠ 0 := by omega
  have h2 : range2.length ≠ 0 := by omega
  have hpos : 0 < range.length := by omega
  refine ⟨by simp [round_robin_scheduler, h0], by simp [round_robin_scheduler, h0],
    Nat.mod_lt _ hpos, ?_, ?_⟩
  · refine ⟨((c + 1) % SIZE_MOD) % range.length, ?_, Nat.mod_lt _ hpos⟩
    simp [round_robin_scheduler, h0, h2, hlen]
  · intro hw
    simp [round_robin_scheduler, h0, h2, hlen, Nat.mod_eq_of_lt hw]

/-- Witness for C10: two workers, counter 5. -/
theorem round_robin_scheduler_index_witness :
    (round_robin_scheduler [Worker.construct false 0, Worker.construct false 0] 5 0).1
        = some (5 % 2) ∧
    (round_robin_scheduler [Worker.construct false 0, Worker.construct false 0] 5 0).2
        = (5 + 1) % SIZE_MOD :=
  let h := round_robin_scheduler_index
    [Worker.construct false 0, Worker.construct false 0]
    [Worker.construct false 0, Worker.construct false 0] 5 0 0 (by decide) rfl
  ⟨h.1, h.2.1⟩

/-! ## Frame lemmas for the state accessors -/

theorem deque_setTask (s : State) (t : TaskRef) (v : Task) (j : Nat) :
    (s.setTask t v).deque j = s.deque j := rfl

theorem deque_setWorker_same (s : State) (i : Nat) (w : Worker)
    (h : i < s.dispatcher.m_workers.length) :
    (s.setWorker i w).deque i = w.m_deque := by
  simp [State.deque, State.setWorker, h]

theorem deque_setWorker_other (s : State) (i j : Nat) (w : Worker) (h : j ≠ i) :
    (s.setWorker i w).deque j = s.deque j := by
  simp [State.deque, State.setWorker, List.getElem?_set_ne (Ne.symm h)]

theorem find_if_le (p : Worker → Bool) (l : List Worker) : find_if p l ≤ l.length := by
  induction l with
  | nil => simp [find_if]
  | cons w rest ih =>
    simp only [find_if, List.length_cons]
    split <;> omega

theorem find_if_spec (p : Worker → Bool) (l : List Worker) (h : find_if p l ≠ l.length) :
    ∃ w, l[find_if p l]? = some w ∧ p w = true := by
  induction l with
  | nil => simp [find_if] at h
  | cons w rest ih =>
    simp only [find_if]
    by_cases hp : p w = true
    · simp [hp]
    · simp only [hp, if_false]
      have : find_if p rest ≠ rest.length := by
        intro hc
        apply h
        simp [find_if, hp, hc]
      simpa using ih this

theorem find_if_congr (p : Worker → Bool) (l l2 : List Worker)
    (h : l.map p = l2.map p) : find_if p l = find_if p l2 := by
  induction l generalizing l2 with
  | nil =>
    cases l2 with
    | nil => rfl
    | cons a b => simp at h
  | cons w rest ih =>
    cases l2 with
    | nil => simp at h
    | cons a b =>
      simp only [List.map_cons, List.cons.injEq] at h
      simp [find_if, h.1, ih b h.2]

/-- A successful `current_worker` returns a position inside the worker list whose
worker carries the caller's thread id. -/
theorem current_worker_ok (d : Dispatcher) (caller : ThreadId) (i : Nat)
    (h : Dispatcher.current_worker d caller = Except.ok i) :
    ∃ w, d.m_workers[i]? = some w ∧ w.m_thread_id = some caller := by
  unfold Dispatcher.current_worker at h
  simp only at h
  split at h
  · cases h
  · split at h
    · rename_i hne
      cases h
      obtain ⟨w, hw, hp⟩ := find_if_spec _ _ hne
      exact ⟨w, hw, by simpa [Worker.get_id] using hp⟩
    · cases h

/-- The result of `current_worker` depends only on the thread ids of the workers and
on the main-processing flag. -/
theorem current_worker_congr (d d2 : Dispatcher) (caller : ThreadId)
    (hids : d.m_workers.map (fun w => w.m_thread_id) = d2.m_workers.map (fun w => w.m_thread_id))
    (hflag : d.m_main_processing = d2.m_main_processing) :
    Dispatcher.current_worker d caller = Dispatcher.current_worker d2 caller := by
  have hlen : d.m_workers.length = d2.m_workers.length := by
    simpa using congrArg List.length hids
  have hf : find_if (fun element => element.get_id == some caller) d.m_workers
      = find_if (fun element => element.get_id == some caller) d2.m_workers := by
    apply find_if_congr
    have := congrArg (List.map (fun (x : thread_id) => x == some caller)) hids
    simpa [List.map_map, Function.comp_def, Worker.get_id] using this
  unfold Dispatcher.current_worker
  simp only [hf, hflag, hlen]

theorem thread_ids_set (l : List Worker) (i : Nat) (w v : Worker)
    (hw : l[i]? = some w) (hid : v.m_thread_id = w.m_thread_id) :
    (l.set i v).map (fun w => w.m_thread_id) = l.map (fun w => w.m_thread_id) := by
  apply List.ext_getElem?
  intro n
  by_cases hn : n = i
  · subst hn
    have hlt : n < l.length := by
      by_contra hc
      rw [List.getElem?_eq_none (by omega)] at hw
      cases hw
    have hget : l[n] = w := by
      rw [List.getElem?_eq_getElem hlt] at hw
      exact Option.some.inj hw
    simp [List.getElem?_map, hid, hlt, hget]
  · simp [List.getElem?_map, List.getElem?_set_ne (Ne.symm hn)]

/-! ## Continuation publication and `decrement_refcount` -/

theorem push_task_ok (s : State) (caller : ThreadId) (c : TaskRef) (i : Nat)
    (h : Dispatcher.current_worker s.dispatcher caller = Except.ok i) :
    ∃ w, s.dispatcher.m_workers[i]? = some w ∧ w.m_thread_id = some caller ∧
      Dispatcher.push_task s caller c = ⟨s.setWorker i (w.push_task c), Signal.returned⟩ := by
  obtain ⟨w, hw, hid⟩ := current_worker_ok _ _ _ h
  exact ⟨w, hw, hid, by simp [Dispatcher.push_task, h, hw]⟩


/-- The value that `--m_refcount` stores. -/
theorem dec_value_pos (r : Nat) (hpos : 0 < r) : dec_value r = r - 1 := by
  unfold dec_value
  rw [if_neg (by omega)]

theorem decrement_refcount_nonzero (s : State) (caller : ThreadId) (t : TaskRef)
    (h : dec_value (s.tasks t).m_refcount ≠ 0) :
    Task.decrement_refcount s caller t
      = ⟨s.setTask t { s.tasks t with
            m_refcount := dec_value (s.tasks t).m_refcount },
         Signal.returned⟩ := by
  unfold Task.decrement_refcount
  simp only [if_neg h]

theorem decrement_refcount_zero_none (s : State) (caller : ThreadId) (t : TaskRef)
    (h : dec_value (s.tasks t).m_refcount = 0)
    (hc : (s.tasks t).m_continuation = none) :
    Task.decrement_refcount s caller t
      = ⟨s.setTask t { s.tasks t with m_refcount := 0 }, Signal.returned⟩ := by
  unfold Task.decrement_refcount
  simp only [h, if_true, State.setTask, hc]

theorem decrement_refcount_zero_some (s : State) (caller : ThreadId) (t c : TaskRef)
    (h : dec_value (s.tasks t).m_refcount = 0)
    (hc : (s.tasks t).m_continuation = some c) :
    Task.decrement_refcount s caller t
      = Dispatcher.push_task (s.setTask t { s.tasks t with m_refcount := 0 }) caller c := by
  unfold Task.decrement_refcount
  simp only [h, if_true, State.setTask, hc, detail.push_task]

/-- The task table after `decrement_refcount`: only the refcount of `t` changes. -/
theorem decrement_refcount_tasks (s : State) (caller : ThreadId) (t : TaskRef) :
    (Task.decrement_refcount s caller t).state.tasks
      = fun x => if x = t then
          { s.tasks t with
            m_refcount := dec_value (s.tasks t).m_refcount }
        else s.tasks x := by
  by_cases h : dec_value (s.tasks t).m_refcount = 0
  · cases hc : (s.tasks t).m_continuation with
    | none =>
      rw [decrement_refcount_zero_none s caller t h hc, h]
      rfl
    | some c =>
      rw [decrement_refcount_zero_some s caller t c h hc, h]
      unfold Dispatcher.push_task
      split
      · rfl
      · split <;> rfl
  · rw [decrement_refcount_nonzero s caller t h]
    rfl

theorem getElem?_some_lt {α : Type} (l : List α) (i : Nat) (w : α) (h : l[i]? = some w) :
    i < l.length := by
  by_contra hc
  rw [List.getElem?_eq_none (by omega)] at h
  cases h

/-- C3: on a task whose refcount is at least 1, `decrement_refcount` lowers the
refcount by exactly 1 and touches no other task.  If the new value is 0 and a
continuation `c` is set, then for the worker `i` that `current_worker` finds for the
calling thread (whatever task that worker ran), `c` is pushed to the front of the
deque of `i` and every other deque is unchanged.  If the new value is not 0, or no
continuation is set, every deque is unchanged. -/
theorem decrement_refcount_effect (s : State) (caller : ThreadId) (t : TaskRef)
    (hpos : 0 < Task.get_refcount s t) :
    Task.get_refcount (Task.decrement_refcount s caller t).state t
        = Task.get_refcount s t - 1 ∧
    (∀ q, q ≠ t → (Task.decrement_refcount s caller t).state.tasks q = s.tasks q) ∧
    (∀ c i, Task.get_refcount (Task.decrement_refcount s caller t).state t = 0 →
        Task.get_continuation s t = some c →
        Dispatcher.current_worker s.dispatcher caller = Except.ok i →
        (Task.decrement_refcount s caller t).signal = Signal.returned ∧
        (Task.decrement_refcount s caller t).state.deque i = c :: s.deque i ∧
        ∀ j, j ≠ i → (Task.decrement_refcount s caller t).state.deque j = s.deque j) ∧
    ((Task.get_refcount (Task.decrement_refcount s caller t).state t ≠ 0 ∨
        Task.get_continuation s t = none) →
        (Task.decrement_refcount s caller t).signal = Signal.returned ∧
        ∀ j, (Task.decrement_refcount s caller t).state.deque j = s.deque j) := by
  have hv := dec_value_pos _ hpos
  unfold Task.get_refcount at hv hpos
  have hrc : Task.get_refcount (Task.decrement_refcount s caller t).state t
      = Task.get_refcount s t - 1 := by
    unfold Task.get_refcount
    rw [decrement_refcount_tasks]
    simp only [↓reduceIte]
    rw [hv]
  refine ⟨hrc, ?_, ?_, ?_⟩
  · intro q hq
    rw [decrement_refcount_tasks]
    simp only [if_neg hq]
  · intro c i h0 hc hi
    rw [hrc] at h0
    unfold Task.get_refcount at h0
    unfold Task.get_continuation at hc
    rw [decrement_refcount_zero_some s caller t c (by rw [hv]; exact h0) hc]
    obtain ⟨w, hw, _, hp⟩ := push_task_ok (s.setTask t { s.tasks t with m_refcount := 0 })
      caller c i hi
    rw [hp]
    have hw2 : s.dispatcher.m_workers[i]? = some w := hw
    have hlen : i < s.dispatcher.m_workers.length := getElem?_some_lt _ _ _ hw2
    refine ⟨rfl, ?_, ?_⟩
    · rw [deque_setWorker_same (s.setTask t _) i _ hlen]
      simp [Worker.push_task, State.deque, hw2]
    · intro j hj
      rw [deque_setWorker_other _ _ _ _ hj]
      rfl
  · intro hcase
    rw [hrc] at hcase
    unfold Task.get_refcount Task.get_continuation at hcase
    by_cases h : dec_value (s.tasks t).m_refcount = 0
    · rcases hcase with h1 | h1
      · rw [hv] at h
        exact absurd h h1
      · rw [decrement_refcount_zero_none s caller t h h1]
        exact ⟨rfl, fun j => rfl⟩
    · rw [decrement_refcount_nonzero s caller t h]
      exact ⟨rfl, fun j => rfl⟩

/-- Witness for C3: task `1` (refcount 1, continuation `2`) is decremented on the
thread of worker `2`; the continuation lands at the front of that worker's deque. -/
theorem decrement_refcount_effect_witness :
    0 < Task.get_refcount demo_continuation_state 1 ∧
    Task.get_refcount (Task.decrement_refcount demo_continuation_state 102 1).state 1 = 0 ∧
    (Task.decrement_refcount demo_continuation_state 102 1).state.deque 2 = [2] :=
  ⟨by decide,
   (decrement_refcount_effect demo_continuation_state 102 1 (by decide)).1,
   ((decrement_refcount_effect demo_continuation_state 102 1 (by decide)).2.2.1 2 2
      (by decide) rfl rfl).2.1⟩

/-! ## Spawn and submit -/

/-- The value that `m_refcount++` stores when the counter is below its largest value. -/
theorem inc_value_eq (r : Nat) (h : r < UINT_MAX) : (r + 1) % UINT_MOD = r + 1 := by
  apply Nat.mod_eq_of_lt
  unfold UINT_MAX at h
  omega

theorem spawn_ok (s : State) (caller : ThreadId) (T P : TaskRef) (i : Nat) (W : Worker)
    (hi : Dispatcher.current_worker s.dispatcher caller = Except.ok i)
    (hW : s.dispatcher.m_workers[i]? = some W)
    (hP : W.current_task = some P) :
    Dispatcher.spawn s caller T
      = ⟨((Task.increment_refcount (Task.set_parent s T (some P)) P).setWorker i
            (W.push_task T)).record_spawn P T, Signal.returned⟩ := by
  unfold Dispatcher.spawn
  simp only [hi, hW, hP]

theorem spawn_steps_ok (s : State) (caller : ThreadId) (T P : TaskRef) (i : Nat) (W : Worker)
    (hi : Dispatcher.current_worker s.dispatcher caller = Except.ok i)
    (hW : s.dispatcher.m_workers[i]? = some W)
    (hP : W.current_task = some P) :
    Dispatcher.spawn_steps s caller T
      = [Task.set_parent s T (some P),
         Task.increment_refcount (Task.set_parent s T (some P)) P,
         (Task.increment_refcount (Task.set_parent s T (some P)) P).setWorker i
           (W.push_task T)] := by
  unfold Dispatcher.spawn_steps
  simp only [hi, hW, hP]

/-- C5: when `spawn T` is called on the thread of worker `i` whose current task is
`P`, the call returns, `T`'s parent is `P`, `P`'s refcount is one higher, `T` is at
the front of the deque of `i`, no other deque and no other refcount changes, and `T`
keeps its affinity.  The increment comes before the push: the call passes through
exactly three observable states, the first with the parent set and nothing else
changed, the second with `P`'s refcount already raised while every deque is still as
before, the third with `T` at the front of the deque of `i`, and the call ends in the
third; so in every state of the call in which the deque of `i` differs from what it
was, the refcount of `P` is already raised and the parent of `T` is set. -/
theorem spawn_effect (s : State) (caller : ThreadId) (T P : TaskRef) (i : Nat) (W : Worker)
    (hi : Dispatcher.current_worker s.dispatcher caller = Except.ok i)
    (hW : s.dispatcher.m_workers[i]? = some W)
    (hP : W.current_task = some P)
    (hmax : Task.get_refcount s P < UINT_MAX) :
    (Dispatcher.spawn s caller T).signal = Signal.returned ∧
    Task.get_parent (Dispatcher.spawn s caller T).state T = some P ∧
    Task.get_refcount (Dispatcher.spawn s caller T).state P = Task.get_refcount s P + 1 ∧
    (Dispatcher.spawn s caller T).state.deque i = T :: s.deque i ∧
    (∀ j, j ≠ i → (Dispatcher.spawn s caller T).state.deque j = s.deque j) ∧
    (∀ q, q ≠ P →
      Task.get_refcount (Dispatcher.spawn s caller T).state q = Task.get_refcount s q) ∧
    Task.get_thread_affinity (Dispatcher.spawn s caller T).state T
      = Task.get_thread_affinity s T ∧
    (Dispatcher.spawn s caller T).state
      = ((Task.increment_refcount (Task.set_parent s T (some P)) P).setWorker i
          (W.push_task T)).record_spawn P T ∧
    (∀ j, (Task.increment_refcount (Task.set_parent s T (some P)) P).deque j = s.deque j) ∧
    Task.get_refcount (Task.increment_refcount (Task.set_parent s T (some P)) P) P
      = Task.get_refcount s P + 1 ∧
    (∃ s1 s2 s3, Dispatcher.spawn_steps s caller T = [s1, s2, s3] ∧
      Task.get_parent s1 T = some P ∧ Task.get_refcount s1 P = Task.get_refcount s P ∧
      (∀ j, s1.deque j = s.deque j) ∧
      Task.get_refcount s2 P = Task.get_refcount s P + 1 ∧
      (∀ j, s2.deque j = s.deque j) ∧
      Task.get_refcount s3 P = Task.get_refcount s P + 1 ∧
      s3.deque i = T :: s.deque i ∧
      (Dispatcher.spawn s caller T).state = s3.record_spawn P T) ∧
    (∀ st, st ∈ Dispatcher.spawn_steps s caller T → st.deque i ≠ s.deque i →
      Task.get_refcount st P = Task.get_refcount s P + 1 ∧
      Task.get_parent st T = some P) := by
  have hlen : i < s.dispatcher.m_workers.length := getElem?_some_lt _ _ _ hW
  unfold Task.get_refcount at hmax
  have hinc := inc_value_eq _ hmax
  have hsteps := spawn_steps_ok s caller T P i W hi hW hP
  have hpar1 : Task.get_parent (Task.set_parent s T (some P)) T = some P := by
    simp [Task.get_parent, Task.set_parent, State.setTask]
  have href1 : Task.get_refcount (Task.set_parent s T (some P)) P = Task.get_refcount s P := by
    by_cases hTP : P = T
    · subst hTP
      simp [Task.get_refcount, Task.set_parent, State.setTask]
    · simp [Task.get_refcount, Task.set_parent, State.setTask, hTP]
  have href2 : Task.get_refcount (Task.increment_refcount (Task.set_parent s T (some P)) P) P
      = Task.get_refcount s P + 1 := by
    by_cases hTP : P = T
    · subst hTP
      simp [Task.get_refcount, Task.increment_refcount, Task.set_parent, State.setTask, hinc]
    · simp [Task.get_refcount, Task.increment_refcount, Task.set_parent, State.setTask,
        hTP, hinc]
  have hpar2 : Task.get_parent (Task.increment_refcount (Task.set_parent s T (some P)) P) T
      = some P := by
    by_cases hTP : T = P
    · subst hTP
      simp [Task.get_parent, Task.increment_refcount, Task.set_parent, State.setTask]
    · simp [Task.get_parent, Task.increment_refcount, Task.set_parent, State.setTask, hTP]
  have hdq3 : State.deque ((Task.increment_refcount (Task.set_parent s T (some P)) P).setWorker i
      (W.push_task T)) i = T :: s.deque i := by
    rw [deque_setWorker_same (Task.increment_refcount (Task.set_parent s T (some P)) P) i _ hlen]
    simp [Worker.push_task, State.deque, hW]
  have hspawn := spawn_ok s caller T P i W hi hW hP
  have hnew : (∃ s1 s2 s3, Dispatcher.spawn_steps s caller T = [s1, s2, s3] ∧
      Task.get_parent s1 T = some P ∧ Task.get_refcount s1 P = Task.get_refcount s P ∧
      (∀ j, s1.deque j = s.deque j) ∧
      Task.get_refcount s2 P = Task.get_refcount s P + 1 ∧
      (∀ j, s2.deque j = s.deque j) ∧
      Task.get_refcount s3 P = Task.get_refcount s P + 1 ∧
      s3.deque i = T :: s.deque i ∧
      (Dispatcher.spawn s caller T).state = s3.record_spawn P T) ∧
    (∀ st, st ∈ Dispatcher.spawn_steps s caller T → st.deque i ≠ s.deque i →
      Task.get_refcount st P = Task.get_refcount s P + 1 ∧
      Task.get_parent st T = some P) := by
    refine ⟨⟨_, _, _, hsteps, hpar1, href1, fun j => rfl, href2, fun j => rfl, href2, hdq3,
      by rw [hspawn]⟩, ?_⟩
    intro st hst hne
    rw [hsteps] at hst
    simp only [List.mem_cons, List.mem_singleton, List.not_mem_nil, or_false] at hst
    rcases hst with h1 | h2 | h3
    · subst h1
      exact absurd rfl hne
    · subst h2
      exact absurd rfl hne
    · subst h3
      exact ⟨href2, hpar2⟩
  rw [hspawn] at hnew
  rw [spawn_ok s caller T P i W hi hW hP]
  refine ⟨rfl, ?_, ?_, ?_, ?_, ?_, ?_, rfl, fun j => rfl, ?_, hnew⟩
  · by_cases hTP : T = P
    · subst hTP
      simp [Task.get_parent, State.record_spawn, State.setWorker, Task.increment_refcount, Task.set_parent,
        State.setTask]
    · simp [Task.get_parent, State.record_spawn, State.setWorker, Task.increment_refcount, Task.set_parent,
        State.setTask, hTP]
  · by_cases hTP : P = T
    · subst hTP
      simp [Task.get_refcount, State.record_spawn, State.setWorker, Task.increment_refcount, Task.set_parent,
        State.setTask, hinc]
    · simp [Task.get_refcount, State.record_spawn, State.setWorker, Task.increment_refcount, Task.set_parent,
        State.setTask, hTP, hinc]
  · show State.deque ((Task.increment_refcount (Task.set_parent s T (some P)) P).setWorker i
        (W.push_task T)) i = _
    rw [deque_setWorker_same (Task.increment_refcount (Task.set_parent s T (some P)) P) i _ hlen]
    simp [Worker.push_task, State.deque, hW]
  · intro j hj
    show State.deque ((Task.increment_refcount (Task.set_parent s T (some P)) P).setWorker i
        (W.push_task T)) j = _
    rw [deque_setWorker_other _ _ _ _ hj]
    rfl
  · intro q hq
    by_cases hqT : q = T
    · subst hqT
      simp [Task.get_refcount, State.record_spawn, State.setWorker, Task.increment_refcount, Task.set_parent,
        State.setTask, hq]
    · simp [Task.get_refcount, State.record_spawn, State.setWorker, Task.increment_refcount, Task.set_parent,
        State.setTask, hq, hqT]
  · by_cases hTP : T = P
    · subst hTP
      simp [Task.get_thread_affinity, State.record_spawn, State.setWorker, Task.increment_refcount,
        Task.set_parent, State.setTask]
    · simp [Task.get_thread_affinity, State.record_spawn, State.setWorker, Task.increment_refcount,
        Task.set_parent, State.setTask, hTP]
  · by_cases hTP : P = T
    · subst hTP
      simp [Task.get_refcount, Task.increment_refcount, Task.set_parent, State.setTask, hinc]
    · simp [Task.get_refcount, Task.increment_refcount, Task.set_parent, State.setTask,
        hTP, hinc]

/-- Witness for C5: the payload of task `1`, running on the worker at position `1`
(thread `101`), spawns task `2`.  The three observable states of the call show the
refcount of task `1` and the deque of the worker as `(1, [])`, `(2, [])`, `(2, [2])`. -/
theorem spawn_effect_witness :
    Task.get_parent (Dispatcher.spawn demo_running_state 101 2).state 2 = some 1 ∧
    Task.get_refcount (Dispatcher.spawn demo_running_state 101 2).state 1 = 2 ∧
    (Dispatcher.spawn demo_running_state 101 2).state.deque 1 = [2] ∧
    (∀ st, st ∈ Dispatcher.spawn_steps demo_running_state 101 2 →
      st.deque 1 ≠ demo_running_state.deque 1 →
      Task.get_refcount st 1 = Task.get_refcount demo_running_state 1 + 1 ∧
      Task.get_parent st 2 = some 1) ∧
    (Dispatcher.spawn_steps demo_running_state 101 2).map
        (fun st => (Task.get_refcount st 1, st.deque 1))
      = [(1, []), (2, []), (2, [2])] :=
  have h := spawn_effect demo_running_state 101 2 1 1
    { m_can_steal := true, m_stop_flag := false, m_deque := [], m_thread := some 101,
      m_thread_id := some 101, m_current_task := some 1 }
    rfl rfl rfl (by decide)
  ⟨h.2.1, h.2.2.1, h.2.2.2.1, h.2.2.2.2.2.2.2.2.2.2.2, by decide⟩

theorem submit_main (s : State) (rand : Nat) (T : TaskRef) (main_worker : Worker)
    (range : List Worker) (hinit : s.dispatcher.m_workers = main_worker :: range)
    (haff : Task.get_thread_affinity s T = thread_affinity.main) :
    Dispatcher.submit s rand T
      = ⟨s.setWorker 0 (main_worker.submit T), Signal.returned⟩ := by
  unfold Dispatcher.submit
  simp only [hinit, haff, if_true]

/-- C6: on a dispatcher whose worker list is the main worker followed by the stealable
range: a main-affinity task is appended to the back of deque `0`, no other deque
changes, and neither the result nor the round-robin counter depends on the policy;
any other task makes the policy run on exactly the stealable range, and when the
policy returns the end sentinel (offset `range.length`) the call throws
`scheduler_exception` with every deque unchanged, while for an offset inside the range
the task is appended to the back of the selected worker's deque (position
`offset + 1` of the worker list) and no other deque changes. -/
theorem submit_effect (s : State) (rand : Nat) (T : TaskRef) (main_worker : Worker)
    (range : List Worker) (hinit : s.dispatcher.m_workers = main_worker :: range) :
    (Task.get_thread_affinity s T = thread_affinity.main →
      (Dispatcher.submit s rand T).signal = Signal.returned ∧
      (Dispatcher.submit s rand T).state.deque 0 = s.deque 0 ++ [T] ∧
      (∀ j, j ≠ 0 → (Dispatcher.submit s rand T).state.deque j = s.deque j) ∧
      (Dispatcher.submit s rand T).state.rr_counter = s.rr_counter ∧
      ∀ p : scheduler_t,
        (Dispatcher.submit { s with dispatcher := { s.dispatcher with m_scheduler := p } }
            rand T).state.dispatcher.m_workers
          = (Dispatcher.submit s rand T).state.dispatcher.m_workers) ∧
    (Task.get_thread_affinity s T ≠ thread_affinity.main →
      (Dispatcher.submit s rand T).state.rr_counter
        = (s.dispatcher.m_scheduler range s.rr_counter rand).2 ∧
      ∀ offset, (s.dispatcher.m_scheduler range s.rr_counter rand).1 = some offset →
        (offset = range.length →
          (Dispatcher.submit s rand T).signal
            = Signal.thrown tdl_exception.scheduler_exception ∧
          ∀ j, (Dispatcher.submit s rand T).state.deque j = s.deque j) ∧
        (offset < range.length →
          (Dispatcher.submit s rand T).signal = Signal.returned ∧
          (Dispatcher.submit s rand T).state.deque (offset + 1)
            = s.deque (offset + 1) ++ [T] ∧
          ∀ j, j ≠ offset + 1 → (Dispatcher.submit s rand T).state.deque j = s.deque j)) := by
  constructor
  · intro haff
    rw [submit_main s rand T main_worker range hinit haff]
    refine ⟨rfl, ?_, ?_, rfl, ?_⟩
    · rw [deque_setWorker_same s 0 _ (by rw [hinit]; simp)]
      simp [Worker.submit, State.deque, hinit]
    · intro j hj
      exact deque_setWorker_other s 0 j _ hj
    · intro p
      rw [submit_main { s with dispatcher := { s.dispatcher with m_scheduler := p } }
        rand T main_worker range hinit haff]
      rfl
  · intro haff
    constructor
    · unfold Dispatcher.submit
      simp only [hinit, haff, if_false]
      split
      · rfl
      · split
        · rfl
        · split <;> rfl
    · intro offset hoff
      constructor
      · intro hend
        have hsub : Dispatcher.submit s rand T
            = ⟨{ s with rr_counter := (s.dispatcher.m_scheduler range s.rr_counter rand).2 },
                Signal.thrown tdl_exception.scheduler_exception⟩ := by
          unfold Dispatcher.submit
          simp only [hinit, haff, if_false, hoff, hend, if_true]
        rw [hsub]
        exact ⟨rfl, fun j => rfl⟩
      · intro hlt
        have hne : offset ≠ range.length := by omega
        have hget : range[offset]? = some range[offset] := List.getElem?_eq_getElem hlt
        have hsub : Dispatcher.submit s rand T
            = ⟨State.setWorker
                { s with rr_counter := (s.dispatcher.m_scheduler range s.rr_counter rand).2 }
                (offset + 1) (range[offset].submit T), Signal.returned⟩ := by
          unfold Dispatcher.submit
          simp only [hinit, haff, if_false, hoff, hne, hget]
        rw [hsub]
        refine ⟨rfl, ?_, ?_⟩
        · rw [deque_setWorker_same _ _ _ (by
            show offset + 1 < s.dispatcher.m_workers.length
            rw [hinit]; simp; omega)]
          simp [Worker.submit, State.deque, hinit, hget]
        · intro j hj
          rw [deque_setWorker_other _ _ _ _ hj]
          rfl

/-- Witness for C6: task `1` has no main affinity; the default policy selects offset
`0` of the stealable range, so the task lands at the back of deque `1`. -/
theorem submit_effect_witness :
    (Dispatcher.submit demo_state 0 1).signal = Signal.returned ∧
    (Dispatcher.submit demo_state 0 1).state.deque (0 + 1) = demo_state.deque (0 + 1) ++ [1] :=
  have h := ((submit_effect demo_state 0 1 (Worker.construct true 100)
    [(Worker.construct false 100).start 101, (Worker.construct false 100).start 102]
    rfl).2 (by decide)).2 0 rfl
  ⟨(h.2 (by decide)).1, (h.2 (by decide)).2.1⟩

/-! ## `Task::process` -/

theorem same_threads_refl (d : Dispatcher) : same_threads d d := ⟨rfl, rfl⟩

theorem same_threads_trans (a b c : Dispatcher) (h1 : same_threads a b)
    (h2 : same_threads b c) : same_threads a c :=
  ⟨h1.1.trans h2.1, h1.2.trans h2.2⟩

theorem current_worker_same_threads (d d2 : Dispatcher) (caller : ThreadId)
    (h : same_threads d d2) :
    Dispatcher.current_worker d2 caller = Dispatcher.current_worker d caller :=
  (current_worker_congr d d2 caller h.1 h.2).symm

theorem same_threads_setWorker (s : State) (i : Nat) (w v : Worker)
    (hw : s.dispatcher.m_workers[i]? = some w) (hid : v.m_thread_id = w.m_thread_id) :
    same_threads s.dispatcher (s.setWorker i v).dispatcher :=
  ⟨(thread_ids_set _ i w v hw hid).symm, rfl⟩

theorem push_task_same_threads (s : State) (caller : ThreadId) (c : TaskRef) :
    same_threads s.dispatcher (Dispatcher.push_task s caller c).state.dispatcher := by
  unfold Dispatcher.push_task
  split
  · exact same_threads_refl _
  · split
    · exact same_threads_refl _
    · rename_i w hw
      exact same_threads_setWorker s _ w _ hw rfl

theorem decrement_refcount_same_threads (s : State) (caller : ThreadId) (t : TaskRef) :
    same_threads s.dispatcher (Task.decrement_refcount s caller t).state.dispatcher := by
  by_cases h : dec_value (s.tasks t).m_refcount = 0
  · cases hc : (s.tasks t).m_continuation with
    | none =>
      rw [decrement_refcount_zero_none s caller t h hc]
      exact same_threads_refl _
    | some c =>
      rw [decrement_refcount_zero_some s caller t c h hc]
      exact push_task_same_threads (s.setTask t _) caller c
  · rw [decrement_refcount_nonzero s caller t h]
    exact same_threads_refl _

/-- On the thread of a worker, `decrement_refcount` returns normally. -/
theorem decrement_refcount_returns (s : State) (caller : ThreadId) (t : TaskRef) (i : Nat)
    (hctx : Dispatcher.current_worker s.dispatcher caller = Except.ok i) :
    (Task.decrement_refcount s caller t).signal = Signal.returned := by
  by_cases h : dec_value (s.tasks t).m_refcount = 0
  · cases hc : (s.tasks t).m_continuation with
    | none => rw [decrement_refcount_zero_none s caller t h hc]
    | some c =>
      rw [decrement_refcount_zero_some s caller t c h hc]
      obtain ⟨w, _, _, hp⟩ := push_task_ok (s.setTask t { s.tasks t with m_refcount := 0 })
        caller c i hctx
      rw [hp]
  · rw [decrement_refcount_nonzero s caller t h]

theorem decrement_refcount_get (s : State) (caller : ThreadId) (t : TaskRef) :
    (0 < Task.get_refcount s t →
      Task.get_refcount (Task.decrement_refcount s caller t).state t
        = Task.get_refcount s t - 1) ∧
    ∀ q, q ≠ t →
      Task.get_refcount (Task.decrement_refcount s caller t).state q = Task.get_refcount s q := by
  constructor
  · intro hpos
    have hv := dec_value_pos _ hpos
    unfold Task.get_refcount at hv ⊢
    rw [decrement_refcount_tasks]
    simp only [↓reduceIte]
    rw [hv]
  · intro q hq
    unfold Task.get_refcount
    rw [decrement_refcount_tasks]
    simp only [if_neg hq]

theorem process_after_execute_parent (s : State) (caller : ThreadId) (t p : TaskRef) (i : Nat)
    (hp : Task.get_parent s t = some p)
    (hctx : Dispatcher.current_worker s.dispatcher caller = Except.ok i) :
    Task.process_after_execute s caller t
      = Task.decrement_refcount
          (Task.decrement_refcount (s.record_return t) caller p).state caller t := by
  have hsig := decrement_refcount_returns (s.record_return t) caller p i hctx
  unfold Task.process_after_execute
  have hp2 : ((s.record_return t).tasks t).m_parent = some p := hp
  simp only [hp2]
  generalize Task.decrement_refcount (s.record_return t) caller p = r at hsig
  obtain ⟨st, sg⟩ := r
  simp only at hsig
  subst hsig
  rfl

theorem process_after_execute_orphan (s : State) (caller : ThreadId) (t : TaskRef)
    (hp : Task.get_parent s t = none) :
    Task.process_after_execute s caller t
      = Task.decrement_refcount (s.record_return t) caller t := by
  unfold Task.process_after_execute
  have hp2 : ((s.record_return t).tasks t).m_parent = none := hp
  simp only [hp2]

/-- C4: let the payload of `T` return normally with state `s1` on the thread of a
worker.  Then `process` continues from `s1` (the payload ran first): if `T` has a
parent `p` in `s1`, the parent's refcount is decremented (by exactly 1 when it is at
least 1) and no other refcount changes, giving a state `s2`; without a parent `s2`
has the refcounts of `s1`.  Then `T`'s own refcount is decremented in `s2` (by exactly
1 when it is at least 1) and no other refcount changes; the call returns.  So without
a parent no refcount other than `T`'s differs from `s1`. -/
theorem process_effect (execute : TaskRef → ThreadId → State → Res) (s s1 : State)
    (caller : ThreadId) (T : TaskRef) (i : Nat)
    (hexec : execute T caller s = ⟨s1, Signal.returned⟩)
    (hctx : Dispatcher.current_worker s1.dispatcher caller = Except.ok i) :
    ∃ s2,
      (∀ p, Task.get_parent s1 T = some p →
        s2 = (Task.decrement_refcount (s1.record_return T) caller p).state ∧
        (0 < Task.get_refcount s1 p → Task.get_refcount s2 p = Task.get_refcount s1 p - 1) ∧
        ∀ q, q ≠ p → Task.get_refcount s2 q = Task.get_refcount s1 q) ∧
      (Task.get_parent s1 T = none → s2 = s1.record_return T) ∧
      Task.process execute s caller T = Task.decrement_refcount s2 caller T ∧
      (Task.process execute s caller T).signal = Signal.returned ∧
      (0 < Task.get_refcount s2 T →
        Task.get_refcount (Task.process execute s caller T).state T
          = Task.get_refcount s2 T - 1) ∧
      (∀ q, q ≠ T →
        Task.get_refcount (Task.process execute s caller T).state q
          = Task.get_refcount s2 q) ∧
      (Task.get_parent s1 T = none → ∀ q, q ≠ T →
        Task.get_refcount (Task.process execute s caller T).state q
          = Task.get_refcount s1 q) := by
  have hproc : Task.process execute s caller T = Task.process_after_execute s1 caller T := by
    unfold Task.process
    rw [hexec]
  rw [hproc]
  cases hp : Task.get_parent s1 T with
  | none =>
    rw [process_after_execute_orphan s1 caller T hp]
    refine ⟨s1.record_return T, ?_, fun _ => rfl, rfl, ?_, ?_, ?_, ?_⟩
    · intro p hpp
      cases hpp
    · exact decrement_refcount_returns (s1.record_return T) caller T i hctx
    · exact (decrement_refcount_get (s1.record_return T) caller T).1
    · exact (decrement_refcount_get (s1.record_return T) caller T).2
    · intro _ q hq
      exact (decrement_refcount_get (s1.record_return T) caller T).2 q hq
  | some p =>
    rw [process_after_execute_parent s1 caller T p i hp hctx]
    have hctx2 : Dispatcher.current_worker
        (Task.decrement_refcount (s1.record_return T) caller p).state.dispatcher caller
        = Except.ok i := by
      rw [current_worker_same_threads _ _ caller
        (decrement_refcount_same_threads (s1.record_return T) caller p)]
      exact hctx
    refine ⟨(Task.decrement_refcount (s1.record_return T) caller p).state, ?_, ?_, rfl,
      ?_, ?_, ?_, ?_⟩
    · intro p2 hpp
      cases hpp
      exact ⟨rfl, (decrement_refcount_get (s1.record_return T) caller p).1,
        (decrement_refcount_get (s1.record_return T) caller p).2⟩
    · intro h
      cases h
    · exact decrement_refcount_returns _ caller T i hctx2
    · exact (decrement_refcount_get _ caller T).1
    · exact (decrement_refcount_get _ caller T).2
    · intro h
      cases h

/-- Witness for C4: task `2`, a child of task `1` (refcount 2), is processed with an
idle payload on the thread of the worker at position `2`. -/
theorem process_effect_witness :
    (Task.process idle_payload demo_spawned_state 102 2).signal = Signal.returned ∧
    Task.get_refcount (Task.process idle_payload demo_spawned_state 102 2).state 1 = 1 ∧
    Task.get_refcount (Task.process idle_payload demo_spawned_state 102 2).state 2 = 0 := by
  obtain ⟨s2, h1, _, _, h4, h5, h6, _⟩ :=
    process_effect idle_payload demo_spawned_state demo_spawned_state 102 2 2 rfl rfl
  obtain ⟨hs2, h1b, h1c⟩ := h1 1 rfl
  have hr1 : Task.get_refcount s2 1 = 1 := by
    rw [h1b (by decide)]
    decide
  have hr2 : Task.get_refcount s2 2 = 1 := by
    rw [h1c 2 (by decide)]
    decide
  refine ⟨h4, ?_, ?_⟩
  · rw [h6 1 (by decide), hr1]
  · rw [h5 (by rw [hr2]; decide), hr2]

/-! ## Deque discipline -/

theorem deque_run_append (w : Worker) (o1 o2 : List DequeOp) :
    deque_run w (o1 ++ o2)
      = ((deque_run (deque_run w o1).1 o2).1,
         (deque_run w o1).2 ++ (deque_run (deque_run w o1).1 o2).2) := by
  induction o1 generalizing w with
  | nil => simp [deque_run]
  | cons op ops ih =>
    rw [List.cons_append]
    simp only [deque_run]
    rw [ih]
    simp only [List.append_assoc]

theorem inserted_append (o1 o2 : List DequeOp) :
    inserted (o1 ++ o2) = inserted o1 ++ inserted o2 := by
  induction o1 with
  | nil => rfl
  | cons op ops ih =>
    cases op <;> simp [inserted, ih]

/-- Every task popped or still queued was queued at the start or inserted, with the
same multiplicity. -/
theorem deque_run_perm (ops : List DequeOp) :
    ∀ w : Worker, List.Perm ((deque_run w ops).2 ++ (deque_run w ops).1.m_deque)
      (w.m_deque ++ inserted ops) := by
  induction ops with
  | nil =>
    intro w
    simp [deque_run, inserted]
  | cons op ops ih =>
    intro w
    cases op with
    | submit t =>
      have h := ih (w.submit t)
      simpa [deque_run, DequeOp.apply, inserted, Worker.submit] using h
    | push_task t =>
      have h := ih (w.push_task t)
      simp only [deque_run, DequeOp.apply, inserted, List.nil_append]
      refine h.trans ?_
      simp only [Worker.push_task, List.cons_append]
      exact List.perm_middle.symm
    | pop =>
      cases hd : w.m_deque with
      | nil =>
        have h := ih w
        have hs : w.try_steal = (none, w) := by simp [Worker.try_steal, hd]
        simpa [deque_run, DequeOp.apply, inserted, hs, hd] using h
      | cons x rest =>
        have h := ih { w with m_deque := rest }
        have hs : w.try_steal = (some x, { w with m_deque := rest }) := by
          simp [Worker.try_steal, hd]
        simp only [deque_run, DequeOp.apply, inserted, hs, Option.toList, List.cons_append,
          List.nil_append]
        exact List.Perm.cons x h

/-- Everything queued in front of `b` is popped before `b`, when `b` is not inserted
again. -/
theorem deque_run_front_first (ops : List DequeOp) (b : TaskRef) :
    ∀ (w : Worker) (X Y L1 L2 : List TaskRef),
      w.m_deque = X ++ b :: Y → b ∉ X → b ∉ inserted ops →
      (deque_run w ops).2 = L1 ++ b :: L2 → ∀ x ∈ X, x ∈ L1 := by
  induction ops with
  | nil =>
    intro w X Y L1 L2 _ _ _ hL
    simp [deque_run] at hL
  | cons op ops ih =>
    intro w X Y L1 L2 hd hb hins hL x hx
    cases op with
    | submit t =>
      simp only [deque_run, DequeOp.apply, List.nil_append] at hL
      simp only [inserted, List.mem_cons, not_or] at hins
      exact ih (w.submit t) X (Y ++ [t]) L1 L2 (by simp [Worker.submit, hd]) hb hins.2 hL x hx
    | push_task t =>
      simp only [deque_run, DequeOp.apply, List.nil_append] at hL
      simp only [inserted, List.mem_cons, not_or] at hins
      have hbt : b ∉ t :: X := by
        intro hmem
        rcases List.mem_cons.mp hmem with h | h
        · exact hins.1 h
        · exact hb h
      exact ih (w.push_task t) (t :: X) Y L1 L2 (by simp [Worker.push_task, hd]) hbt hins.2 hL x
        (List.mem_cons_of_mem _ hx)
    | pop =>
      simp only [inserted] at hins
      cases X with
      | nil => cases hx
      | cons y X2 =>
        have hs : w.try_steal = (some y, { w with m_deque := X2 ++ b :: Y }) := by
          simp [Worker.try_steal, hd]
        simp only [deque_run, DequeOp.apply, hs, Option.toList, List.cons_append,
          List.nil_append] at hL
        have hyb : y ≠ b := fun h => hb (by simp [h])
        cases L1 with
        | nil =>
          simp only [List.nil_append, List.cons.injEq] at hL
          exact absurd hL.1 hyb
        | cons z L1b =>
          simp only [List.cons_append, List.cons.injEq] at hL
          rcases List.mem_cons.mp hx with h | h
          · rw [h, hL.1]
            exact List.mem_cons_self _ _
          · exact List.mem_cons_of_mem _
              (ih { w with m_deque := X2 ++ b :: Y } X2 Y L1b L2 rfl
                (fun hm => hb (List.mem_cons_of_mem _ hm)) hins hL.2 x h)

/-- The own take of `do_work` pops the front exactly as `try_steal` does and stores the
popped task as the current task. -/
theorem do_work_take_eq (s : State) (i : Nat) (w : Worker)
    (hw : s.dispatcher.m_workers[i]? = some w) :
    Worker.do_work_take s i
      = s.setWorker i { w with m_current_task := w.try_steal.1,
                               m_deque := w.try_steal.2.m_deque } := by
  unfold Worker.do_work_take Worker.try_steal
  rw [hw]
  rcases hd : w.m_deque with _ | ⟨x, rest⟩
  · simp only
    rw [hd]
  · simp only [hd]

/-- C8: for a worker reached by any sequence of deque operations, `submit` appends at
the back and `push_task` prepends at the front; (a) right after `push_task t` a pop
yields `t` and leaves exactly the tasks queued before, in their order; the worker's
own take in `do_work` pops the same front task as `try_steal`; (b) when `a` is
submitted before `b`, and the tasks queued initially or inserted are pairwise
distinct, then in the sequence of popped tasks `a` occurs before any occurrence of
`b`. -/
theorem deque_discipline (w0 : Worker) (ops1 ops2 ops3 : List DequeOp) (a b t : TaskRef)
    (hnodup : (w0.m_deque
      ++ inserted (ops1 ++ DequeOp.submit a :: (ops2 ++ DequeOp.submit b :: ops3))).Nodup) :
    ((deque_run w0 ops1).1.submit t).m_deque = (deque_run w0 ops1).1.m_deque ++ [t] ∧
    ((deque_run w0 ops1).1.push_task t).m_deque = t :: (deque_run w0 ops1).1.m_deque ∧
    ((deque_run w0 ops1).1.push_task t).try_steal.1 = some t ∧
    ((deque_run w0 ops1).1.push_task t).try_steal.2.m_deque = (deque_run w0 ops1).1.m_deque ∧
    (∀ (s : State) (i : Nat) (w : Worker), s.dispatcher.m_workers[i]? = some w →
      (Worker.do_work_take s i).deque i = w.try_steal.2.m_deque ∧
      (Worker.do_work_take s i).dispatcher.m_workers[i]?.map Worker.current_task
        = some w.try_steal.1) ∧
    ∀ L1 L2,
      (deque_run w0 (ops1 ++ DequeOp.submit a :: (ops2 ++ DequeOp.submit b :: ops3))).2
        = L1 ++ b :: L2 → a ∈ L1 := by
  refine ⟨rfl, rfl, rfl, rfl, ?_, ?_⟩
  · intro s i w hw
    have hlen : i < s.dispatcher.m_workers.length := getElem?_some_lt _ _ _ hw
    rw [do_work_take_eq s i w hw, deque_setWorker_same s i _ hlen]
    simp [State.setWorker, hlen, Worker.current_task]
  · intro L1 L2 hL
    have hsplit : ops1 ++ DequeOp.submit a :: (ops2 ++ DequeOp.submit b :: ops3)
        = (ops1 ++ DequeOp.submit a :: ops2) ++ DequeOp.submit b :: ops3 := by
      simp [List.append_assoc]
    rw [hsplit] at hL hnodup
    rw [deque_run_append] at hL
    simp only [deque_run, DequeOp.apply, List.nil_append] at hL
    have hperm := deque_run_perm (ops1 ++ DequeOp.submit a :: ops2) w0
    rw [inserted_append] at hnodup
    simp only [inserted] at hnodup
    rw [← List.append_assoc] at hnodup
    have hnd := List.nodup_append.mp hnodup
    have hbnot : b ∉ w0.m_deque ++ inserted (ops1 ++ DequeOp.submit a :: ops2) := by
      intro hm
      exact hnd.2.2 hm (List.mem_cons_self _ _)
    have hb3 : b ∉ inserted ops3 := (List.nodup_cons.mp hnd.2.1).1
    have ha : a ∈ w0.m_deque ++ inserted (ops1 ++ DequeOp.submit a :: ops2) := by
      rw [inserted_append]
      simp [inserted]
    have hbnot2 : b ∉ (deque_run w0 (ops1 ++ DequeOp.submit a :: ops2)).2
        ++ (deque_run w0 (ops1 ++ DequeOp.submit a :: ops2)).1.m_deque :=
      fun hm => hbnot (hperm.mem_iff.mp hm)
    have ha2 : a ∈ (deque_run w0 (ops1 ++ DequeOp.submit a :: ops2)).2
        ++ (deque_run w0 (ops1 ++ DequeOp.submit a :: ops2)).1.m_deque :=
      hperm.mem_iff.mpr ha
    generalize (deque_run w0 (ops1 ++ DequeOp.submit a :: ops2)).2 = Lp at hL hbnot2 ha2
    generalize (deque_run w0 (ops1 ++ DequeOp.submit a :: ops2)).1 = w1 at hL hbnot2 ha2
    have hbLp : b ∉ Lp := fun hm => hbnot2 (List.mem_append_left _ hm)
    have hbD : b ∉ w1.m_deque := fun hm => hbnot2 (List.mem_append_right _ hm)
    obtain ⟨M, hM1, hM2⟩ : ∃ M, L1 = Lp ++ M ∧ (deque_run (w1.submit b) ops3).2 = M ++ b :: L2 := by
      rcases List.append_eq_append_iff.mp hL with ⟨M, h1, h2⟩ | ⟨M, h1, h2⟩
      · exact ⟨M, h1, h2⟩
      · cases M with
        | nil =>
          refine ⟨[], ?_, ?_⟩
          · simpa using h1.symm
          · simpa using h2.symm
        | cons c M2 =>
          simp only [List.cons_append, List.cons.injEq] at h2
          exfalso
          apply hbLp
          rw [h1, ← h2.1]
          simp
    rw [hM1]
    rcases List.mem_append.mp ha2 with h | h
    · exact List.mem_append_left _ h
    · exact List.mem_append_right _
        (deque_run_front_first ops3 b (w1.submit b) w1.m_deque [] M L2 rfl hbD hb3 hM2 a h)

/-- Witness for C8: on an empty deque, `1` is submitted, `3` is pushed, `2` is
submitted, then three pops follow; the pops yield `3`, `1`, `2`. -/
theorem deque_discipline_witness :
    (deque_run (Worker.construct false 0)
      ([] ++ DequeOp.submit 1 :: ([DequeOp.push_task 3] ++ DequeOp.submit 2 ::
        [DequeOp.pop, DequeOp.pop, DequeOp.pop]))).2 = [3, 1] ++ 2 :: [] ∧
    1 ∈ [3, 1] :=
  ⟨rfl, (deque_discipline (Worker.construct false 0) [] [DequeOp.push_task 3]
    [DequeOp.pop, DequeOp.pop, DequeOp.pop] 1 2 0 (by decide)).2.2.2.2.2 [3, 1] [] rfl⟩

/-! ## Main affinity -/

/-- C7 (the code at a failing input): on the thread of the stealable worker at
position `1`, outside `process_main`, the payload of task `1` spawns the main-affinity
task `5`; the task keeps its main affinity but lands at the front of deque `1`, deque
`0` of the main worker stays empty.  The next loop iteration of worker `1` runs the
payload of `5` on thread `101`, which is not the main thread `100`; it completes task
`1`, whose main-affinity continuation `6` is pushed to deque `1` as well, not to deque
`0`, and the iteration after that runs the payload of `6` on thread `101`. -/
theorem main_affinity_task_runs_on_stealable_worker :
    Task.get_thread_affinity (Dispatcher.spawn demo_affinity_state 101 5).state 5
      = thread_affinity.main ∧
    (Dispatcher.spawn demo_affinity_state 101 5).signal = Signal.returned ∧
    (Dispatcher.spawn demo_affinity_state 101 5).state.deque 0 = [] ∧
    (Dispatcher.spawn demo_affinity_state 101 5).state.deque 1 = [5] ∧
    (Worker.do_work_iteration idle_payload
      (Task.process_after_execute (Dispatcher.spawn demo_affinity_state 101 5).state 101 1
        ).state 101 1 0).state.returned = [1, 5] ∧
    Task.get_thread_affinity
      (Worker.do_work_iteration idle_payload
        (Task.process_after_execute (Dispatcher.spawn demo_affinity_state 101 5).state 101 1
          ).state 101 1 0).state 6 = thread_affinity.main ∧
    (Worker.do_work_iteration idle_payload
      (Task.process_after_execute (Dispatcher.spawn demo_affinity_state 101 5).state 101 1
        ).state 101 1 0).state.deque 0 = [] ∧
    (Worker.do_work_iteration idle_payload
      (Task.process_after_execute (Dispatcher.spawn demo_affinity_state 101 5).state 101 1
        ).state 101 1 0).state.deque 1 = [6] ∧
    (Worker.do_work_iteration idle_payload
      (Worker.do_work_iteration idle_payload
        (Task.process_after_execute (Dispatcher.spawn demo_affinity_state 101 5).state 101 1
          ).state 101 1 0).state 101 1 0).state.returned = [1, 5, 6] ∧
    demo_affinity_state.dispatcher.m_main_thread_id = some 100 ∧
    demo_affinity_state.dispatcher.m_main_processing = false := by
  decide

/-! ## Interleaved executions: effect of the single operations -/

theorem sum_map_set (f : Worker → Nat) (l : List Worker) :
    ∀ (i : Nat) (w v : Worker), l[i]? = some w →
      ((l.set i v).map f).sum + f w = (l.map f).sum + f v := by
  induction l with
  | nil =>
    intro i w v h
    simp at h
  | cons x rest ih =>
    intro i w v h
    cases i with
    | zero =>
      simp only [List.getElem?_cons_zero, Option.some.injEq] at h
      subst h
      simp only [List.set_cons_zero, List.map_cons, List.sum_cons]
      omega
    | succ j =>
      simp only [List.getElem?_cons_succ] at h
      have := ih j w v h
      simp only [List.set_cons_succ, List.map_cons, List.sum_cons]
      omega

theorem queued_setWorker (s : State) (K : TaskRef) (i : Nat) (w v : Worker)
    (hw : s.dispatcher.m_workers[i]? = some w) :
    queued (s.setWorker i v) K + w.m_deque.count K = queued s K + v.m_deque.count K :=
  sum_map_set (fun w => w.m_deque.count K) s.dispatcher.m_workers i w v hw

theorem queued_setTask (s : State) (K t : TaskRef) (v : Task) :
    queued (s.setTask t v) K = queued s K := rfl

theorem push_task_queued (s : State) (caller : ThreadId) (c K : TaskRef) (i : Nat)
    (hctx : Dispatcher.current_worker s.dispatcher caller = Except.ok i) :
    queued (Dispatcher.push_task s caller c).state K
      = queued s K + (if c = K then 1 else 0) := by
  obtain ⟨w, hw, _, hp⟩ := push_task_ok s caller c i hctx
  rw [hp]
  show queued (s.setWorker i (w.push_task c)) K = _
  have h : queued (s.setWorker i (w.push_task c)) K + w.m_deque.count K
      = queued s K + (w.push_task c).m_deque.count K :=
    queued_setWorker s K i w (w.push_task c) hw
  have hcount : (w.push_task c).m_deque.count K
      = w.m_deque.count K + (if c = K then 1 else 0) := by
    by_cases hcK : c = K <;> simp [Worker.push_task, List.count_cons, hcK]
  rw [hcount] at h
  omega

theorem push_task_history (s : State) (caller : ThreadId) (c : TaskRef) :
    (Dispatcher.push_task s caller c).state.returned = s.returned ∧
    (Dispatcher.push_task s caller c).state.spawned = s.spawned := by
  unfold Dispatcher.push_task
  split
  · exact ⟨rfl, rfl⟩
  · split <;> exact ⟨rfl, rfl⟩

theorem decrement_refcount_history (s : State) (caller : ThreadId) (t : TaskRef) :
    (Task.decrement_refcount s caller t).state.returned = s.returned ∧
    (Task.decrement_refcount s caller t).state.spawned = s.spawned := by
  by_cases h : dec_value (s.tasks t).m_refcount = 0
  · cases hc : (s.tasks t).m_continuation with
    | none =>
      rw [decrement_refcount_zero_none s caller t h hc]
      exact ⟨rfl, rfl⟩
    | some c =>
      rw [decrement_refcount_zero_some s caller t c h hc]
      exact push_task_history (s.setTask t _) caller c
  · rw [decrement_refcount_nonzero s caller t h]
    exact ⟨rfl, rfl⟩

/-- On a worker thread, `decrement_refcount` adds one occurrence of `K` to the deques
exactly when the new refcount is zero and the continuation is `K`. -/
theorem decrement_refcount_queued (s : State) (caller : ThreadId) (t K : TaskRef) (i : Nat)
    (hctx : Dispatcher.current_worker s.dispatcher caller = Except.ok i) :
    queued (Task.decrement_refcount s caller t).state K
      = queued s K
        + (if dec_value (s.tasks t).m_refcount = 0 ∧ (s.tasks t).m_continuation = some K
            then 1 else 0) := by
  by_cases h : dec_value (s.tasks t).m_refcount = 0
  · cases hc : (s.tasks t).m_continuation with
    | none =>
      rw [decrement_refcount_zero_none s caller t h hc]
      simp [queued_setTask]
    | some c =>
      rw [decrement_refcount_zero_some s caller t c h hc]
      rw [push_task_queued (s.setTask t _) caller c K i hctx, queued_setTask]
      simp [h]
  · rw [decrement_refcount_nonzero s caller t h]
    simp [queued_setTask, h]

theorem running_some (s : State) (caller : ThreadId) (q : TaskRef)
    (h : running s caller = some q) :
    ∃ i W, Dispatcher.current_worker s.dispatcher caller = Except.ok i ∧
      s.dispatcher.m_workers[i]? = some W ∧ W.current_task = some q := by
  unfold running at h
  split at h
  · rename_i i hi
    split at h
    · rename_i W hW
      exact ⟨i, W, hi, hW, h⟩
    · cases h
  · cases h

theorem try_steal_count_le (w : Worker) (K : TaskRef) :
    w.try_steal.2.m_deque.count K ≤ w.m_deque.count K := by
  unfold Worker.try_steal
  rcases hd : w.m_deque with _ | ⟨x, rest⟩
  · simp [hd]
  · simp only [List.count_cons]
    omega

theorem do_work_take_frame (s : State) (i : Nat) (K : TaskRef) :
    (Worker.do_work_take s i).tasks = s.tasks ∧
    (Worker.do_work_take s i).returned = s.returned ∧
    (Worker.do_work_take s i).spawned = s.spawned ∧
    queued (Worker.do_work_take s i) K ≤ queued s K := by
  cases hw : s.dispatcher.m_workers[i]? with
  | none =>
    have : Worker.do_work_take s i = s := by
      unfold Worker.do_work_take
      rw [hw]
    rw [this]
    exact ⟨rfl, rfl, rfl, le_refl _⟩
  | some w =>
    rw [do_work_take_eq s i w hw]
    refine ⟨rfl, rfl, rfl, ?_⟩
    have h := queued_setWorker s K i w
      { w with m_current_task := w.try_steal.1, m_deque := w.try_steal.2.m_deque } hw
    have hc := try_steal_count_le w K
    simp only at h
    omega

theorem do_work_steal_frame (s : State) (i rand : Nat) (K : TaskRef) :
    (Worker.do_work_steal s i rand).state.tasks = s.tasks ∧
    (Worker.do_work_steal s i rand).state.returned = s.returned ∧
    (Worker.do_work_steal s i rand).state.spawned = s.spawned ∧
    queued (Worker.do_work_steal s i rand).state K ≤ queued s K := by
  unfold Worker.do_work_steal
  split
  · exact ⟨rfl, rfl, rfl, le_refl _⟩
  · rename_i v _
    split
    · exact ⟨rfl, rfl, rfl, le_refl _⟩
    · rename_i hvi
      split
      · rename_i victim self hv hself
        refine ⟨rfl, rfl, rfl, ?_⟩
        have h1 := queued_setWorker s K v victim victim.try_steal.2 hv
        have hself2 : (s.setWorker v victim.try_steal.2).dispatcher.m_workers[i]? = some self := by
          simp only [State.setWorker]
          rw [List.getElem?_set_ne hvi]
          exact hself
        have h2 := queued_setWorker (s.setWorker v victim.try_steal.2) K i self
          { self with m_current_task := victim.try_steal.1 } hself2
        have hc := try_steal_count_le victim K
        simp only at h2
        show queued ((s.setWorker v victim.try_steal.2).setWorker i
          { self with m_current_task := victim.try_steal.1 }) K ≤ _
        omega
      · exact ⟨rfl, rfl, rfl, le_refl _⟩

theorem do_work_acquire_frame (s : State) (i rand : Nat) (K : TaskRef) :
    (Worker.do_work_acquire s i rand).state.tasks = s.tasks ∧
    (Worker.do_work_acquire s i rand).state.returned = s.returned ∧
    (Worker.do_work_acquire s i rand).state.spawned = s.spawned ∧
    queued (Worker.do_work_acquire s i rand).state K ≤ queued s K := by
  have ht := do_work_take_frame s i K
  have hs := do_work_steal_frame (Worker.do_work_take s i) i rand K
  unfold Worker.do_work_acquire
  simp only
  split
  · exact ht
  · split
    · exact ht
    · split
      · exact ⟨hs.1.trans ht.1, hs.2.1.trans ht.2.1, hs.2.2.1.trans ht.2.2.1,
          le_trans hs.2.2.2 ht.2.2.2⟩
      · exact ht

/-- The state after a successful `spawn`, field by field. -/
theorem spawn_frame (s : State) (caller : ThreadId) (c q : TaskRef)
    (hrun : running s caller = some q) (K : TaskRef) :
    (Dispatcher.spawn s caller c).signal = Signal.returned ∧
    (∀ x, Task.get_parent (Dispatcher.spawn s caller c).state x
        = if x = c then some q else Task.get_parent s x) ∧
    (∀ x, Task.get_refcount (Dispatcher.spawn s caller c).state x
        = if x = q then (Task.get_refcount s q + 1) % UINT_MOD else Task.get_refcount s x) ∧
    (∀ x, Task.get_continuation (Dispatcher.spawn s caller c).state x
        = Task.get_continuation s x) ∧
    (Dispatcher.spawn s caller c).state.returned = s.returned ∧
    (Dispatcher.spawn s caller c).state.spawned = s.spawned ++ [(q, c)] ∧
    queued (Dispatcher.spawn s caller c).state K = queued s K + (if c = K then 1 else 0) := by
  obtain ⟨i, W, hi, hW, hq⟩ := running_some s caller q hrun
  rw [spawn_ok s caller c q i W hi hW hq]
  refine ⟨rfl, ?_, ?_, ?_, rfl, rfl, ?_⟩
  · intro x
    by_cases hxc : x = c
    · subst hxc
      by_cases hxq : x = q
      · subst hxq
        simp [Task.get_parent, State.record_spawn, State.setWorker, Task.increment_refcount,
          Task.set_parent, State.setTask]
      · simp [Task.get_parent, State.record_spawn, State.setWorker, Task.increment_refcount,
          Task.set_parent, State.setTask, hxq]
    · by_cases hxq : x = q
      · subst hxq
        simp [Task.get_parent, State.record_spawn, State.setWorker, Task.increment_refcount,
          Task.set_parent, State.setTask, hxc]
      · simp [Task.get_parent, State.record_spawn, State.setWorker, Task.increment_refcount,
          Task.set_parent, State.setTask, hxc, hxq]
  · intro x
    by_cases hxc : x = c
    · subst hxc
      by_cases hxq : x = q
      · subst hxq
        simp [Task.get_refcount, State.record_spawn, State.setWorker, Task.increment_refcount,
          Task.set_parent, State.setTask]
      · simp [Task.get_refcount, State.record_spawn, State.setWorker, Task.increment_refcount,
          Task.set_parent, State.setTask, hxq]
    · by_cases hxq : x = q
      · subst hxq
        simp [Task.get_refcount, State.record_spawn, State.setWorker, Task.increment_refcount,
          Task.set_parent, State.setTask, hxc]
      · simp [Task.get_refcount, State.record_spawn, State.setWorker, Task.increment_refcount,
          Task.set_parent, State.setTask, hxc, hxq]
  · intro x
    by_cases hxc : x = c
    · subst hxc
      by_cases hxq : x = q
      · subst hxq
        simp [Task.get_continuation, State.record_spawn, State.setWorker, Task.increment_refcount,
          Task.set_parent, State.setTask]
      · simp [Task.get_continuation, State.record_spawn, State.setWorker, Task.increment_refcount,
          Task.set_parent, State.setTask, hxq]
    · by_cases hxq : x = q
      · subst hxq
        simp [Task.get_continuation, State.record_spawn, State.setWorker, Task.increment_refcount,
          Task.set_parent, State.setTask, hxc]
      · simp [Task.get_continuation, State.record_spawn, State.setWorker, Task.increment_refcount,
          Task.set_parent, State.setTask, hxc, hxq]
  · show queued ((Task.increment_refcount (Task.set_parent s c (some q)) q).setWorker i
        (W.push_task c)) K = _
    have h : queued ((Task.increment_refcount (Task.set_parent s c (some q)) q).setWorker i
        (W.push_task c)) K + W.m_deque.count K
        = queued (Task.increment_refcount (Task.set_parent s c (some q)) q) K
          + (W.push_task c).m_deque.count K :=
      queued_setWorker (Task.increment_refcount (Task.set_parent s c (some q)) q) K i W
        (W.push_task c) hW
    have hcount : (W.push_task c).m_deque.count K
        = W.m_deque.count K + (if c = K then 1 else 0) := by
      by_cases hcK : c = K <;> simp [Worker.push_task, List.count_cons, hcK]
    have hq0 : queued (Task.increment_refcount (Task.set_parent s c (some q)) q) K
        = queued s K := rfl
    rw [hcount, hq0] at h
    omega

theorem decrement_refcount_links (s : State) (caller : ThreadId) (t : TaskRef) :
    (∀ x, Task.get_parent (Task.decrement_refcount s caller t).state x = Task.get_parent s x) ∧
    (∀ x, Task.get_continuation (Task.decrement_refcount s caller t).state x
      = Task.get_continuation s x) ∧
    (∀ x, Task.get_refcount (Task.decrement_refcount s caller t).state x
      = if x = t then dec_value (Task.get_refcount s t) else Task.get_refcount s x) := by
  refine ⟨?_, ?_, ?_⟩ <;> intro x <;> by_cases hx : x = t
  · subst hx
    simp [Task.get_parent, decrement_refcount_tasks]
  · simp [Task.get_parent, decrement_refcount_tasks, hx]
  · subst hx
    simp [Task.get_continuation, decrement_refcount_tasks]
  · simp [Task.get_continuation, decrement_refcount_tasks, hx]
  · subst hx
    simp [Task.get_refcount, decrement_refcount_tasks]
  · simp [Task.get_refcount, decrement_refcount_tasks, hx]

/-- The end of `process` for a task without parent, on a worker thread. -/
theorem finish_frame_orphan (s : State) (caller : ThreadId) (t : TaskRef) (i : Nat)
    (hctx : Dispatcher.current_worker s.dispatcher caller = Except.ok i)
    (hp : Task.get_parent s t = none) (K : TaskRef) :
    (Task.process_after_execute s caller t).signal = Signal.returned ∧
    (∀ x, Task.get_parent (Task.process_after_execute s caller t).state x
      = Task.get_parent s x) ∧
    (∀ x, Task.get_continuation (Task.process_after_execute s caller t).state x
      = Task.get_continuation s x) ∧
    (Task.process_after_execute s caller t).state.returned = s.returned ++ [t] ∧
    (Task.process_after_execute s caller t).state.spawned = s.spawned ∧
    (∀ x, Task.get_refcount (Task.process_after_execute s caller t).state x
      = if x = t then dec_value (Task.get_refcount s t) else Task.get_refcount s x) ∧
    queued (Task.process_after_execute s caller t).state K
      = queued s K
        + (if dec_value (Task.get_refcount s t) = 0 ∧ Task.get_continuation s t = some K
            then 1 else 0) := by
  rw [process_after_execute_orphan s caller t hp]
  have hl := decrement_refcount_links (s.record_return t) caller t
  have hh := decrement_refcount_history (s.record_return t) caller t
  exact ⟨decrement_refcount_returns (s.record_return t) caller t i hctx, hl.1, hl.2.1, hh.1,
    hh.2, hl.2.2, decrement_refcount_queued (s.record_return t) caller t K i hctx⟩

/-- The end of `process` for a task with a parent other than itself, on a worker
thread. -/
theorem finish_frame_child (s : State) (caller : ThreadId) (t p : TaskRef) (i : Nat)
    (hctx : Dispatcher.current_worker s.dispatcher caller = Except.ok i)
    (hp : Task.get_parent s t = some p) (hpt : p ≠ t) (K : TaskRef) :
    (Task.process_after_execute s caller t).signal = Signal.returned ∧
    (∀ x, Task.get_parent (Task.process_after_execute s caller t).state x
      = Task.get_parent s x) ∧
    (∀ x, Task.get_continuation (Task.process_after_execute s caller t).state x
      = Task.get_continuation s x) ∧
    (Task.process_after_execute s caller t).state.returned = s.returned ++ [t] ∧
    (Task.process_after_execute s caller t).state.spawned = s.spawned ∧
    (∀ x, Task.get_refcount (Task.process_after_execute s caller t).state x
      = if x = t then dec_value (Task.get_refcount s t)
        else if x = p then dec_value (Task.get_refcount s p) else Task.get_refcount s x) ∧
    queued (Task.process_after_execute s caller t).state K
      = queued s K
        + (if dec_value (Task.get_refcount s p) = 0 ∧ Task.get_continuation s p = some K
            then 1 else 0)
        + (if dec_value (Task.get_refcount s t) = 0 ∧ Task.get_continuation s t = some K
            then 1 else 0) := by
  rw [process_after_execute_parent s caller t p i hp hctx]
  have hl1 := decrement_refcount_links (s.record_return t) caller p
  have hh1 := decrement_refcount_history (s.record_return t) caller p
  have hq1 := decrement_refcount_queued (s.record_return t) caller p K i hctx
  have hctx2 : Dispatcher.current_worker
      (Task.decrement_refcount (s.record_return t) caller p).state.dispatcher caller
      = Except.ok i := by
    rw [current_worker_same_threads _ _ caller
      (decrement_refcount_same_threads (s.record_return t) caller p)]
    exact hctx
  generalize (Task.decrement_refcount (s.record_return t) caller p).state = s1
    at hl1 hh1 hq1 hctx2
  have hl2 := decrement_refcount_links s1 caller t
  have hh2 := decrement_refcount_history s1 caller t
  have hq2 := decrement_refcount_queued s1 caller t K i hctx2
  have hrt : Task.get_refcount s1 t = Task.get_refcount s t := by
    rw [hl1.2.2 t, if_neg (Ne.symm hpt)]
    rfl
  have hct : Task.get_continuation s1 t = Task.get_continuation s t := hl1.2.1 t
  refine ⟨decrement_refcount_returns s1 caller t i hctx2, ?_, ?_, ?_, ?_, ?_, ?_⟩
  · intro x
    rw [hl2.1 x, hl1.1 x]
    rfl
  · intro x
    rw [hl2.2.1 x, hl1.2.1 x]
    rfl
  · rw [hh2.1, hh1.1]
    rfl
  · rw [hh2.2, hh1.2]
    rfl
  · intro x
    rw [hl2.2.2 x, hrt, hl1.2.2 x]
    rfl
  · have e1 : (s1.tasks t).m_refcount = Task.get_refcount s t := hrt
    have e2 : (s1.tasks t).m_continuation = Task.get_continuation s t := hct
    rw [hq2, hq1, e1, e2]
    rfl

theorem UINT_MAX_ne_zero : UINT_MAX ≠ 0 := by
  unfold UINT_MAX UINT_MOD
  decide

theorem dec_value_zero_iff (r : Nat) : dec_value r = 0 ↔ r = 1 := by
  unfold dec_value
  by_cases h : r = 0
  · simp [h, UINT_MAX_ne_zero]
  · simp only [h, if_false]
    omega

/-- The end of `process` of `t` seen from a task `P` that is not its own parent: the
refcount of `P` is decremented exactly when `t` is `P` or a task whose parent is `P`,
and the continuation `K` of `P` (which no other task has as continuation) is queued
exactly when that decrement stores zero. -/
theorem finish_summary (s : State) (caller : ThreadId) (t P : TaskRef) (i : Nat)
    (hctx : Dispatcher.current_worker s.dispatcher caller = Except.ok i)
    (hself : Task.get_parent s P ≠ some P) :
    (Task.process_after_execute s caller t).signal = Signal.returned ∧
    (∀ x, Task.get_parent (Task.process_after_execute s caller t).state x
      = Task.get_parent s x) ∧
    (∀ x, Task.get_continuation (Task.process_after_execute s caller t).state x
      = Task.get_continuation s x) ∧
    (Task.process_after_execute s caller t).state.returned = s.returned ++ [t] ∧
    (Task.process_after_execute s caller t).state.spawned = s.spawned ∧
    Task.get_refcount (Task.process_after_execute s caller t).state P
      = (if t = P ∨ Task.get_parent s t = some P then dec_value (Task.get_refcount s P)
         else Task.get_refcount s P) ∧
    ∀ K, Task.get_continuation s P = some K →
      (∀ x, x ≠ P → Task.get_continuation s x ≠ some K) →
      queued (Task.process_after_execute s caller t).state K
        = queued s K
          + (if (t = P ∨ Task.get_parent s t = some P) ∧ dec_value (Task.get_refcount s P) = 0
              then 1 else 0) := by
  cases hp : Task.get_parent s t with
  | none =>
    have h := finish_frame_orphan s caller t i hctx hp
    refine ⟨(h 0).1, (h 0).2.1, (h 0).2.2.1, (h 0).2.2.2.1, (h 0).2.2.2.2.1, ?_, ?_⟩
    · rw [(h 0).2.2.2.2.2.1 P]
      by_cases htP : t = P
      · subst htP
        simp
      · simp [htP, Ne.symm htP]
    · intro K hK hother
      rw [(h K).2.2.2.2.2.2]
      by_cases htP : t = P
      · subst htP
        simp [hK]
      · simp [htP, hother t htP]
  | some p =>
    by_cases hpt : p = t
    · -- a task that is its own parent is unrelated to `P`
      subst hpt
      have htP : p ≠ P := by
        intro h
        subst h
        exact hself hp
      rw [process_after_execute_parent s caller p p i hp hctx]
      have hl1 := decrement_refcount_links (s.record_return p) caller p
      have hh1 := decrement_refcount_history (s.record_return p) caller p
      have hq1 := fun K => decrement_refcount_queued (s.record_return p) caller p K i hctx
      have hctx2 : Dispatcher.current_worker
          (Task.decrement_refcount (s.record_return p) caller p).state.dispatcher caller
          = Except.ok i := by
        rw [current_worker_same_threads _ _ caller
          (decrement_refcount_same_threads (s.record_return p) caller p)]
        exact hctx
      generalize (Task.decrement_refcount (s.record_return p) caller p).state = s1
        at hl1 hh1 hq1 hctx2
      have hl2 := decrement_refcount_links s1 caller p
      have hh2 := decrement_refcount_history s1 caller p
      have hq2 := fun K => decrement_refcount_queued s1 caller p K i hctx2
      refine ⟨decrement_refcount_returns s1 caller p i hctx2, ?_, ?_, ?_, ?_, ?_, ?_⟩
      · intro x
        rw [hl2.1 x, hl1.1 x]
        rfl
      · intro x
        rw [hl2.2.1 x, hl1.2.1 x]
        rfl
      · rw [hh2.1, hh1.1]
        rfl
      · rw [hh2.2, hh1.2]
        rfl
      · have hne : ¬ (p = P ∨ some p = some P) := by
          intro h
          rcases h with h | h
          · exact htP h
          · exact htP (Option.some.inj h)
        rw [hl2.2.2 P, if_neg (Ne.symm htP), hl1.2.2 P, if_neg (Ne.symm htP), if_neg hne]
        rfl
      · intro K hK hother
        have hne : ¬ ((p = P ∨ some p = some P) ∧ dec_value (Task.get_refcount s P) = 0) := by
          intro h
          rcases h.1 with h | h
          · exact htP h
          · exact htP (Option.some.inj h)
        have hc0 : ((s.record_return p).tasks p).m_continuation ≠ some K := hother p htP
        have hc1 : (s1.tasks p).m_continuation ≠ some K := by
          have := hl1.2.1 p
          unfold Task.get_continuation at this
          rw [this]
          exact hc0
        rw [hq2 K, hq1 K, if_neg hne, if_neg (fun h => hc0 h.2), if_neg (fun h => hc1 h.2)]
        rfl
    · have h := finish_frame_child s caller t p i hctx hp hpt
      refine ⟨(h 0).1, (h 0).2.1, (h 0).2.2.1, (h 0).2.2.2.1, (h 0).2.2.2.2.1, ?_, ?_⟩
      · rw [(h 0).2.2.2.2.2.1 P]
        by_cases htP : t = P
        · subst htP
          simp
        · by_cases hpP : p = P
          · subst hpP
            simp [Ne.symm htP]
          · have hne : ¬ (t = P ∨ some p = some P) := by
              intro hc
              rcases hc with hc | hc
              · exact htP hc
              · exact hpP (Option.some.inj hc)
            rw [if_neg (Ne.symm htP), if_neg (Ne.symm hpP), if_neg hne]
      · intro K hK hother
        rw [(h K).2.2.2.2.2.2]
        by_cases htP : t = P
        · subst htP
          have hpne : p ≠ t := hpt
          have hcp : Task.get_continuation s p ≠ some K := hother p hpne
          simp [hK, hcp]
        · have hct : Task.get_continuation s t ≠ some K := hother t htP
          by_cases hpP : p = P
          · subst hpP
            simp [hK, hct]
          · have hcp : Task.get_continuation s p ≠ some K := hother p hpP
            have hne : ¬ ((t = P ∨ some p = some P) ∧ dec_value (Task.get_refcount s P) = 0) := by
              intro hc
              rcases hc.1 with hc | hc
              · exact htP hc
              · exact hpP (Option.some.inj hc)
            rw [if_neg hne, if_neg (fun h => hcp h.2), if_neg (fun h => hct h.2)]

/-! ## Interleaved executions: the refcount bookkeeping -/

theorem children_subset (s : State) (P c : TaskRef) (h : c ∈ children s P) :
    c ∈ s.spawned.map Prod.snd := by
  unfold children at h
  obtain ⟨pc, hpc, rfl⟩ := List.mem_map.mp h
  exact List.mem_map.mpr ⟨pc, (List.mem_filter.mp hpc).1, rfl⟩

theorem children_mem_iff (s : State) (P c : TaskRef) :
    c ∈ children s P ↔ (P, c) ∈ s.spawned := by
  unfold children
  constructor
  · intro h
    obtain ⟨pc, hpc, rfl⟩ := List.mem_map.mp h
    have h2 := List.mem_filter.mp hpc
    have h3 : pc.1 = P := by simpa using h2.2
    have : pc = (P, pc.2) := by rw [← h3]
    rw [← this]
    exact h2.1
  · intro h
    exact List.mem_map.mpr ⟨(P, c), List.mem_filter.mpr ⟨h, by simp⟩, rfl⟩

theorem children_congr (s s2 : State) (P : TaskRef) (h : s2.spawned = s.spawned) :
    children s2 P = children s P := by
  unfold children
  rw [h]

theorem children_record (s s2 : State) (P q c : TaskRef)
    (h : s2.spawned = s.spawned ++ [(q, c)]) :
    children s2 P = children s P ++ (if q = P then [c] else []) := by
  unfold children
  rw [h, List.filter_append, List.map_append]
  by_cases hq : q = P
  · simp [hq]
  · simp [hq]

theorem pending_congr (s s2 : State) (P : TaskRef) (h : s2.spawned = s.spawned)
    (hr : s2.returned = s.returned) : pending s2 P = pending s P := by
  unfold pending
  rw [children_congr s s2 P h, hr]

theorem filter_not_returned_same (l ret : List TaskRef) (t : TaskRef) (ht : t ∉ l) :
    l.filter (fun c => decide (c ∉ ret ++ [t])) = l.filter (fun c => decide (c ∉ ret)) := by
  apply List.filter_congr
  intro c hc
  have hct : c ≠ t := fun h => ht (h ▸ hc)
  simp [hct]

theorem filter_not_returned_remove (l ret : List TaskRef) (t : TaskRef) (hnd : l.Nodup)
    (ht : t ∈ l) (htr : t ∉ ret) :
    (l.filter (fun c => decide (c ∉ ret ++ [t]))).length + 1
      = (l.filter (fun c => decide (c ∉ ret))).length := by
  induction l with
  | nil => cases ht
  | cons x rest ih =>
    have hnd2 := List.nodup_cons.mp hnd
    by_cases hxt : x = t
    · subst hxt
      have hsame := filter_not_returned_same rest ret x hnd2.1
      simp only [List.filter_cons]
      rw [hsame]
      simp [htr]
    · have htrest : t ∈ rest := by
        rcases List.mem_cons.mp ht with h | h
        · exact absurd h.symm hxt
        · exact h
      have := ih hnd2.2 htrest
      rw [List.filter_cons, List.filter_cons]
      generalize List.filter (fun c => decide (c ∉ ret ++ [t])) rest = A at this ⊢
      generalize List.filter (fun c => decide (c ∉ ret)) rest = B at this ⊢
      by_cases hx : x ∈ ret
      · simp only [List.mem_append, List.mem_singleton, hx, true_or, not_true_eq_false,
          decide_False, Bool.false_eq_true, if_false]
        exact this
      · simp only [List.mem_append, List.mem_singleton, hx, hxt, or_self, not_false_eq_true,
          decide_True, if_true, List.length_cons]
        omega

theorem accounted_congr (s s2 : State) (P : TaskRef) (ht : s2.tasks = s.tasks)
    (hr : s2.returned = s.returned) (hs : s2.spawned = s.spawned) (h : accounted s P) :
    accounted s2 P := by
  unfold accounted at h ⊢
  unfold Task.get_parent Task.get_refcount at h ⊢
  rw [children_congr s s2 P hs, pending_congr s s2 P hs hr, ht, hr]
  exact h

/-- While `P` is accounted, a zero refcount means that the payload of `P` and the
payloads of all its children have returned. -/
theorem accounted_zero_iff (s : State) (P : TaskRef) (h : accounted s P) :
    Task.get_refcount s P = 0 ↔ P ∈ s.returned ∧ ∀ c ∈ children s P, c ∈ s.returned := by
  rw [h.2.2.2]
  constructor
  · intro h0
    by_cases hP : P ∈ s.returned
    · refine ⟨hP, ?_⟩
      simp only [hP, if_true, Nat.zero_add] at h0
      intro c hc
      by_contra hcr
      have : c ∈ pending s P := by
        unfold pending
        exact List.mem_filter.mpr ⟨hc, by simpa using hcr⟩
      rw [List.length_eq_zero] at h0
      rw [h0] at this
      cases this
    · simp only [hP, if_false] at h0
      omega
  · intro ⟨hP, hall⟩
    have : pending s P = [] := by
      unfold pending
      rw [List.filter_eq_nil_iff]
      intro c hc
      simpa using hall c hc
    simp [hP, this]

theorem enabled_spawn (s : State) (caller : ThreadId) (c : TaskRef)
    (h : (Event.spawn caller c).enabled s = true) :
    ∃ q, running s caller = some q ∧ q ∉ s.returned ∧ c ≠ q ∧
      c ∉ s.spawned.map Prod.snd ∧ c ∉ s.returned ∧ Task.get_refcount s q < UINT_MAX := by
  simp only [Event.enabled] at h
  cases hq : running s caller with
  | none =>
    rw [hq] at h
    cases h
  | some q =>
    rw [hq] at h
    simp only [Bool.and_eq_true, decide_eq_true_eq] at h
    exact ⟨q, rfl, h.1.1.1.1, h.1.1.1.2, h.1.1.2, h.1.2, h.2⟩

theorem enabled_finish (s : State) (caller : ThreadId) (t : TaskRef)
    (h : (Event.finish caller t).enabled s = true) :
    running s caller = some t ∧ t ∉ s.returned := by
  simp only [Event.enabled, Bool.and_eq_true, decide_eq_true_eq] at h
  exact h

theorem enabled_acquire (s : State) (caller : ThreadId) (i rand : Nat)
    (h : (Event.acquire caller i rand).enabled s = true) :
    (Worker.do_work_acquire s i rand).signal = Signal.returned := by
  simp only [Event.enabled, Bool.and_eq_true, decide_eq_true_eq] at h
  exact h.2

/-- An enabled event keeps the bookkeeping of `P` and returns normally. -/
theorem accounted_step (s : State) (P : TaskRef) (e : Event)
    (hen : e.enabled s = true) (h : accounted s P) :
    accounted (e.step s).state P ∧ (e.step s).signal = Signal.returned := by
  cases e with
  | acquire caller i rand =>
    have hf := do_work_acquire_frame s i rand 0
    exact ⟨accounted_congr s _ P hf.1 hf.2.1 hf.2.2.1 h, enabled_acquire s caller i rand hen⟩
  | spawn caller c =>
    obtain ⟨q, hq, hqr, hcq, hcs, hcr, hmax⟩ := enabled_spawn s caller c hen
    have hf := spawn_frame s caller c q hq 0
    have hcc : c ∉ children s P := fun hm => hcs (children_subset s P c hm)
    have hch := children_record s (Dispatcher.spawn s caller c).state P q c hf.2.2.2.2.2.1
    refine ⟨?_, hf.1⟩
    show accounted (Dispatcher.spawn s caller c).state P
    unfold accounted
    by_cases hqP : q = P
    · subst hqP
      rw [if_pos rfl] at hch
      refine ⟨?_, ?_, ?_, ?_⟩
      · intro t
        rw [hf.2.1 t, hch]
        by_cases htc : t = c
        · simp [htc]
        · simp only [htc, if_false, List.mem_append, List.mem_singleton, or_false]
          exact h.1 t
      · rw [hch]
        exact List.Nodup.append h.2.1 (List.nodup_singleton c) (by
          intro x hx hx2
          rw [List.mem_singleton] at hx2
          subst hx2
          exact hcc hx)
      · rw [hch]
        intro hm
        rcases List.mem_append.mp hm with hm | hm
        · exact h.2.2.1 hm
        · rw [List.mem_singleton] at hm
          exact hcq hm.symm
      · rw [hf.2.2.1 q, if_pos rfl, inc_value_eq _ hmax, h.2.2.2]
        unfold pending
        rw [hch, hf.2.2.2.2.1, List.filter_append]
        simp [hcr]
        omega
    · rw [if_neg hqP, List.append_nil] at hch
      refine ⟨?_, ?_, ?_, ?_⟩
      · intro t
        rw [hf.2.1 t, hch]
        by_cases htc : t = c
        · subst htc
          simp only [if_true]
          constructor
          · intro hh
            exact absurd (Option.some.inj hh) hqP
          · intro hh
            exact absurd hh hcc
        · simp only [htc, if_false]
          exact h.1 t
      · rw [hch]
        exact h.2.1
      · rw [hch]
        exact h.2.2.1
      · rw [hf.2.2.1 P, if_neg (Ne.symm hqP), h.2.2.2]
        unfold pending
        rw [hch, hf.2.2.2.2.1]
  | finish caller t =>
    obtain ⟨hrun, htr⟩ := enabled_finish s caller t hen
    obtain ⟨i, W, hctx, _, _⟩ := running_some s caller t hrun
    have hself : Task.get_parent s P ≠ some P := fun hh => h.2.2.1 ((h.1 P).mp hh)
    have hf := finish_summary s caller t P i hctx hself
    refine ⟨?_, hf.1⟩
    show accounted (Task.process_after_execute s caller t).state P
    have hch := children_congr s (Task.process_after_execute s caller t).state P hf.2.2.2.2.1
    unfold accounted
    refine ⟨?_, ?_, ?_, ?_⟩
    · intro x
      rw [hf.2.1 x, hch]
      exact h.1 x
    · rw [hch]
      exact h.2.1
    · rw [hch]
      exact h.2.2.1
    · rw [hf.2.2.2.2.2.1, h.2.2.2]
      unfold pending
      rw [hch, hf.2.2.2.1]
      by_cases htP : t = P
      · subst htP
        rw [filter_not_returned_same _ _ _ h.2.2.1]
        simp only [true_or, if_true, htr, if_false, List.mem_append, List.mem_singleton,
          or_true]
        rw [dec_value_pos _ (by omega)]
        omega
      · by_cases hpP : Task.get_parent s t = some P
        · have htc : t ∈ children s P := (h.1 t).mp hpP
          have hrem := filter_not_returned_remove _ s.returned t h.2.1 htc htr
          have hPmem : (P ∈ s.returned ++ [t]) = (P ∈ s.returned) := by
            simp [Ne.symm htP]
          simp only [hpP, or_true, if_true, hPmem]
          rw [dec_value_pos _ (by omega)]
          omega
        · have htc : t ∉ children s P := fun hm => hpP ((h.1 t).mpr hm)
          have hPmem : (P ∈ s.returned ++ [t]) = (P ∈ s.returned) := by
            simp [Ne.symm htP]
          rw [filter_not_returned_same _ _ _ htc]
          simp only [htP, hpP, or_self, if_false, hPmem]

theorem run_append_singleton (es : List Event) (e : Event) :
    ∀ s, run s (es ++ [e]) = (e.step (run s es)).state := by
  induction es with
  | nil => intro s; rfl
  | cons x rest ih =>
    intro s
    simp only [List.cons_append, run]
    exact ih _

theorem accounted_run (P : TaskRef) (es : List Event) :
    ∀ s, valid s es = true → accounted s P → accounted (run s es) P := by
  induction es with
  | nil => intro s _ h; exact h
  | cons e rest ih =>
    intro s hv h
    simp only [valid, Bool.and_eq_true] at hv
    exact ih _ hv.2 (accounted_step s P e hv.1 h).1

/-- No event changes a continuation link. -/
theorem continuation_step (s : State) (P : TaskRef) (e : Event)
    (hen : e.enabled s = true) (h : accounted s P) :
    ∀ x, Task.get_continuation (e.step s).state x = Task.get_continuation s x := by
  cases e with
  | acquire caller i rand =>
    intro x
    have hf := do_work_acquire_frame s i rand 0
    show ((Worker.do_work_acquire s i rand).state.tasks x).m_continuation = _
    rw [hf.1]
    rfl
  | spawn caller c =>
    obtain ⟨q, hq, _⟩ := enabled_spawn s caller c hen
    exact (spawn_frame s caller c q hq 0).2.2.2.1
  | finish caller t =>
    obtain ⟨hrun, _⟩ := enabled_finish s caller t hen
    obtain ⟨i, W, hctx, _, _⟩ := running_some s caller t hrun
    have hself : Task.get_parent s P ≠ some P := fun hh => h.2.2.1 ((h.1 P).mp hh)
    exact (finish_summary s caller t P i hctx hself).2.2.1

theorem continuation_run (P : TaskRef) (es : List Event) :
    ∀ s, valid s es = true → accounted s P →
      ∀ x, Task.get_continuation (run s es) x = Task.get_continuation s x := by
  induction es with
  | nil => intro s _ _ x; rfl
  | cons e rest ih =>
    intro s hv h x
    simp only [valid, Bool.and_eq_true] at hv
    rw [run, ih _ hv.2 (accounted_step s P e hv.1 h).1 x]
    exact continuation_step s P e hv.1 h x

/-- The continuation `K` of `P` enters a deque exactly at the event that brings the
refcount of `P` from a non-zero value to zero, and a zero refcount stays zero. -/
theorem queue_step (s : State) (P K : TaskRef) (e : Event)
    (hen : e.enabled s = true) (h : accounted s P)
    (hK : Task.get_continuation s P = some K)
    (hother : ∀ x, x ≠ P → Task.get_continuation s x ≠ some K)
    (hnotK : ∀ caller, e ≠ Event.spawn caller K) :
    (Task.get_refcount s P = 0 → Task.get_refcount (e.step s).state P = 0) ∧
    (Task.get_refcount s P ≠ 0 ∧ Task.get_refcount (e.step s).state P = 0 →
      queued (e.step s).state K = queued s K + 1) ∧
    (¬ (Task.get_refcount s P ≠ 0 ∧ Task.get_refcount (e.step s).state P = 0) →
      queued (e.step s).state K ≤ queued s K) := by
  have hzero := accounted_zero_iff s P h
  cases e with
  | acquire caller i rand =>
    have hf := do_work_acquire_frame s i rand K
    have hrc : Task.get_refcount (Worker.do_work_acquire s i rand).state P
        = Task.get_refcount s P := by
      unfold Task.get_refcount
      rw [hf.1]
    show (_ → Task.get_refcount (Worker.do_work_acquire s i rand).state P = 0) ∧
      (_ ∧ Task.get_refcount (Worker.do_work_acquire s i rand).state P = 0 →
        queued (Worker.do_work_acquire s i rand).state K = _) ∧
      (¬ (_ ∧ Task.get_refcount (Worker.do_work_acquire s i rand).state P = 0) →
        queued (Worker.do_work_acquire s i rand).state K ≤ _)
    rw [hrc]
    exact ⟨fun h0 => h0, fun hc => absurd hc.2 hc.1, fun _ => hf.2.2.2⟩
  | spawn caller c =>
    obtain ⟨q, hq, hqr, hcq, hcs, hcr, hmax⟩ := enabled_spawn s caller c hen
    have hf := spawn_frame s caller c q hq K
    have hcK : c ≠ K := fun hc => hnotK caller (by rw [hc])
    have hqu : queued (Dispatcher.spawn s caller c).state K = queued s K := by
      rw [hf.2.2.2.2.2.2, if_neg hcK]
      rfl
    show (_ → Task.get_refcount (Dispatcher.spawn s caller c).state P = 0) ∧
      (_ ∧ Task.get_refcount (Dispatcher.spawn s caller c).state P = 0 →
        queued (Dispatcher.spawn s caller c).state K = _) ∧
      (¬ (_ ∧ Task.get_refcount (Dispatcher.spawn s caller c).state P = 0) →
        queued (Dispatcher.spawn s caller c).state K ≤ _)
    rw [hf.2.2.1 P, hqu]
    by_cases hPq : P = q
    · subst hPq
      rw [if_pos rfl, inc_value_eq _ hmax]
      refine ⟨fun h0 => absurd (hzero.mp h0).1 hqr, fun hc => ?_, fun _ => le_refl _⟩
      omega
    · rw [if_neg hPq]
      exact ⟨fun h0 => h0, fun hc => absurd hc.2 hc.1, fun _ => le_refl _⟩
  | finish caller t =>
    obtain ⟨hrun, htr⟩ := enabled_finish s caller t hen
    obtain ⟨i, W, hctx, _, _⟩ := running_some s caller t hrun
    have hself : Task.get_parent s P ≠ some P := fun hh => h.2.2.1 ((h.1 P).mp hh)
    have hf := finish_summary s caller t P i hctx hself
    have hqu := hf.2.2.2.2.2.2 K hK hother
    show (_ → Task.get_refcount (Task.process_after_execute s caller t).state P = 0) ∧
      (_ ∧ Task.get_refcount (Task.process_after_execute s caller t).state P = 0 →
        queued (Task.process_after_execute s caller t).state K = _) ∧
      (¬ (_ ∧ Task.get_refcount (Task.process_after_execute s caller t).state P = 0) →
        queued (Task.process_after_execute s caller t).state K ≤ _)
    rw [hf.2.2.2.2.2.1, hqu]
    by_cases hit : t = P ∨ Task.get_parent s t = some P
    · simp only [hit, if_true, true_and]
      have hnz : Task.get_refcount s P ≠ 0 := by
        intro h0
        obtain ⟨hPr, hall⟩ := hzero.mp h0
        rcases hit with hit | hit
        · subst hit
          exact htr hPr
        · exact htr (hall t ((h.1 t).mp hit))
      refine ⟨fun h0 => absurd h0 hnz, ?_, ?_⟩
      · intro hc
        rw [if_pos hc.2]
      · intro hc
        have : dec_value (Task.get_refcount s P) ≠ 0 := fun hd => hc ⟨hnz, hd⟩
        rw [if_neg this]
        exact le_refl _
    · simp only [hit, if_false, false_and]
      exact ⟨fun h0 => h0, fun hc => absurd hc.2 hc.1, fun _ => le_refl _⟩

theorem filter_partition_length (l ret : List TaskRef) :
    (l.filter (fun c => decide (c ∈ ret))).length
      + (l.filter (fun c => decide (c ∉ ret))).length = l.length := by
  induction l with
  | nil => rfl
  | cons x rest ih =>
    rw [List.filter_cons, List.filter_cons]
    by_cases hx : x ∈ ret
    · simp only [hx, decide_True, if_true, not_true_eq_false, decide_False,
        Bool.false_eq_true, if_false, List.length_cons]
      omega
    · simp only [hx, decide_False, Bool.false_eq_true, if_false, not_false_eq_true,
        decide_True, if_true, List.length_cons]
      omega

theorem accounted_fresh (s0 : State) (P : TaskRef)
    (hfresh : Task.get_refcount s0 P = 1)
    (hnoparent : ∀ t, Task.get_parent s0 t ≠ some P)
    (hnochildren : children s0 P = [])
    (hnotret : P ∉ s0.returned) : accounted s0 P := by
  unfold accounted pending
  rw [hnochildren]
  refine ⟨fun t => ⟨fun hh => absurd hh (hnoparent t), fun hh => by cases hh⟩,
    List.nodup_nil, by simp, ?_⟩
  simp [hnotret, hfresh]

/-! ## Completion propagation -/

/-- C2: let `P` be freshly constructed (refcount 1, not yet returned, no task linked
to it as parent, no child recorded) and let the scheduler perform any enabled sequence
of events (each task returns at most once, a child is spawned once and returns only
after it was spawned, no counter overflows).  In the state reached: the refcount of
`P` is `1 + (children spawned so far) - (decrements performed on P by P and its
children)`; it is 0 exactly when the payload of `P` and the payloads of all children
spawned under `P` have returned; and for the continuation `K` of `P` (no other task
has `K` as continuation and nobody spawns `K`), every further enabled event adds one
occurrence of `K` to the deques if it brings the refcount of `P` from non-zero to 0,
adds none otherwise, and leaves a zero refcount at zero, so `K` is enqueued exactly
once, by the decrement that reaches 0. -/
theorem refcount_accounting (s0 : State) (P : TaskRef) (es : List Event)
    (hfresh : Task.get_refcount s0 P = 1)
    (hnoparent : ∀ t, Task.get_parent s0 t ≠ some P)
    (hnochildren : children s0 P = [])
    (hnotret : P ∉ s0.returned)
    (hvalid : valid s0 es = true) :
    Task.get_refcount (run s0 es) P
      = 1 + (children (run s0 es) P).length - decrements_on (run s0 es) P ∧
    decrements_on (run s0 es) P ≤ 1 + (children (run s0 es) P).length ∧
    (Task.get_refcount (run s0 es) P = 0 ↔
      P ∈ (run s0 es).returned ∧ ∀ c ∈ children (run s0 es) P, c ∈ (run s0 es).returned) ∧
    ∀ (e : Event) (K : TaskRef), e.enabled (run s0 es) = true →
      Task.get_continuation s0 P = some K →
      (∀ x, x ≠ P → Task.get_continuation s0 x ≠ some K) →
      (∀ caller, e ≠ Event.spawn caller K) →
      (Task.get_refcount (run s0 es) P = 0 →
        Task.get_refcount (e.step (run s0 es)).state P = 0) ∧
      (Task.get_refcount (run s0 es) P ≠ 0 ∧
          Task.get_refcount (e.step (run s0 es)).state P = 0 →
        queued (e.step (run s0 es)).state K = queued (run s0 es) K + 1) ∧
      (¬ (Task.get_refcount (run s0 es) P ≠ 0 ∧
          Task.get_refcount (e.step (run s0 es)).state P = 0) →
        queued (e.step (run s0 es)).state K ≤ queued (run s0 es) K) := by
  have h0 := accounted_fresh s0 P hfresh hnoparent hnochildren hnotret
  have h := accounted_run P es s0 hvalid h0
  have hcont := continuation_run P es s0 hvalid h0
  have hpart := filter_partition_length (children (run s0 es) P) (run s0 es).returned
  have hrc := h.2.2.2
  unfold pending at hrc
  refine ⟨?_, ?_, accounted_zero_iff _ P h, ?_⟩
  · unfold decrements_on
    by_cases hP : P ∈ (run s0 es).returned
    · simp only [hP, if_true] at hrc ⊢
      omega
    · simp only [hP, if_false] at hrc ⊢
      omega
  · unfold decrements_on
    by_cases hP : P ∈ (run s0 es).returned
    · simp only [hP, if_true]
      omega
    · simp only [hP, if_false]
      omega
  · intro e K hen hK hother hnotK
    exact queue_step (run s0 es) P K e hen h (by rw [hcont P]; exact hK)
      (fun x hx => by rw [hcont x]; exact hother x hx) hnotK

/-- Witness for C2: task `1` spawns task `2` and returns, then task `2` is stolen and
run by another worker; the refcount of task `1` ends at `1 + 1 - 2 = 0`. -/
theorem refcount_accounting_witness :
    valid demo_submitted_state demo_child_trace = true ∧
    Task.get_refcount (run demo_submitted_state demo_child_trace) 1
      = 1 + (children (run demo_submitted_state demo_child_trace) 1).length
        - decrements_on (run demo_submitted_state demo_child_trace) 1 ∧
    Task.get_refcount (run demo_submitted_state demo_child_trace) 1 = 0 :=
  ⟨by decide,
   (refcount_accounting demo_submitted_state 1 demo_child_trace (by decide)
      (fun _ h => Option.noConfusion h) (by decide) (by decide) (by decide)).1,
   by decide⟩

/-- C1 (amended): let `T` be freshly constructed (refcount 1, not yet returned, no
task linked to it as parent, no child recorded) and let the scheduler perform any
enabled sequence of events: each task is processed once (its payload returns once, on
the worker whose current task it is), a child is spawned once, by a running parent
other than itself, and no counter at its largest value is incremented; other tasks
(children, grandchildren) may spawn as well.  In the state reached the refcount of
`T` is 0 only if the payload of `T` and the payload of every task spawned directly
under `T` have returned. -/
theorem refcount_zero_after_children (s0 : State) (T : TaskRef) (es : List Event)
    (hfresh : Task.get_refcount s0 T = 1)
    (hnoparent : ∀ t, Task.get_parent s0 t ≠ some T)
    (hnochildren : children s0 T = [])
    (hnotret : T ∉ s0.returned)
    (hvalid : valid s0 es = true)
    (hzero : Task.get_refcount (run s0 es) T = 0) :
    T ∈ (run s0 es).returned ∧
    ∀ c, (T, c) ∈ (run s0 es).spawned → c ∈ (run s0 es).returned := by
  have h := accounted_run T es s0 hvalid
    (accounted_fresh s0 T hfresh hnoparent hnochildren hnotret)
  obtain ⟨hT, hall⟩ := (accounted_zero_iff _ T h).mp hzero
  exact ⟨hT, fun c hc => hall c ((children_mem_iff _ T c).mpr hc)⟩

/-- Witness for C1 (amended): in the execution in which task `1` spawns task `2` and
task `2` spawns task `3`, the refcount of task `1` is 0 after tasks `1` and `2` have
returned. -/
theorem refcount_zero_after_children_witness :
    Task.get_refcount (run demo_submitted_state demo_grandchild_trace) 1 = 0 ∧
    1 ∈ (run demo_submitted_state demo_grandchild_trace).returned ∧
    2 ∈ (run demo_submitted_state demo_grandchild_trace).returned :=
  ⟨by decide,
   (refcount_zero_after_children demo_submitted_state 1 demo_grandchild_trace (by decide)
      (fun _ h => Option.noConfusion h) (by decide) (by decide) (by decide) (by decide)).1,
   (refcount_zero_after_children demo_submitted_state 1 demo_grandchild_trace (by decide)
      (fun _ h => Option.noConfusion h) (by decide) (by decide) (by decide) (by decide)).2 2 (by decide)⟩

/-- C1 (counterexample): task `1` is freshly constructed and submitted; it spawns task
`2`, which spawns task `3`.  Every event of the execution is enabled.  When the
payloads of `1` and `2` have returned the refcount of task `1` is 0, although task `3`,
spawned under `1` through `2`, has not returned: it is still queued on worker `1`. -/
theorem refcount_zero_before_grandchild :
    Task.get_refcount demo_submitted_state 1 = 1 ∧
    children demo_submitted_state 1 = [] ∧
    1 ∉ demo_submitted_state.returned ∧
    valid demo_submitted_state demo_grandchild_trace = true ∧
    Task.get_refcount (run demo_submitted_state demo_grandchild_trace) 1 = 0 ∧
    (run demo_submitted_state demo_grandchild_trace).spawned = [(1, 2), (2, 3)] ∧
    descendant (run demo_submitted_state demo_grandchild_trace).spawned 1 1 3 = true ∧
    3 ∉ (run demo_submitted_state demo_grandchild_trace).returned ∧
    (run demo_submitted_state demo_grandchild_trace).deque 1 = [3] := by
  decide

/-! ## Initialisation and configuration -/

theorem start_workers_length (new_thread : Nat → ThreadId) (l : List Worker) :
    ∀ k, (start_workers new_thread l k).length = l.length := by
  induction l with
  | nil => intro k; rfl
  | cons w rest ih =>
    intro k
    simp [start_workers, ih]

theorem start_workers_getElem (new_thread : Nat → ThreadId) (l : List Worker) :
    ∀ (k j : Nat) (w : Worker), l[j]? = some w →
      (start_workers new_thread l k)[j]? = some (w.start (new_thread (k + j))) := by
  induction l with
  | nil =>
    intro k j w h
    simp at h
  | cons x rest ih =>
    intro k j w h
    cases j with
    | zero =>
      simp only [List.getElem?_cons_zero, Option.some.injEq] at h
      subst h
      simp [start_workers]
    | succ j =>
      simp only [List.getElem?_cons_succ] at h
      have := ih (k + 1) j w h
      simp only [start_workers, List.getElem?_cons_succ]
      rw [this]
      congr 3
      omega

theorem initialize_fresh (d : Dispatcher) (caller : ThreadId) (new_thread : Nat → ThreadId)
    (hfresh : d.m_initialized = false) (hempty : d.m_workers = []) :
    Dispatcher.initialize d caller new_thread
      = { d with
          m_main_thread_id := some caller
          m_workers := Worker.construct true caller ::
            start_workers new_thread
              ((List.range d.m_worker_count).map (fun _ => Worker.construct false caller)) 1
          m_initialized := true } := by
  unfold Dispatcher.initialize
  simp [hfresh, hempty]

theorem initialize_initialized (d : Dispatcher) (caller : ThreadId)
    (new_thread : Nat → ThreadId) :
    ( Dispatcher.initialize d caller new_thread).m_initialized = true := by
  unfold Dispatcher.initialize
  by_cases h : d.m_initialized = true
  · simp [h]
  · simp only [h, if_false]
    generalize hw : d.m_workers ++ [Worker.construct true caller]
      ++ List.map (fun _ => Worker.construct false caller) (List.range d.m_worker_count) = ws
    cases ws with
    | nil => simp at hw
    | cons first rest => rfl

/-- C16: on a dispatcher that is not initialised and whose worker list is empty, with
worker count `n`, `initialize` yields exactly `n + 1` workers: at index 0 the main
worker (not stealable, stop flag set, thread id of the caller), at the indices `1..n`
stealable workers with the stop flag clear, each started on its own thread; the
initialised flag is set, the main thread id recorded, worker count, policy and
main-processing flag are as before.  Every later `initialize` returns the dispatcher
unchanged. -/
theorem initialize_effect (d : Dispatcher) (caller : ThreadId) (new_thread : Nat → ThreadId)
    (hfresh : d.m_initialized = false) (hempty : d.m_workers = []) :
    ( Dispatcher.initialize d caller new_thread).m_initialized = true ∧
    ( Dispatcher.initialize d caller new_thread).m_workers.length = d.m_worker_count + 1 ∧
    (∃ w, ( Dispatcher.initialize d caller new_thread).m_workers[0]? = some w ∧
      w.m_can_steal = false ∧ w.m_stop_flag = true ∧ w.m_thread_id = some caller ∧
      w.m_deque = []) ∧
    (∀ i, 1 ≤ i → i ≤ d.m_worker_count →
      ∃ w, ( Dispatcher.initialize d caller new_thread).m_workers[i]? = some w ∧
        w.m_can_steal = true ∧ w.m_stop_flag = false ∧
        w.m_thread_id = some (new_thread i) ∧ w.m_thread = some (new_thread i) ∧
        w.m_deque = []) ∧
    ( Dispatcher.initialize d caller new_thread).m_main_thread_id = some caller ∧
    ( Dispatcher.initialize d caller new_thread).m_worker_count = d.m_worker_count ∧
    ( Dispatcher.initialize d caller new_thread).m_main_processing = d.m_main_processing ∧
    (∀ range counter rand,
      ( Dispatcher.initialize d caller new_thread).m_scheduler range counter rand
        = d.m_scheduler range counter rand) ∧
    ∀ caller2 new_thread2,
      Dispatcher.initialize ( Dispatcher.initialize d caller new_thread) caller2 new_thread2
        = Dispatcher.initialize d caller new_thread := by
  have hinit := initialize_initialized d caller new_thread
  refine ⟨hinit, ?_, ?_, ?_, ?_, ?_, ?_, ?_, ?_⟩
  · rw [initialize_fresh d caller new_thread hfresh hempty]
    simp [start_workers_length]
  · rw [initialize_fresh d caller new_thread hfresh hempty]
    exact ⟨Worker.construct true caller, by simp, rfl, rfl, rfl, rfl⟩
  · intro i h1 hn
    rw [initialize_fresh d caller new_thread hfresh hempty]
    obtain ⟨j, rfl⟩ : ∃ j, i = j + 1 := ⟨i - 1, by omega⟩
    have hj : ((List.range d.m_worker_count).map
        (fun _ => Worker.construct false caller))[j]? = some (Worker.construct false caller) := by
      rw [List.getElem?_map, List.getElem?_range (by omega)]
      rfl
    have hs := start_workers_getElem new_thread _ 1 j _ hj
    refine ⟨(Worker.construct false caller).start (new_thread (1 + j)), ?_, rfl, rfl, ?_, ?_, rfl⟩
    · simpa using hs
    · simp [Worker.start, Nat.add_comm]
    · simp [Worker.start, Nat.add_comm]
  · rw [initialize_fresh d caller new_thread hfresh hempty]
  · rw [initialize_fresh d caller new_thread hfresh hempty]
  · rw [initialize_fresh d caller new_thread hfresh hempty]
  · intro range counter rand
    rw [initialize_fresh d caller new_thread hfresh hempty]
  · intro caller2 new_thread2
    generalize Dispatcher.initialize d caller new_thread = d2 at hinit
    unfold Dispatcher.initialize
    simp [hinit]

/-- Witness for C16: a dispatcher configured for two workers, initialised on thread
`100`. -/
theorem initialize_effect_witness :
    demo_dispatcher.m_initialized = true ∧ demo_dispatcher.m_workers.length = 2 + 1 :=
  ⟨(initialize_effect { Dispatcher.construct 8 with m_worker_count := 2 } 100
      (fun j => 100 + j) rfl rfl).1,
   (initialize_effect { Dispatcher.construct 8 with m_worker_count := 2 } 100
      (fun j => 100 + j) rfl rfl).2.1⟩

/-- C17: on a dispatcher that is not initialised, `set_worker_count n` makes
`get_worker_count` return `n` and `set_scheduler p` makes `p` the configured policy;
on an initialised dispatcher, in particular on the result of `initialize`, both
setters return the dispatcher unchanged for every argument. -/
theorem setters_effect (d : Dispatcher) (n : Nat) (p : scheduler_t) (caller : ThreadId)
    (new_thread : Nat → ThreadId) :
    (d.m_initialized = false →
      (Dispatcher.set_worker_count d n).get_worker_count = n ∧
      (Dispatcher.set_scheduler d p).get_scheduler = p) ∧
    (d.m_initialized = true →
      Dispatcher.set_worker_count d n = d ∧ Dispatcher.set_scheduler d p = d) ∧
    Dispatcher.set_worker_count ( Dispatcher.initialize d caller new_thread) n
      = Dispatcher.initialize d caller new_thread ∧
    Dispatcher.set_scheduler ( Dispatcher.initialize d caller new_thread) p
      = Dispatcher.initialize d caller new_thread := by
  have hinit := initialize_initialized d caller new_thread
  refine ⟨?_, ?_, ?_, ?_⟩
  · intro h
    simp [Dispatcher.set_worker_count, Dispatcher.set_scheduler, Dispatcher.get_worker_count,
      Dispatcher.get_scheduler, h]
  · intro h
    simp [Dispatcher.set_worker_count, Dispatcher.set_scheduler, h]
  · simp [Dispatcher.set_worker_count, hinit]
  · simp [Dispatcher.set_scheduler, hinit]

/-! ## `current_worker` -/

theorem find_if_first (p : Worker → Bool) (l : List Worker) :
    ∀ (j : Nat) (w : Worker), j < find_if p l → l[j]? = some w → p w = false := by
  induction l with
  | nil =>
    intro j w hj
    simp [find_if] at hj
  | cons x rest ih =>
    intro j w hj hw
    simp only [find_if] at hj
    by_cases hp : p x = true
    · simp [hp] at hj
    · rw [if_neg hp] at hj
      cases j with
      | zero =>
        simp only [List.getElem?_cons_zero, Option.some.injEq] at hw
        subst hw
        simpa using hp
      | succ j =>
        simp only [List.getElem?_cons_succ] at hw
        exact ih j w (by omega) hw

theorem find_if_unique (p : Worker → Bool) (l : List Worker) (i : Nat) (w : Worker)
    (hw : l[i]? = some w) (hp : p w = true)
    (hfirst : ∀ (j : Nat) (v : Worker), j < i → l[j]? = some v → p v = false) :
    find_if p l = i := by
  have hlt : i < l.length := getElem?_some_lt l i w hw
  have hne : find_if p l ≠ l.length := by
    intro hc
    have := find_if_first p l i w (by omega) hw
    rw [hp] at this
    cases this
  obtain ⟨v, hv, hpv⟩ := find_if_spec p l hne
  rcases Nat.lt_trichotomy (find_if p l) i with h | h | h
  · have := hfirst _ v h hv
    rw [hpv] at this
    cases this
  · exact h
  · have := find_if_first p l i w h hw
    rw [hp] at this
    cases this

theorem current_worker_error (d : Dispatcher) (caller : ThreadId) (e : tdl_exception)
    (h : Dispatcher.current_worker d caller = Except.error e) :
    e = tdl_exception.task_context_exception := by
  unfold Dispatcher.current_worker at h
  simp only at h
  split at h
  · cases h
    rfl
  · split at h
    · cases h
    · cases h
      rfl

/-- C14: `current_worker` returns position `i` exactly when `i` is the first position
whose worker carries the caller's thread id and either `i ≥ 1` (a stealable worker) or
the main-processing flag is set (the main worker at index 0); in every other case, in
particular when no worker has the caller's thread id and when the match is index 0
while the flag is clear, it fails with `task_context_exception`. -/
theorem current_worker_spec (d : Dispatcher) (caller : ThreadId) :
    (∀ i, Dispatcher.current_worker d caller = Except.ok i ↔
      ((∃ w, d.m_workers[i]? = some w ∧ w.get_id = some caller) ∧
       (∀ (j : Nat) (v : Worker), j < i → d.m_workers[j]? = some v → v.get_id ≠ some caller) ∧
       (1 ≤ i ∨ d.m_main_processing = true))) ∧
    ((∀ i, Dispatcher.current_worker d caller ≠ Except.ok i) →
      Dispatcher.current_worker d caller
        = Except.error tdl_exception.task_context_exception) ∧
    ((∀ w, w ∈ d.m_workers → w.get_id ≠ some caller) →
      Dispatcher.current_worker d caller
        = Except.error tdl_exception.task_context_exception) ∧
    ((∃ w, d.m_workers[0]? = some w ∧ w.get_id = some caller) →
      d.m_main_processing = false →
      Dispatcher.current_worker d caller
        = Except.error tdl_exception.task_context_exception) := by
  have hiff : ∀ i, Dispatcher.current_worker d caller = Except.ok i ↔
      ((∃ w, d.m_workers[i]? = some w ∧ w.get_id = some caller) ∧
       (∀ (j : Nat) (v : Worker), j < i → d.m_workers[j]? = some v → v.get_id ≠ some caller) ∧
       (1 ≤ i ∨ d.m_main_processing = true)) := by
    intro i
    constructor
    · intro h
      obtain ⟨w, hw, hid⟩ := current_worker_ok d caller i h
      unfold Dispatcher.current_worker at h
      simp only at h
      split at h
      · cases h
      · rename_i hcond
        split at h
        · cases h
          refine ⟨⟨w, hw, hid⟩, ?_, ?_⟩
          · intro j v hj hv hc
            have := find_if_first _ _ j v hj hv
            simp [hc] at this
          · by_cases h0 : find_if (fun element => element.get_id == some caller) d.m_workers = 0
            · right
              by_contra hflag
              exact hcond ⟨h0, by simpa using hflag⟩
            · left
              omega
        · cases h
    · intro ⟨⟨w, hw, hid⟩, hfirst, hctx⟩
      have hfind : find_if (fun element => element.get_id == some caller) d.m_workers = i :=
        find_if_unique _ _ i w hw (by simp [hid]) (by
          intro j v hj hv
          have := hfirst j v hj hv
          simpa using this)
      have hlt : i < d.m_workers.length := getElem?_some_lt _ i w hw
      unfold Dispatcher.current_worker
      simp only [hfind]
      have hcond : ¬ (i = 0 ∧ d.m_main_processing = false) := by
        intro hc
        rcases hctx with h1 | h1
        · omega
        · rw [h1] at hc
          cases hc.2
      rw [if_neg hcond, if_pos (by omega)]
  have hfail : (∀ i, Dispatcher.current_worker d caller ≠ Except.ok i) →
      Dispatcher.current_worker d caller
        = Except.error tdl_exception.task_context_exception := by
    intro hno
    cases hcw : Dispatcher.current_worker d caller with
    | ok i => exact absurd hcw (hno i)
    | error e => rw [current_worker_error d caller e hcw]
  refine ⟨hiff, hfail, ?_, ?_⟩
  · intro hnone
    apply hfail
    intro i hi
    obtain ⟨⟨w, hw, hid⟩, _⟩ := (hiff i).mp hi
    exact hnone w (List.getElem?_mem hw) hid
  · intro ⟨w, hw, hid⟩ hflag
    apply hfail
    intro i hi
    obtain ⟨_, hfirst, hctx⟩ := (hiff i).mp hi
    rcases hctx with h1 | h1
    · exact hfirst 0 w (by omega) hw hid
    · rw [hflag] at h1
      cases h1

/-! ## The library-level checks -/

theorem submit_signal (s : State) (rand : Nat) (t : TaskRef) :
    (Dispatcher.submit s rand t).signal
      ≠ Signal.thrown tdl_exception.initialization_exception := by
  unfold Dispatcher.submit
  split
  · simp
  · split
    · simp
    · simp only
      split
      · simp
      · split
        · simp
        · split <;> simp

theorem spawn_signal (s : State) (caller : ThreadId) (t : TaskRef) :
    (Dispatcher.spawn s caller t).signal
      ≠ Signal.thrown tdl_exception.initialization_exception := by
  unfold Dispatcher.spawn
  split
  · rename_i e he
    rw [current_worker_error s.dispatcher caller e he]
    simp
  · split
    · simp
    · simp only
      split <;> simp

/-- C19: the library-level `submit` and `spawn` return without any change on a null
task, in every state.  On a dispatcher that is not initialised, `submit` and `spawn`
of a non-null task, `shutdown` and `process_main` throw `initialization_exception` and
leave the state as it was.  On an initialised dispatcher `submit` and `spawn` of a
non-null task are the dispatcher's operations and never throw
`initialization_exception`. -/
theorem library_checks (s : State) (rand : Nat) (caller : ThreadId) (t : TaskRef)
    (execute : TaskRef → ThreadId → State → Res) (fuel : Nat) (rands : Nat → Nat) :
    submit s rand none = ⟨s, Signal.returned⟩ ∧
    spawn s caller none = ⟨s, Signal.returned⟩ ∧
    (s.dispatcher.initialized = false →
      submit s rand (some t)
        = ⟨s, Signal.thrown tdl_exception.initialization_exception⟩ ∧
      spawn s caller (some t)
        = ⟨s, Signal.thrown tdl_exception.initialization_exception⟩ ∧
      shutdown s = ⟨s, Signal.thrown tdl_exception.initialization_exception⟩ ∧
      process_main execute fuel s caller rands
        = some ⟨s, Signal.thrown tdl_exception.initialization_exception⟩) ∧
    (s.dispatcher.initialized = true →
      submit s rand (some t) = Dispatcher.submit s rand t ∧
      spawn s caller (some t) = Dispatcher.spawn s caller t ∧
      (submit s rand (some t)).signal
        ≠ Signal.thrown tdl_exception.initialization_exception ∧
      (spawn s caller (some t)).signal
        ≠ Signal.thrown tdl_exception.initialization_exception) := by
  refine ⟨rfl, rfl, ?_, ?_⟩
  · intro h
    have hc : detail.initialization_check s
        = Signal.thrown tdl_exception.initialization_exception := by
      simp [detail.initialization_check, h]
    refine ⟨?_, ?_, ?_, ?_⟩
    · simp only [submit, hc]
    · simp only [spawn, hc]
    · simp only [shutdown, hc]
    · simp only [process_main, hc]
  · intro h
    have hc : detail.initialization_check s = Signal.returned := by
      simp [detail.initialization_check, h]
    have h1 : submit s rand (some t) = Dispatcher.submit s rand t := by
      simp only [submit, hc]
    have h2 : spawn s caller (some t) = Dispatcher.spawn s caller t := by
      simp only [spawn, hc]
    refine ⟨h1, h2, ?_, ?_⟩
    · rw [h1]
      exact submit_signal s rand t
    · rw [h2]
      exact spawn_signal s caller t

/-! ## Worker count zero -/

/-- C11 (the code at the failing inputs): the worker list holds the main worker only.
Submitting task `1` (affinity none) with the round-robin policy or with the random
policy runs into the remainder by zero of `% (end - begin)`, which is undefined, and
not into `scheduler_exception`.  With the load-balancing policy the call throws
`scheduler_exception` and leaves the deque as it was, and submitting the main-affinity
task `7` appends it to the main worker's deque under every one of the three policies. -/
theorem submit_without_pool :
    (demo_no_pool_state round_robin_scheduler).dispatcher.m_workers.length = 1 ∧
    Task.get_thread_affinity (demo_no_pool_state round_robin_scheduler) 1
      = thread_affinity.none ∧
    (Dispatcher.submit (demo_no_pool_state round_robin_scheduler) 0 1).signal
      = Signal.undefined ∧
    (Dispatcher.submit (demo_no_pool_state random_scheduler) 0 1).signal
      = Signal.undefined ∧
    (Dispatcher.submit (demo_no_pool_state load_balancing_scheduler) 0 1).signal
      = Signal.thrown tdl_exception.scheduler_exception ∧
    (Dispatcher.submit (demo_no_pool_state load_balancing_scheduler) 0 1).state.deque 0
      = [] ∧
    (Dispatcher.submit (demo_no_pool_state round_robin_scheduler) 0 7).signal
      = Signal.returned ∧
    (Dispatcher.submit (demo_no_pool_state round_robin_scheduler) 0 7).state.deque 0
      = [7] ∧
    (Dispatcher.submit (demo_no_pool_state random_scheduler) 0 7).state.deque 0 = [7] ∧
    (Dispatcher.submit (demo_no_pool_state load_balancing_scheduler) 0 7).state.deque 0
      = [7] := by
  decide

/-! ## Shutdown -/

theorem join_stop_idempotent (w : Worker) :
    Worker.join (Worker.stop (Worker.join (Worker.stop w))) = Worker.join (Worker.stop w) := by
  cases h : w.m_thread <;> simp [Worker.join, Worker.stop, h]

/-- C18 (what the code does, with the failing input): on an empty worker list, as in
the destructor of a dispatcher that was never initialised, `shutdown` starts its loops
at `++m_workers.begin()`, beyond the end, which is undefined.  On a non-empty worker
list it returns, leaves the first worker untouched, sets the stop flag of every later
worker, releases the thread handle of each of them (a worker without joinable thread
is not joined), changes no deque, and a second `shutdown` changes nothing. -/
theorem shutdown_effect (d : Dispatcher) :
    (Dispatcher.destruct (Dispatcher.construct 8)).2 = Signal.undefined ∧
    (d.m_workers = [] → (Dispatcher.shutdown d).2 = Signal.undefined) ∧
    (∀ first rest, d.m_workers = first :: rest →
      (Dispatcher.shutdown d).2 = Signal.returned ∧
      (Dispatcher.shutdown d).1.m_workers = first :: rest.map (fun w => (w.stop).join) ∧
      (∀ w, w ∈ rest → (w.stop).join.m_stop_flag = true ∧ (w.stop).join.m_thread = none ∧
        (w.stop).join.m_deque = w.m_deque ∧ (w.m_thread = none → (w.stop).join = w.stop)) ∧
      Dispatcher.shutdown (Dispatcher.shutdown d).1
        = ((Dispatcher.shutdown d).1, Signal.returned)) := by
  refine ⟨rfl, ?_, ?_⟩
  · intro h
    simp [Dispatcher.shutdown, h]
  · intro first rest h
    have hs : Dispatcher.shutdown d
        = ({ d with m_workers := first :: (rest.map Worker.stop).map Worker.join },
            Signal.returned) := by
      simp [Dispatcher.shutdown, h]
    refine ⟨by rw [hs], by rw [hs]; simp [List.map_map, Function.comp_def], ?_, ?_⟩
    · intro w _
      cases hw : w.m_thread <;> simp [Worker.join, Worker.stop, hw]
    · rw [hs]
      simp only [Dispatcher.shutdown, List.map_map]
      congr 3
      apply List.map_congr_left
      intro w _
      exact join_stop_idempotent w

/-- C20 (the code at a failing input): after the library-level `shutdown` of an
initialised dispatcher the initialised flag is still set, so `submit` passes the
initialisation check and enqueues as before: task `1` is appended to the deque of the
stopped, joined worker at position `1`.  A main-affinity task submitted after the
shutdown is appended to the main deque, and `process_main` then runs its payload. -/
theorem submit_after_shutdown :
    (shutdown demo_state).signal = Signal.returned ∧
    demo_shut_down_state.dispatcher.m_workers.map (fun w => (w.m_stop_flag, w.m_thread))
      = [(true, none), (true, none), (true, none)] ∧
    demo_shut_down_state.dispatcher.initialized = true ∧
    demo_shut_down_state.deque 1 = [] ∧
    (submit demo_shut_down_state 0 (some 1)).signal = Signal.returned ∧
    (submit demo_shut_down_state 0 (some 1)).state.deque 1 = [1] ∧
    (submit (Task.set_thread_affinity demo_shut_down_state 7 thread_affinity.main) 0
      (some 7)).state.deque 0 = [7] ∧
    (process_main idle_payload 2
      (submit (Task.set_thread_affinity demo_shut_down_state 7 thread_affinity.main) 0
        (some 7)).state 100 (fun _ => 0)).map (fun r => (r.signal, r.state.returned))
      = some (Signal.returned, [7]) := by
  decide

/-! ## Refcount range -/

/-- An enabled event changes the refcount of an accounted task `P` by at most one, it
lowers it only from a value of at least 1, and it leaves a zero refcount at zero. -/
theorem refcount_step (s : State) (P : TaskRef) (e : Event)
    (hen : e.enabled s = true) (h : accounted s P) :
    (Task.get_refcount (e.step s).state P = Task.get_refcount s P ∨
      Task.get_refcount (e.step s).state P = Task.get_refcount s P + 1 ∨
      (1 ≤ Task.get_refcount s P ∧
        Task.get_refcount (e.step s).state P = Task.get_refcount s P - 1)) ∧
    (Task.get_refcount s P = 0 → Task.get_refcount (e.step s).state P = 0) := by
  have hzero := accounted_zero_iff s P h
  cases e with
  | acquire caller i rand =>
    have hf := do_work_acquire_frame s i rand 0
    have hrc : Task.get_refcount (Worker.do_work_acquire s i rand).state P
        = Task.get_refcount s P := by
      unfold Task.get_refcount
      rw [hf.1]
    exact ⟨Or.inl hrc, fun h0 => hrc.trans h0⟩
  | spawn caller c =>
    obtain ⟨q, hq, hqr, hcq, hcs, hcr, hmax⟩ := enabled_spawn s caller c hen
    have hf := spawn_frame s caller c q hq 0
    have hrc := hf.2.2.1 P
    by_cases hPq : P = q
    · subst hPq
      rw [if_pos rfl, inc_value_eq _ hmax] at hrc
      exact ⟨Or.inr (Or.inl hrc), fun h0 => absurd (hzero.mp h0).1 hqr⟩
    · rw [if_neg hPq] at hrc
      exact ⟨Or.inl hrc, fun h0 => hrc.trans h0⟩
  | finish caller t =>
    obtain ⟨hrun, htr⟩ := enabled_finish s caller t hen
    obtain ⟨i, W, hctx, _, _⟩ := running_some s caller t hrun
    have hself : Task.get_parent s P ≠ some P := fun hh => h.2.2.1 ((h.1 P).mp hh)
    have hf := finish_summary s caller t P i hctx hself
    have hrc := hf.2.2.2.2.2.1
    by_cases hit : t = P ∨ Task.get_parent s t = some P
    · rw [if_pos hit] at hrc
      have hnz : Task.get_refcount s P ≠ 0 := by
        intro h0
        obtain ⟨hPr, hall⟩ := hzero.mp h0
        rcases hit with hit | hit
        · subst hit
          exact htr hPr
        · exact htr (hall t ((h.1 t).mp hit))
      rw [dec_value_pos _ (by omega)] at hrc
      exact ⟨Or.inr (Or.inr ⟨by omega, hrc⟩), fun h0 => absurd h0 hnz⟩
    · rw [if_neg hit] at hrc
      exact ⟨Or.inl hrc, fun h0 => hrc.trans h0⟩

/-- C12 (amended): let `P` be freshly constructed and let the scheduler perform any
enabled sequence of events (each task processed once, each child spawned once, no
counter at its largest value is incremented).  Then every further enabled event leaves
the refcount of `P` as it is, raises it by one, or lowers it by one from a value of at
least 1, so no decrement wraps the counter; and once the refcount of `P` is 0 the
event leaves it at 0. -/
theorem refcount_never_wraps (s0 : State) (P : TaskRef) (es : List Event) (e : Event)
    (hfresh : Task.get_refcount s0 P = 1)
    (hnoparent : ∀ t, Task.get_parent s0 t ≠ some P)
    (hnochildren : children s0 P = [])
    (hnotret : P ∉ s0.returned)
    (hvalid : valid s0 es = true)
    (hen : e.enabled (run s0 es) = true) :
    (Task.get_refcount (e.step (run s0 es)).state P = Task.get_refcount (run s0 es) P ∨
      Task.get_refcount (e.step (run s0 es)).state P = Task.get_refcount (run s0 es) P + 1 ∨
      (1 ≤ Task.get_refcount (run s0 es) P ∧
        Task.get_refcount (e.step (run s0 es)).state P
          = Task.get_refcount (run s0 es) P - 1)) ∧
    (Task.get_refcount (run s0 es) P = 0 →
      Task.get_refcount (e.step (run s0 es)).state P = 0) :=
  refcount_step (run s0 es) P e hen
    (accounted_run P es s0 hvalid
      (accounted_fresh s0 P hfresh hnoparent hnochildren hnotret))

/-- Witness for C12 (amended): at the end of `demo_child_trace` the refcount of task
`1` is 0, and the next loop iteration of the worker at position `1` leaves it at 0. -/
theorem refcount_never_wraps_witness :
    Task.get_refcount (run demo_submitted_state demo_child_trace) 1 = 0 ∧
    Task.get_refcount
      ((Event.acquire 101 1 0).step (run demo_submitted_state demo_child_trace)).state 1 = 0 :=
  ⟨by decide,
   (refcount_never_wraps demo_submitted_state 1 demo_child_trace (Event.acquire 101 1 0)
      (by decide) (fun _ h => Option.noConfusion h) (by decide) (by decide) (by decide)
      (by decide)).2 (by decide)⟩

/-- C12 (counterexample): task `1` is freshly constructed (refcount 1).  One
`decrement_refcount` brings its refcount to 0, a second one wraps the unsigned counter
to `2^32 - 1`; processing the task twice does the same; and `increment_refcount` on
the task whose refcount has reached 0 raises it to 1 again. -/
theorem refcount_wraps_and_rises :
    Task.get_refcount demo_state 1 = 1 ∧
    Task.get_refcount (Task.decrement_refcount demo_state 101 1).state 1 = 0 ∧
    Task.get_refcount
      (Task.decrement_refcount (Task.decrement_refcount demo_state 101 1).state 101 1).state 1
      = 4294967295 ∧
    Task.get_refcount (Task.process idle_payload demo_state 101 1).state 1 = 0 ∧
    Task.get_refcount
      (Task.process idle_payload (Task.process idle_payload demo_state 101 1).state 101 1).state
      1 = 4294967295 ∧
    Task.get_refcount
      (Task.increment_refcount (Task.decrement_refcount demo_state 101 1).state 1) 1 = 1 := by
  decide

/-! ## Tasks in the deques -/

theorem count_append_singleton (l : List TaskRef) (t K : TaskRef) :
    (l ++ [t]).count K = l.count K + (if t = K then 1 else 0) := by
  by_cases h : t = K <;> simp [List.count_append, List.count_cons, h]

theorem count_cons_task (l : List TaskRef) (t K : TaskRef) :
    (t :: l).count K = l.count K + (if t = K then 1 else 0) := by
  by_cases h : t = K <;> simp [List.count_cons, h]

theorem queued_insert (s : State) (K t : TaskRef) (i : Nat) (w v : Worker)
    (hw : s.dispatcher.m_workers[i]? = some w)
    (hv : v.m_deque.count K = w.m_deque.count K + (if t = K then 1 else 0)) :
    queued (s.setWorker i v) K = queued s K + (if t = K then 1 else 0) := by
  have h := queued_setWorker s K i w v hw
  omega

theorem submit_queued_le (s : State) (rand : Nat) (t K : TaskRef) :
    queued (Dispatcher.submit s rand t).state K
      ≤ queued s K + (if t = K then 1 else 0) := by
  unfold Dispatcher.submit
  split
  · exact Nat.le_add_right _ _
  · rename_i main_worker range hws
    split
    · have hw : s.dispatcher.m_workers[0]? = some main_worker := by simp [hws]
      exact le_of_eq (queued_insert s K t 0 main_worker _ hw
        (count_append_singleton main_worker.m_deque t K))
    · simp only
      split
      · exact Nat.le_add_right _ _
      · rename_i selected _
        split
        · exact Nat.le_add_right _ _
        · split
          · exact Nat.le_add_right _ _
          · rename_i w hsel
            have hw : (State.mk s.tasks s.dispatcher
                (s.dispatcher.m_scheduler range s.rr_counter rand).2 s.returned
                s.spawned).dispatcher.m_workers[selected + 1]? = some w := by
              show s.dispatcher.m_workers[selected + 1]? = some w
              rw [hws]
              simpa using hsel
            exact le_of_eq (queued_insert _ K t (selected + 1) w _ hw
              (count_append_singleton w.m_deque t K))

theorem push_task_queued_le (s : State) (caller : ThreadId) (t K : TaskRef) :
    queued (Dispatcher.push_task s caller t).state K
      ≤ queued s K + (if t = K then 1 else 0) := by
  cases hcw : Dispatcher.current_worker s.dispatcher caller with
  | error e =>
    have : Dispatcher.push_task s caller t = ⟨s, Signal.thrown e⟩ := by
      simp [Dispatcher.push_task, hcw]
    rw [this]
    exact Nat.le_add_right _ _
  | ok i => exact le_of_eq (push_task_queued s caller t K i hcw)

theorem spawn_queued_le (s : State) (caller : ThreadId) (t K : TaskRef) :
    queued (Dispatcher.spawn s caller t).state K
      ≤ queued s K + (if t = K then 1 else 0) := by
  unfold Dispatcher.spawn
  split
  · exact Nat.le_add_right _ _
  · rename_i i _
    split
    · exact Nat.le_add_right _ _
    · rename_i spawner hsp
      simp only
      split
      · exact Nat.le_add_right _ _
      · rename_i p _
        have hw : (Task.increment_refcount (Task.set_parent s t spawner.current_task)
            p).dispatcher.m_workers[i]? = some spawner := hsp
        exact le_of_eq (queued_insert _ K t i spawner _ hw
          (count_cons_task spawner.m_deque t K))

/-- A queue operation adds at most one occurrence of a task to the deques, and only of
the task that it inserts. -/
theorem queue_step_le (s : State) (op : QueueOp) (K : TaskRef) :
    queued (op.step s).state K
      ≤ queued s K + (if op.inserted = some K then 1 else 0) := by
  cases op with
  | submit rand t =>
    have := submit_queued_le s rand t K
    simpa [QueueOp.step, QueueOp.inserted] using this
  | spawn caller t =>
    have := spawn_queued_le s caller t K
    simpa [QueueOp.step, QueueOp.inserted] using this
  | publish caller t =>
    have := push_task_queued_le s caller t K
    simpa [QueueOp.step, QueueOp.inserted] using this
  | take i =>
    have := (do_work_take_frame s i K).2.2.2
    simpa [QueueOp.step, QueueOp.inserted] using this
  | steal i rand =>
    have := (do_work_steal_frame s i rand K).2.2.2
    simpa [QueueOp.step, QueueOp.inserted] using this

/-- C13 (amended): start in a state in which each task occurs at most once in the
union of all deques, and apply any sequence of submit, spawn, continuation
publication, take and steal in which every inserting operation (submit, spawn,
publication) inserts a task that is in no deque at that moment; take and steal are
unrestricted.  Then in the state reached each task still occurs at most once in the
union of all deques. -/
theorem queue_at_most_once (ops : List QueueOp) :
    ∀ s0 : State, at_most_once s0 → inserts_unqueued s0 ops = true →
      at_most_once (queue_run s0 ops) := by
  induction ops with
  | nil =>
    intro s0 h0 _
    exact h0
  | cons op rest ih =>
    intro s0 h0 hfresh
    simp only [inserts_unqueued, Bool.and_eq_true] at hfresh
    apply ih (op.step s0).state _ hfresh.2
    intro K
    have hle := queue_step_le s0 op K
    by_cases hins : op.inserted = some K
    · rw [hins] at hfresh
      have hz : queued s0 K = 0 := by simpa using hfresh.1
      rw [if_pos hins, hz] at hle
      omega
    · rw [if_neg hins] at hle
      have := h0 K
      omega

/-- Witness for C13 (amended): task `1` is submitted, taken by its worker, spawns task
`2`, and task `2` is stolen by the worker at position `2`. -/
theorem queue_at_most_once_witness :
    at_most_once (queue_run demo_state
      [QueueOp.submit 0 1, QueueOp.take 1, QueueOp.spawn 101 2, QueueOp.steal 2 0]) :=
  queue_at_most_once
    [QueueOp.submit 0 1, QueueOp.take 1, QueueOp.spawn 101 2, QueueOp.steal 2 0]
    demo_state (fun K => le_of_eq_of_le (rfl : queued demo_state K = 0) (Nat.zero_le 1))
    (by decide)

/-- C13 (counterexample): from a state with empty deques, submitting task `1` twice
puts it into the deques of two workers at the same time, and a payload that spawns
task `2` twice puts it twice into the deque of one worker. -/
theorem task_queued_twice :
    queued demo_state 1 = 0 ∧
    (queue_run demo_state [QueueOp.submit 0 1, QueueOp.submit 0 1]).deque 1 = [1] ∧
    (queue_run demo_state [QueueOp.submit 0 1, QueueOp.submit 0 1]).deque 2 = [1] ∧
    queued (queue_run demo_state [QueueOp.submit 0 1, QueueOp.submit 0 1]) 1 = 2 ∧
    queued demo_running_state 2 = 0 ∧
    (queue_run demo_running_state [QueueOp.spawn 101 2, QueueOp.spawn 101 2]).deque 1
      = [2, 2] := by
  decide

/-! ## The main lane -/

/-- When the loop of `do_work` ends normally, the deque of the worker is empty. -/
theorem do_work_exit (execute : TaskRef → ThreadId → State → Res) (caller : ThreadId)
    (i : Nat) (rands : Nat → Nat) :
    ∀ (fuel : Nat) (s : State) (r : Res),
      Worker.do_work execute fuel s caller i rands = some r →
      r.signal = Signal.returned → r.state.deque i = [] := by
  intro fuel
  induction fuel with
  | zero =>
    intro s r h
    simp [Worker.do_work] at h
  | succ fuel ih =>
    intro s r h hsig
    simp only [Worker.do_work] at h
    split at h
    · cases h
      cases hsig
    · rename_i w hw
      split at h
      · rename_i hexit
        cases h
        simp only [Bool.and_eq_true, List.isEmpty_iff] at hexit
        simp [State.deque, hw, hexit.1]
      · split at h
        · exact ih _ r h hsig
        · rename_i hne
          cases h
          exact absurd hsig hne

theorem decrement_refcount_no_continuation (s : State) (caller : ThreadId) (t : TaskRef)
    (hc : ∀ x, Task.get_continuation s x = none) :
    (Task.decrement_refcount s caller t).signal = Signal.returned ∧
    (Task.decrement_refcount s caller t).state.dispatcher = s.dispatcher ∧
    (∀ x, Task.get_continuation (Task.decrement_refcount s caller t).state x = none) ∧
    (Task.decrement_refcount s caller t).state.returned = s.returned := by
  have hl := decrement_refcount_links s caller t
  have hh := decrement_refcount_history s caller t
  refine ⟨?_, ?_, fun x => (hl.2.1 x).trans (hc x), hh.1⟩
  · by_cases h : dec_value (s.tasks t).m_refcount = 0
    · rw [decrement_refcount_zero_none s caller t h (hc t)]
    · rw [decrement_refcount_nonzero s caller t h]
  · by_cases h : dec_value (s.tasks t).m_refcount = 0
    · rw [decrement_refcount_zero_none s caller t h (hc t)]
      rfl
    · rw [decrement_refcount_nonzero s caller t h]
      rfl

theorem process_after_execute_no_continuation (s : State) (caller : ThreadId) (t : TaskRef)
    (hc : ∀ x, Task.get_continuation s x = none) :
    (Task.process_after_execute s caller t).signal = Signal.returned ∧
    (Task.process_after_execute s caller t).state.dispatcher = s.dispatcher ∧
    (∀ x, Task.get_continuation (Task.process_after_execute s caller t).state x = none) ∧
    (Task.process_after_execute s caller t).state.returned = s.returned ++ [t] := by
  have hc0 : ∀ x, Task.get_continuation (s.record_return t) x = none := hc
  cases hp : Task.get_parent s t with
  | none =>
    rw [process_after_execute_orphan s caller t hp]
    exact decrement_refcount_no_continuation (s.record_return t) caller t hc0
  | some p =>
    have h1 := decrement_refcount_no_continuation (s.record_return t) caller p hc0
    have hproc : Task.process_after_execute s caller t
        = Task.decrement_refcount
            (Task.decrement_refcount (s.record_return t) caller p).state caller t := by
      unfold Task.process_after_execute
      have hp2 : ((s.record_return t).tasks t).m_parent = some p := hp
      simp only [hp2]
      have hsig := h1.1
      generalize Task.decrement_refcount (s.record_return t) caller p = r at hsig
      obtain ⟨st, sg⟩ := r
      simp only at hsig
      subst hsig
      rfl
    rw [hproc]
    have h2 := decrement_refcount_no_continuation _ caller t h1.2.2.1
    exact ⟨h2.1, h2.2.1.trans h1.2.1, h2.2.2.1, h2.2.2.2.trans h1.2.2.2⟩

theorem process_of_returned (execute : TaskRef → ThreadId → State → Res) (s : State)
    (caller : ThreadId) (t : TaskRef)
    (hsig : (execute t caller s).signal = Signal.returned) :
    Task.process execute s caller t
      = Task.process_after_execute (execute t caller s).state caller t := by
  unfold Task.process
  generalize execute t caller s = r at hsig
  obtain ⟨st, sg⟩ := r
  simp only at hsig
  subst hsig
  rfl

/-- One loop iteration of a worker that is not stealable and has `t` at the front of
its deque: `t` is popped and processed. -/
theorem do_work_iteration_front (execute : TaskRef → ThreadId → State → Res) (s : State)
    (caller : ThreadId) (i rand : Nat) (w : Worker) (t : TaskRef) (q : List TaskRef)
    (hw : s.dispatcher.m_workers[i]? = some w) (hd : w.m_deque = t :: q) :
    Worker.do_work_iteration execute s caller i rand
      = Task.process execute
          (s.setWorker i { w with m_current_task := some t, m_deque := q }) caller t := by
  have hlt : i < s.dispatcher.m_workers.length := getElem?_some_lt _ i w hw
  have htake : Worker.do_work_take s i
      = s.setWorker i { w with m_current_task := some t, m_deque := q } := by
    rw [do_work_take_eq s i w hw]
    simp [Worker.try_steal, hd]
  have hget : (s.setWorker i { w with m_current_task := some t, m_deque := q }
      ).dispatcher.m_workers[i]?
      = some { w with m_current_task := some t, m_deque := q } := by
    simp [State.setWorker, hlt]
  have hacq : Worker.do_work_acquire s i rand
      = ⟨s.setWorker i { w with m_current_task := some t, m_deque := q },
          Signal.returned⟩ := by
    unfold Worker.do_work_acquire
    simp only [htake, hget]
  unfold Worker.do_work_iteration
  rw [hacq]
  simp only [hget]

/-- The loop of the main worker drains a deque of payloads that leave the scheduler
alone: with one unit of fuel per queued task and one for the final test it returns,
the deque is empty, the other workers are untouched, and the payloads have returned
in the order of the deque. -/
theorem do_work_drains (execute : TaskRef → ThreadId → State → Res) (caller : ThreadId)
    (rands : Nat → Nat) (hq : main_lane_payload execute) :
    ∀ (queue : List TaskRef) (s : State) (main : Worker) (rest : List Worker) (extra : Nat),
      s.dispatcher.m_workers = main :: rest → main.m_deque = queue →
      main.m_stop_flag = true → s.dispatcher.m_main_processing = true →
      (∀ x, Task.get_continuation s x = none) →
      ∃ s2, Worker.do_work execute (queue.length + 1 + extra) s caller 0 rands
          = some ⟨s2, Signal.returned⟩ ∧
        s2.deque 0 = [] ∧ s2.dispatcher.m_workers.tail = rest ∧
        s2.dispatcher.m_main_processing = true ∧
        s2.returned = s.returned ++ queue := by
  intro queue
  induction queue with
  | nil =>
    intro s main rest extra hws hd hstop hflag hc
    refine ⟨s, ?_, ?_, ?_, hflag, by simp⟩
    · have hfuel : ([] : List TaskRef).length + 1 + extra = extra + 1 := by simp; omega
      rw [hfuel]
      have hw : s.dispatcher.m_workers[0]? = some main := by simp [hws]
      simp only [Worker.do_work, hw]
      simp [hd, hstop]
    · simp [State.deque, hws, hd]
    · simp [hws]
  | cons t q ih =>
    intro s main rest extra hws hd hstop hflag hc
    have hfuel : (t :: q).length + 1 + extra = (q.length + 1 + extra) + 1 := by
      simp only [List.length_cons]
      omega
    have hw : s.dispatcher.m_workers[0]? = some main := by simp [hws]
    have hiter := do_work_iteration_front execute s caller 0
      (rands (q.length + 1 + extra)) main t q hw hd
    have hflag1 : (s.setWorker 0 { main with m_current_task := some t, m_deque := q }
        ).dispatcher.m_main_processing = true := hflag
    have hc1 : ∀ x, Task.get_continuation
        (s.setWorker 0 { main with m_current_task := some t, m_deque := q }) x = none := hc
    obtain ⟨he1, he2, he3, he4⟩ := hq t caller _ hflag1 hc1
    have hproc := process_of_returned execute _ caller t he1
    obtain ⟨hp1, hp2, hp3, hp4⟩ := process_after_execute_no_continuation
      (execute t caller
        (s.setWorker 0 { main with m_current_task := some t, m_deque := q })).state caller t he3
    rw [← hproc, ← hiter] at hp1 hp2 hp3 hp4
    have hws2 : (Worker.do_work_iteration execute s caller 0
        (rands (q.length + 1 + extra))).state.dispatcher.m_workers
        = { main with m_current_task := some t, m_deque := q } :: rest := by
      rw [hp2, he2]
      simp [State.setWorker, hws]
    have hflag2 : (Worker.do_work_iteration execute s caller 0
        (rands (q.length + 1 + extra))).state.dispatcher.m_main_processing = true := by
      rw [hp2, he2]
      exact hflag
    obtain ⟨s2, hs2, hdq, htail, hfl, hret⟩ := ih _
      { main with m_current_task := some t, m_deque := q } rest extra hws2 rfl hstop hflag2 hp3
    refine ⟨s2, ?_, hdq, htail, hfl, ?_⟩
    · rw [hfuel]
      simp only [Worker.do_work, hw]
      have hne : (main.m_deque.isEmpty && main.m_stop_flag) = false := by simp [hd]
      simp only [hne, Bool.false_eq_true, if_false, hp1]
      exact hs2
    · rw [hret, hp4, he4]
      simp [State.setWorker]

theorem do_work_acquire_no_steal (s : State) (rand : Nat) (main : Worker)
    (hw : s.dispatcher.m_workers[0]? = some main) (hcs : main.m_can_steal = false) :
    Worker.do_work_acquire s 0 rand = ⟨Worker.do_work_take s 0, Signal.returned⟩ := by
  have hlt : 0 < s.dispatcher.m_workers.length := getElem?_some_lt _ 0 main hw
  have htake := do_work_take_eq s 0 main hw
  have hget : (Worker.do_work_take s 0).dispatcher.m_workers[0]?
      = some { main with m_current_task := main.try_steal.1,
                         m_deque := main.try_steal.2.m_deque } := by
    rw [htake]
    simp [State.setWorker, hlt]
  unfold Worker.do_work_acquire
  simp only [hget]
  split
  · rfl
  · simp [hcs]

/-! ## Victim selection -/

/-- C22: after `initialize` on a dispatcher that was not initialised, had an empty
worker list and worker count `n ≥ 1`, `choose_victim` returns for every value `r` of
the random source the position `1 + r mod n`; this position lies in `[1, n]`, so it is
inside the worker list of length `n + 1`, it is not position 0 of the main worker, and
the worker there is stealable; and every position in `[1, n]` is returned for some
`r < n`. -/
theorem choose_victim_range (d : Dispatcher) (caller : ThreadId)
    (new_thread : Nat → ThreadId) (r : Nat)
    (hfresh : d.m_initialized = false) (hempty : d.m_workers = [])
    (hn : 1 ≤ d.m_worker_count) :
    Dispatcher.choose_victim ( Dispatcher.initialize d caller new_thread) r
      = some (1 + r % d.m_worker_count) ∧
    1 ≤ 1 + r % d.m_worker_count ∧
    1 + r % d.m_worker_count ≤ d.m_worker_count ∧
    ( Dispatcher.initialize d caller new_thread).m_workers.length = d.m_worker_count + 1 ∧
    1 + r % d.m_worker_count < ( Dispatcher.initialize d caller new_thread).m_workers.length ∧
    1 + r % d.m_worker_count ≠ 0 ∧
    (∃ w, ( Dispatcher.initialize d caller new_thread).m_workers[1 + r % d.m_worker_count]?
        = some w ∧ w.m_can_steal = true) ∧
    ∀ i, 1 ≤ i → i ≤ d.m_worker_count →
      ∃ r2, r2 < d.m_worker_count ∧
        Dispatcher.choose_victim ( Dispatcher.initialize d caller new_thread) r2 = some i := by
  have hmod : r % d.m_worker_count < d.m_worker_count := Nat.mod_lt _ (by omega)
  have hlen : ( Dispatcher.initialize d caller new_thread).m_workers.length
      = d.m_worker_count + 1 := by
    rw [initialize_fresh d caller new_thread hfresh hempty]
    simp [start_workers_length]
  have hcount : ( Dispatcher.initialize d caller new_thread).m_worker_count
      = d.m_worker_count := by
    rw [initialize_fresh d caller new_thread hfresh hempty]
  have hcv : ∀ x, Dispatcher.choose_victim ( Dispatcher.initialize d caller new_thread) x
      = some (1 + x % d.m_worker_count) := by
    intro x
    have hx : x % d.m_worker_count < d.m_worker_count := Nat.mod_lt _ (by omega)
    unfold Dispatcher.choose_victim
    rw [hcount, hlen, if_neg (by omega), if_pos (by omega)]
  refine ⟨hcv r, by omega, by omega, hlen, by omega, by omega, ?_, ?_⟩
  · rw [initialize_fresh d caller new_thread hfresh hempty]
    have hj : ((List.range d.m_worker_count).map
        (fun _ => Worker.construct false caller))[r % d.m_worker_count]?
        = some (Worker.construct false caller) := by
      rw [List.getElem?_map, List.getElem?_range hmod]
      rfl
    have hs := start_workers_getElem new_thread _ 1 (r % d.m_worker_count) _ hj
    refine ⟨(Worker.construct false caller).start (new_thread (1 + r % d.m_worker_count)),
      ?_, rfl⟩
    rw [Nat.add_comm 1 (r % d.m_worker_count)]
    simpa [Nat.add_comm] using hs
  · intro i h1 hi
    refine ⟨i - 1, by omega, ?_⟩
    rw [hcv (i - 1), Nat.mod_eq_of_lt (by omega)]
    congr 1
    omega

/-- Witness for C22: two stealable workers; the random value `5` selects position
`1 + 5 mod 2 = 2`. -/
theorem choose_victim_range_witness :
    Dispatcher.choose_victim demo_dispatcher 5 = some (1 + 5 % 2) :=
  (choose_victim_range { Dispatcher.construct 8 with m_worker_count := 2 } 100
    (fun j => 100 + j) 5 rfl rfl (by decide)).1

/-! ## Lock ordering -/

theorem thread_id_lt_total (x y : thread_id) (h : x ≠ y) :
    (thread_id_lt x y = true ∧ thread_id_lt y x = false) ∨
    (thread_id_lt x y = false ∧ thread_id_lt y x = true) := by
  cases x with
  | none =>
    cases y with
    | none => exact absurd rfl h
    | some b => exact Or.inl ⟨rfl, rfl⟩
  | some a =>
    cases y with
    | none => exact Or.inr ⟨rfl, rfl⟩
    | some b =>
      have hab : a ≠ b := fun hc => h (by rw [hc])
      rcases Nat.lt_trichotomy a b with hlt | heq | hgt
      · exact Or.inl ⟨by simp [thread_id_lt, hlt], by simp [thread_id_lt, Nat.le_of_lt hlt]⟩
      · exact absurd heq hab
      · exact Or.inr ⟨by simp [thread_id_lt, Nat.le_of_lt hgt], by simp [thread_id_lt, hgt]⟩

/-- C23: for two workers `a` and `b` (at the positions `pa` and `pb`) with distinct
ids, `a.lock_in_order(b)` and `b.lock_in_order(a)` perform the same two lock
operations in the same order, the mutex of the worker with the smaller id first; and
each call of `unlock_in_order` releases the two mutexes in the reverse of the order in
which the matching `lock_in_order` acquired them. -/
theorem lock_in_order_consistent (pa pb : Nat) (a b : Worker)
    (hid : a.get_id ≠ b.get_id) :
    Worker.lock_in_order pa a pb b = Worker.lock_in_order pb b pa a ∧
    (thread_id_lt a.get_id b.get_id = true →
      Worker.lock_in_order pa a pb b = [LockAction.lock pa, LockAction.lock pb]) ∧
    (thread_id_lt b.get_id a.get_id = true →
      Worker.lock_in_order pa a pb b = [LockAction.lock pb, LockAction.lock pa]) ∧
    (thread_id_lt a.get_id b.get_id = true ∨ thread_id_lt b.get_id a.get_id = true) ∧
    Worker.unlock_in_order pa a pb b
      = (Worker.lock_in_order pa a pb b).reverse.map LockAction.release ∧
    Worker.unlock_in_order pb b pa a
      = (Worker.lock_in_order pb b pa a).reverse.map LockAction.release := by
  rcases thread_id_lt_total a.get_id b.get_id hid with ⟨h1, h2⟩ | ⟨h1, h2⟩
  · simp [Worker.lock_in_order, Worker.unlock_in_order, h1, h2, LockAction.release]
  · simp [Worker.lock_in_order, Worker.unlock_in_order, h1, h2, LockAction.release]

/-- Witness for C23: the workers at the positions `1` and `2` of `demo_dispatcher`,
with the thread ids `101` and `102`. -/
theorem lock_in_order_consistent_witness :
    Worker.lock_in_order 2 ((Worker.construct false 100).start 102)
        1 ((Worker.construct false 100).start 101)
      = [LockAction.lock 1, LockAction.lock 2] ∧
    Worker.lock_in_order 1 ((Worker.construct false 100).start 101)
        2 ((Worker.construct false 100).start 102)
      = Worker.lock_in_order 2 ((Worker.construct false 100).start 102)
        1 ((Worker.construct false 100).start 101) :=
  ⟨(lock_in_order_consistent 2 1 ((Worker.construct false 100).start 102)
      ((Worker.construct false 100).start 101) (by decide)).2.2.1 (by decide),
   (lock_in_order_consistent 1 2 ((Worker.construct false 100).start 101)
      ((Worker.construct false 100).start 102) (by decide)).1⟩

/-! ## The stealing branch of the worker loop -/

theorem choose_victim_setWorker (s : State) (i : Nat) (w : Worker) (rand : Nat) :
    Dispatcher.choose_victim (s.setWorker i w).dispatcher rand
      = Dispatcher.choose_victim s.dispatcher rand := by
  simp [Dispatcher.choose_victim, State.setWorker]

theorem getElem?_setWorker_same (s : State) (i : Nat) (w : Worker)
    (h : i < s.dispatcher.m_workers.length) :
    (s.setWorker i w).dispatcher.m_workers[i]? = some w := by
  simp [State.setWorker, h]

theorem getElem?_setWorker_other (s : State) (i j : Nat) (w : Worker) (h : j ≠ i) :
    (s.setWorker i w).dispatcher.m_workers[j]? = s.dispatcher.m_workers[j]? := by
  simp [State.setWorker, List.getElem?_set_ne (Ne.symm h)]

theorem length_setWorker (s : State) (i : Nat) (w : Worker) :
    (s.setWorker i w).dispatcher.m_workers.length = s.dispatcher.m_workers.length := by
  simp [State.setWorker]

/-- The own take of a worker whose deque is empty clears the current task and leaves
the deque as it is. -/
theorem do_work_take_empty (s : State) (i : Nat) (W : Worker)
    (hW : s.dispatcher.m_workers[i]? = some W) (hdq : W.m_deque = []) :
    Worker.do_work_take s i = s.setWorker i { W with m_current_task := none } := by
  unfold Worker.do_work_take
  rw [hW]
  simp only
  rw [hdq]

/-- A stealable worker whose deque is empty enters the stealing branch. -/
theorem do_work_acquire_empty (s : State) (i rand : Nat) (W : Worker)
    (hW : s.dispatcher.m_workers[i]? = some W) (hdq : W.m_deque = [])
    (hst : W.m_can_steal = true) :
    Worker.do_work_acquire s i rand
      = Worker.do_work_steal (Worker.do_work_take s i) i rand := by
  have hlt : i < s.dispatcher.m_workers.length := getElem?_some_lt _ i W hW
  have hget : (Worker.do_work_take s i).dispatcher.m_workers[i]?
      = some { W with m_current_task := none } := by
    rw [do_work_take_empty s i W hW hdq]
    exact getElem?_setWorker_same s i _ hlt
  unfold Worker.do_work_acquire
  simp only [hget, hst, if_true]

theorem do_work_steal_self (s : State) (i rand : Nat)
    (hcv : Dispatcher.choose_victim s.dispatcher rand = some i) :
    Worker.do_work_steal s i rand = ⟨s, Signal.returned⟩ := by
  unfold Worker.do_work_steal
  simp only [hcv, if_true]

theorem do_work_steal_other (s : State) (i v rand : Nat) (W V : Worker)
    (hcv : Dispatcher.choose_victim s.dispatcher rand = some v) (hne : v ≠ i)
    (hV : s.dispatcher.m_workers[v]? = some V)
    (hW : s.dispatcher.m_workers[i]? = some W) :
    Worker.do_work_steal s i rand
      = ⟨(s.setWorker v V.try_steal.2).setWorker i
          { W with m_current_task := V.try_steal.1 }, Signal.returned⟩ := by
  unfold Worker.do_work_steal
  simp only [hcv, hne, if_false, hV, hW]

/-- A spawn on the thread of worker `i`, whose current task is `P`, puts the task at
the front of the deque of `i` and leaves the other deques alone. -/
theorem spawn_deque (s : State) (caller : ThreadId) (T P : TaskRef) (i : Nat) (W : Worker)
    (hi : Dispatcher.current_worker s.dispatcher caller = Except.ok i)
    (hW : s.dispatcher.m_workers[i]? = some W)
    (hP : W.current_task = some P) :
    (Dispatcher.spawn s caller T).state.deque i = T :: s.deque i ∧
    ∀ j, j ≠ i → (Dispatcher.spawn s caller T).state.deque j = s.deque j := by
  have hlen : i < s.dispatcher.m_workers.length := getElem?_some_lt _ _ _ hW
  rw [spawn_ok s caller T P i W hi hW hP]
  constructor
  · show State.deque ((Task.increment_refcount (Task.set_parent s T (some P)) P).setWorker i
        (W.push_task T)) i = _
    rw [deque_setWorker_same (Task.increment_refcount (Task.set_parent s T (some P)) P) i _ hlen]
    simp [Worker.push_task, State.deque, hW]
  · intro j hj
    show State.deque ((Task.increment_refcount (Task.set_parent s T (some P)) P).setWorker i
        (W.push_task T)) j = _
    rw [deque_setWorker_other _ _ _ _ hj]
    rfl

/-- The state after a steal attempt of worker `i` (own deque empty) on another worker
`v`: the victim has lost what `try_steal` removed, the thief holds what `try_steal`
returned. -/
theorem do_work_acquire_steal (s : State) (i v rand : Nat) (W V : Worker)
    (hW : s.dispatcher.m_workers[i]? = some W) (hdq : W.m_deque = [])
    (hst : W.m_can_steal = true)
    (hcv : Dispatcher.choose_victim s.dispatcher rand = some v) (hne : v ≠ i)
    (hV : s.dispatcher.m_workers[v]? = some V) :
    Worker.do_work_acquire s i rand
      = ⟨((s.setWorker i { W with m_current_task := none }).setWorker v V.try_steal.2).setWorker i
          { W with m_current_task := V.try_steal.1 }, Signal.returned⟩ := by
  have hlt : i < s.dispatcher.m_workers.length := getElem?_some_lt _ i W hW
  rw [do_work_acquire_empty s i rand W hW hdq hst, do_work_take_empty s i W hW hdq]
  rw [do_work_steal_other (s.setWorker i { W with m_current_task := none }) i v rand
    { W with m_current_task := none } V
    (by rw [choose_victim_setWorker]; exact hcv) hne
    (by rw [getElem?_setWorker_other _ _ _ _ hne]; exact hV)
    (getElem?_setWorker_same s i _ hlt)]


theorem try_steal_thread_id (V : Worker) : V.try_steal.2.m_thread_id = V.m_thread_id := by
  unfold Worker.try_steal
  split <;> rfl

/-- The state in which worker `i` has cleared its current task, worker `v` has been
replaced by `V2` and worker `i` then holds the current task `c`: the deques and the
thread ids it shows. -/
theorem steal_state (s : State) (i v : Nat) (W V V2 : Worker) (c : task_ptr)
    (hW : s.dispatcher.m_workers[i]? = some W)
    (hV : s.dispatcher.m_workers[v]? = some V) (hne : v ≠ i)
    (hid : V2.m_thread_id = V.m_thread_id) :
    (((s.setWorker i { W with m_current_task := none }).setWorker v V2).setWorker i
        { W with m_current_task := c }).deque v = V2.m_deque ∧
    (((s.setWorker i { W with m_current_task := none }).setWorker v V2).setWorker i
        { W with m_current_task := c }).deque i = s.deque i ∧
    (∀ j, j ≠ v →
      (((s.setWorker i { W with m_current_task := none }).setWorker v V2).setWorker i
        { W with m_current_task := c }).deque j = s.deque j) ∧
    (((s.setWorker i { W with m_current_task := none }).setWorker v V2).setWorker i
        { W with m_current_task := c }).dispatcher.m_workers[i]?
      = some { W with m_current_task := c } ∧
    same_threads s.dispatcher
      (((s.setWorker i { W with m_current_task := none }).setWorker v V2).setWorker i
        { W with m_current_task := c }).dispatcher := by
  have hlt : i < s.dispatcher.m_workers.length := getElem?_some_lt _ i W hW
  have hlv : v < s.dispatcher.m_workers.length := getElem?_some_lt _ v V hV
  have hsi : s.deque i = W.m_deque := by simp [State.deque, hW]
  have hl1 : v < (s.setWorker i { W with m_current_task := none }).dispatcher.m_workers.length := by
    rw [length_setWorker]; exact hlv
  have hl2 : i < ((s.setWorker i { W with m_current_task := none }).setWorker v
      V2).dispatcher.m_workers.length := by
    rw [length_setWorker, length_setWorker]; exact hlt
  have hg1 : (s.setWorker i { W with m_current_task := none }).dispatcher.m_workers[v]?
      = some V := by
    rw [getElem?_setWorker_other _ _ _ _ hne]; exact hV
  have hg2 : ((s.setWorker i { W with m_current_task := none }).setWorker v
      V2).dispatcher.m_workers[i]? = some { W with m_current_task := none } := by
    rw [getElem?_setWorker_other _ _ _ _ (Ne.symm hne)]
    exact getElem?_setWorker_same s i _ hlt
  have hdi : (((s.setWorker i { W with m_current_task := none }).setWorker v V2).setWorker i
        { W with m_current_task := c }).deque i = s.deque i := by
    rw [deque_setWorker_same _ i _ hl2, hsi]
  refine ⟨?_, hdi, ?_, getElem?_setWorker_same _ i _ hl2, ?_⟩
  · rw [deque_setWorker_other _ _ _ _ hne, deque_setWorker_same _ v _ hl1]
  · intro j hjv
    by_cases hji : j = i
    · subst hji
      exact hdi
    · rw [deque_setWorker_other _ _ _ _ hji, deque_setWorker_other _ _ _ _ hjv,
        deque_setWorker_other _ _ _ _ hji]
  · exact same_threads_trans _ _ _
      (same_threads_trans _ _ _
        (same_threads_setWorker s i W { W with m_current_task := none } hW rfl)
        (same_threads_setWorker _ v V V2 hg1 hid))
      (same_threads_setWorker _ i _ _ hg2 rfl)


/-- C21: one loop iteration of a stealable worker `W` (position `i`) whose own deque
is empty, with chosen victim `V` (position `v`).  The worker enters the stealing
branch with every deque and every task as before.  (a) If `V` is `W` the stealing
branch changes nothing and the iteration processes no task.  (b) Otherwise, if `V`
has `t` at the front of its deque followed by `rest`, the step returns, `try_steal`
yields `t`, the deque of `V` is `rest`, every other deque (also the empty one of `W`)
is as before, no task is touched, `t` is the current task of `W`, the iteration
processes `t`, and on the thread of `W` the running task is `t`, so that a spawn of
`c` returns with `c` at the front of the deque of `W` and with parent `t`.  (c) If the
deque of `V` is empty, `try_steal` yields no task, no deque changes, `W` has no
current task and the iteration processes no task. -/
theorem steal_step (execute : TaskRef → ThreadId → State → Res) (s : State)
    (caller : ThreadId) (i v rand : Nat) (W V : Worker)
    (hW : s.dispatcher.m_workers[i]? = some W) (hdq : W.m_deque = [])
    (hst : W.m_can_steal = true)
    (hcv : Dispatcher.choose_victim s.dispatcher rand = some v)
    (hV : s.dispatcher.m_workers[v]? = some V) :
    Worker.do_work_acquire s i rand
      = Worker.do_work_steal (Worker.do_work_take s i) i rand ∧
    (∀ j, (Worker.do_work_take s i).deque j = s.deque j) ∧
    (Worker.do_work_take s i).tasks = s.tasks ∧
    (v = i →
      Worker.do_work_steal (Worker.do_work_take s i) i rand
        = ⟨Worker.do_work_take s i, Signal.returned⟩ ∧
      Worker.do_work_iteration execute s caller i rand
        = ⟨Worker.do_work_take s i, Signal.returned⟩) ∧
    (v ≠ i → ∀ t rest, V.m_deque = t :: rest →
      (Worker.do_work_acquire s i rand).signal = Signal.returned ∧
      V.try_steal.1 = some t ∧
      s.deque v = t :: rest ∧
      (Worker.do_work_acquire s i rand).state.deque v = rest ∧
      s.deque i = [] ∧
      (Worker.do_work_acquire s i rand).state.deque i = [] ∧
      (∀ j, j ≠ v → (Worker.do_work_acquire s i rand).state.deque j = s.deque j) ∧
      (Worker.do_work_acquire s i rand).state.tasks = s.tasks ∧
      (Worker.do_work_acquire s i rand).state.dispatcher.m_workers[i]?
        = some { W with m_current_task := some t } ∧
      Worker.do_work_iteration execute s caller i rand
        = Task.process execute (Worker.do_work_acquire s i rand).state caller t ∧
      (Dispatcher.current_worker s.dispatcher caller = Except.ok i →
        running (Worker.do_work_acquire s i rand).state caller = some t ∧
        ∀ c,
          (Dispatcher.spawn (Worker.do_work_acquire s i rand).state caller c).signal
            = Signal.returned ∧
          (Dispatcher.spawn (Worker.do_work_acquire s i rand).state caller c).state.deque i
            = [c] ∧
          Task.get_parent
            (Dispatcher.spawn (Worker.do_work_acquire s i rand).state caller c).state c
            = some t)) ∧
    (v ≠ i → V.m_deque = [] →
      (Worker.do_work_acquire s i rand).signal = Signal.returned ∧
      V.try_steal.1 = none ∧
      (∀ j, (Worker.do_work_acquire s i rand).state.deque j = s.deque j) ∧
      (Worker.do_work_acquire s i rand).state.tasks = s.tasks ∧
      (Worker.do_work_acquire s i rand).state.dispatcher.m_workers[i]?
        = some { W with m_current_task := none } ∧
      Worker.do_work_iteration execute s caller i rand
        = ⟨(Worker.do_work_acquire s i rand).state, Signal.returned⟩) := by
  have hlt : i < s.dispatcher.m_workers.length := getElem?_some_lt _ i W hW
  have hsi : s.deque i = [] := by simp [State.deque, hW, hdq]
  have htake := do_work_take_empty s i W hW hdq
  have hent := do_work_acquire_empty s i rand W hW hdq hst
  have htd : ∀ j, (Worker.do_work_take s i).deque j = s.deque j := by
    intro j
    rw [htake]
    by_cases hj : j = i
    · subst hj
      rw [deque_setWorker_same s j _ hlt, hsi]
      exact hdq
    · exact deque_setWorker_other s i j _ hj
  refine ⟨hent, htd, by rw [htake]; rfl, ?_, ?_, ?_⟩
  · intro hvi
    subst hvi
    have hself : Worker.do_work_steal (Worker.do_work_take s v) v rand
        = ⟨Worker.do_work_take s v, Signal.returned⟩ := by
      apply do_work_steal_self
      rw [htake, choose_victim_setWorker]
      exact hcv
    refine ⟨hself, ?_⟩
    have hget : (Worker.do_work_take s v).dispatcher.m_workers[v]?
        = some { W with m_current_task := none } := by
      rw [htake]
      exact getElem?_setWorker_same s v _ hlt
    unfold Worker.do_work_iteration
    rw [hent, hself]
    simp only [hget]
  · intro hne t rest hd
    have hts : V.try_steal = (some t, { V with m_deque := rest }) := by
      simp [Worker.try_steal, hd]
    have hacq := do_work_acquire_steal s i v rand W V hW hdq hst hcv hne hV
    rw [hts] at hacq
    obtain ⟨f1, f2, f3, f4, f5⟩ := steal_state s i v W V { V with m_deque := rest }
      (some t) hW hV hne rfl
    have hsv : s.deque v = t :: rest := by simp [State.deque, hV, hd]
    have hiter : Worker.do_work_iteration execute s caller i rand
        = Task.process execute (Worker.do_work_acquire s i rand).state caller t := by
      unfold Worker.do_work_iteration
      rw [hacq]
      simp only [f4]
    rw [hacq] at hiter ⊢
    refine ⟨rfl, by rw [hts], hsv, f1, hsi, f2.trans hsi, f3, rfl, f4, hiter, ?_⟩
    intro hcw
    have hcw2 := (current_worker_same_threads _ _ caller f5).trans hcw
    have hrun : running (((s.setWorker i { W with m_current_task := none }).setWorker v
        { V with m_deque := rest }).setWorker i { W with m_current_task := some t }) caller
        = some t := by
      unfold running
      simp only [hcw2, f4]
      rfl
    refine ⟨hrun, fun c => ?_⟩
    have hsp := spawn_frame _ caller c t hrun 0
    have hdq2 := (spawn_deque _ caller c t i _ hcw2 f4 rfl).1
    refine ⟨hsp.1, ?_, ?_⟩
    · rw [hdq2, f2.trans hsi]
    · rw [hsp.2.1 c, if_pos rfl]
  · intro hne hd
    have hts : V.try_steal = (none, V) := by
      simp [Worker.try_steal, hd]
    have hacq := do_work_acquire_steal s i v rand W V hW hdq hst hcv hne hV
    rw [hts] at hacq
    obtain ⟨f1, f2, f3, f4, _⟩ := steal_state s i v W V V none hW hV hne rfl
    have hsv : s.deque v = V.m_deque := by simp [State.deque, hV]
    have hiter : Worker.do_work_iteration execute s caller i rand
        = ⟨(Worker.do_work_acquire s i rand).state, Signal.returned⟩ := by
      unfold Worker.do_work_iteration
      rw [hacq]
      simp only [f4]
    rw [hacq] at hiter ⊢
    refine ⟨rfl, by rw [hts], ?_, rfl, f4, hiter⟩
    intro j
    by_cases hj : j = v
    · subst hj
      exact f1.trans hsv.symm
    · exact f3 j hj

/-- Witness for C21: in `demo_submitted_state` task `1` waits on the worker at
position `1`; the worker at position `2` (thread `102`, deque empty) draws the random
value `0`, which selects position `1`, and steals task `1`. -/
theorem steal_step_witness :
    (Worker.do_work_acquire demo_submitted_state 2 0).state.deque 1 = [] ∧
    running (Worker.do_work_acquire demo_submitted_state 2 0).state 102 = some 1 ∧
    (Dispatcher.spawn (Worker.do_work_acquire demo_submitted_state 2 0).state 102 2
      ).state.deque 2 = [2] :=
  have h := (steal_step idle_payload demo_submitted_state 102 2 1 0
    { m_can_steal := true, m_stop_flag := false, m_deque := [], m_thread := some 102,
      m_thread_id := some 102, m_current_task := none }
    { m_can_steal := true, m_stop_flag := false, m_deque := [1], m_thread := some 101,
      m_thread_id := some 101, m_current_task := none }
    rfl rfl rfl rfl rfl).2.2.2.2.1 (by decide) 1 [] rfl
  ⟨h.2.2.2.1, (h.2.2.2.2.2.2.2.2.2.2 rfl).1, ((h.2.2.2.2.2.2.2.2.2.2 rfl).2 2).2.1⟩

/-! ## Draining the main lane -/

/-- On the main thread, while the main-processing flag is set, `current_worker` finds
the main worker. -/
theorem current_worker_main (d : Dispatcher) (caller : ThreadId) (W : Worker)
    (rest : List Worker) (hws : d.m_workers = W :: rest)
    (hid : W.m_thread_id = some caller) (hflag : d.m_main_processing = true) :
    Dispatcher.current_worker d caller = Except.ok 0 := by
  unfold Dispatcher.current_worker
  simp [hws, find_if, Worker.get_id, hid, hflag]

theorem spawn_initialized (s : State) (caller : ThreadId) (k : TaskRef)
    (hinit : s.dispatcher.m_initialized = true) :
    spawn s caller (some k) = Dispatcher.spawn s caller k := by
  simp [spawn, detail.initialization_check, Dispatcher.initialized, hinit]

/-- The body `spawn_all` run on the main thread while the main worker processes `t`:
every spawn returns, the spawned tasks are stacked in front of the main deque, no other
worker changes, and the links `(t, k)` are recorded in spawn order. -/
theorem spawn_all_main (caller : ThreadId) (t : TaskRef) (rest : List Worker) :
    ∀ (ks : List TaskRef) (s : State) (W : Worker),
      s.dispatcher.m_workers = W :: rest → W.m_thread_id = some caller →
      W.m_current_task = some t → s.dispatcher.m_main_processing = true →
      s.dispatcher.m_initialized = true →
      (∀ x, Task.get_continuation s x = none) →
      (spawn_all s caller ks).signal = Signal.returned ∧
      (spawn_all s caller ks).state.dispatcher.m_workers
        = { W with m_deque := ks.reverse ++ W.m_deque } :: rest ∧
      (spawn_all s caller ks).state.dispatcher.m_main_processing = true ∧
      (spawn_all s caller ks).state.dispatcher.m_initialized = true ∧
      (∀ x, Task.get_continuation (spawn_all s caller ks).state x = none) ∧
      (spawn_all s caller ks).state.returned = s.returned ∧
      (spawn_all s caller ks).state.spawned = s.spawned ++ ks.map (fun k => (t, k)) := by
  intro ks
  induction ks with
  | nil =>
    intro s W hws hid hcur hflag hinit hc
    refine ⟨rfl, ?_, hflag, hinit, hc, rfl, by simp [spawn_all]⟩
    simp [spawn_all, hws]
  | cons k ks ih =>
    intro s W hws hid hcur hflag hinit hc
    have hcw := current_worker_main s.dispatcher caller W rest hws hid hflag
    have hW : s.dispatcher.m_workers[0]? = some W := by simp [hws]
    have hrun : running s caller = some t := by
      unfold running
      simp only [hcw, hW]
      exact hcur
    have hsp := spawn_ok s caller k t 0 W hcw hW hcur
    have hfr := spawn_frame s caller k t hrun 0
    have hfac := spawn_initialized s caller k hinit
    have hws2 : (Dispatcher.spawn s caller k).state.dispatcher.m_workers
        = W.push_task k :: rest := by
      rw [hsp]
      simp [State.record_spawn, State.setWorker, Task.increment_refcount, Task.set_parent,
        State.setTask, hws]
    have hflag2 : (Dispatcher.spawn s caller k).state.dispatcher.m_main_processing = true := by
      rw [hsp]
      exact hflag
    have hinit2 : (Dispatcher.spawn s caller k).state.dispatcher.m_initialized = true := by
      rw [hsp]
      exact hinit
    have hc2 : ∀ x, Task.get_continuation (Dispatcher.spawn s caller k).state x = none :=
      fun x => (hfr.2.2.2.1 x).trans (hc x)
    obtain ⟨i1, i2, i3, i4, i5, i6, i7⟩ := ih (Dispatcher.spawn s caller k).state
      (W.push_task k) hws2 hid hcur hflag2 hinit2 hc2
    have hstep : spawn_all s caller (k :: ks)
        = spawn_all (Dispatcher.spawn s caller k).state caller ks := by
      simp only [spawn_all, hfac, hfr.1]
    rw [hstep]
    refine ⟨i1, ?_, i3, i4, i5, i6.trans hfr.2.2.2.2.1, ?_⟩
    · rw [i2]
      simp [Worker.push_task]
    · rw [i7, hfr.2.2.2.2.2.1]
      simp


theorem process_after_execute_spawned (s : State) (caller : ThreadId) (t : TaskRef) :
    (Task.process_after_execute s caller t).state.spawned = s.spawned := by
  cases hp : Task.get_parent s t with
  | none =>
    rw [process_after_execute_orphan s caller t hp]
    exact (decrement_refcount_history (s.record_return t) caller t).2
  | some p =>
    have h1 := (decrement_refcount_history (s.record_return t) caller p).2
    unfold Task.process_after_execute
    have hp2 : ((s.record_return t).tasks t).m_parent = some p := hp
    simp only [hp2]
    generalize Task.decrement_refcount (s.record_return t) caller p = r at h1
    obtain ⟨st, sg⟩ := r
    cases sg with
    | returned => exact (decrement_refcount_history st caller t).2.trans h1
    | thrown e => exact h1
    | undefined => exact h1

/-- Enough fuel for a drain: when the main lane is drained from `s` to `s3` by
processing the tasks `ts`, the loop of the main worker started in `s` returns `s3`
with one unit of fuel per task and one for the final test. -/
theorem do_work_of_drain (execute : TaskRef → ThreadId → State → Res) (caller : ThreadId)
    (rands : Nat → Nat) :
    ∀ (ts : List TaskRef) (s s3 : State) (extra : Nat),
      main_lane_drain execute caller s ts s3 →
      Worker.do_work execute (ts.length + 1 + extra) s caller 0 rands
        = some ⟨s3, Signal.returned⟩ := by
  intro ts
  induction ts with
  | nil =>
    intro s s3 extra h
    obtain ⟨h3, main, hw, hd, hstop⟩ := h
    subst h3
    have hfuel : ([] : List TaskRef).length + 1 + extra = extra + 1 := by simp; omega
    rw [hfuel]
    simp only [Worker.do_work, hw]
    simp [hd, hstop]
  | cons t ts ih =>
    intro s s3 extra h
    obtain ⟨main, q, hw, hd, _, he, hp, hrest⟩ := h
    have hfuel : (t :: ts).length + 1 + extra = (ts.length + 1 + extra) + 1 := by
      simp only [List.length_cons]
      omega
    have hiter := do_work_iteration_front execute s caller 0
      (rands (ts.length + 1 + extra)) main t q hw hd
    have hproc := process_of_returned execute _ caller t he
    rw [← hproc, ← hiter] at hp hrest
    rw [hfuel]
    simp only [Worker.do_work, hw]
    have hne : (main.m_deque.isEmpty && main.m_stop_flag) = false := by simp [hd]
    simp only [hne, Bool.false_eq_true, if_false, hp]
    exact ih _ s3 extra hrest


theorem tail_deque_eq (s s2 : State) (rest : List Worker)
    (h1 : s.dispatcher.m_workers.tail = rest) (h2 : s2.dispatcher.m_workers.tail = rest)
    (j : Nat) (hj : j ≠ 0) : s2.deque j = s.deque j := by
  obtain ⟨k, rfl⟩ : ∃ k, j = k + 1 := ⟨j - 1, by omega⟩
  unfold State.deque
  have e1 : s.dispatcher.m_workers[k + 1]? = rest[k]? := by
    rw [← h1]
    cases s.dispatcher.m_workers with
    | nil => simp
    | cons a b => simp
  have e2 : s2.dispatcher.m_workers[k + 1]? = rest[k]? := by
    rw [← h2]
    cases s2.dispatcher.m_workers with
    | nil => simp
    | cons a b => simp
  rw [e1, e2]

/-- The main lane drains under spawning payloads: when the deque, used as a stack of
the queued tasks and their spawned descendants, runs empty after the tasks `ts`, the
main worker processes exactly `ts`, the spawned tasks included, and ends with an empty
deque; the other workers are untouched and the histories record the returns and the
spawns in this order. -/
theorem drain_spawning (kids : TaskRef → List TaskRef) (caller : ThreadId)
    (rest : List Worker) :
    ∀ (n : Nat) (s : State) (main : Worker) (ts : List TaskRef),
      s.dispatcher.m_workers = main :: rest → main.m_thread_id = some caller →
      main.m_stop_flag = true → s.dispatcher.m_main_processing = true →
      s.dispatcher.m_initialized = true →
      (∀ x, Task.get_continuation s x = none) →
      front_order kids n main.m_deque = some ts →
      ∃ s3, main_lane_drain (spawning_payload kids) caller s ts s3 ∧
        s3.deque 0 = [] ∧ s3.dispatcher.m_workers.tail = rest ∧
        s3.dispatcher.m_main_processing = true ∧
        s3.returned = s.returned ++ ts ∧
        s3.spawned = s.spawned ++ ts.flatMap (fun t => (kids t).map (fun k => (t, k))) := by
  intro n
  induction n with
  | zero =>
    intro s main ts hws hid hstop hflag hinit hc hfo
    have hw : s.dispatcher.m_workers[0]? = some main := by simp [hws]
    rcases hd : main.m_deque with _ | ⟨t, q⟩
    · rw [hd] at hfo
      simp only [front_order, Option.some.injEq] at hfo
      subst hfo
      exact ⟨s, ⟨rfl, main, hw, hd, hstop⟩, by simp [State.deque, hw, hd], by simp [hws],
        hflag, by simp, by simp⟩
    · rw [hd] at hfo
      simp [front_order] at hfo
  | succ n ih =>
    intro s main ts hws hid hstop hflag hinit hc hfo
    have hw : s.dispatcher.m_workers[0]? = some main := by simp [hws]
    rcases hd : main.m_deque with _ | ⟨t, q⟩
    · rw [hd] at hfo
      simp only [front_order, Option.some.injEq] at hfo
      subst hfo
      exact ⟨s, ⟨rfl, main, hw, hd, hstop⟩, by simp [State.deque, hw, hd], by simp [hws],
        hflag, by simp, by simp⟩
    · rw [hd] at hfo
      simp only [front_order, Option.map_eq_some'] at hfo
      obtain ⟨ts2, hfo2, hts⟩ := hfo
      subst hts
      have hws1 : (s.setWorker 0 { main with m_current_task := some t, m_deque := q }
          ).dispatcher.m_workers
          = { main with m_current_task := some t, m_deque := q } :: rest := by
        simp [State.setWorker, hws]
      obtain ⟨e1, e2, e3, e4, e5, e6, e7⟩ := spawn_all_main caller t rest (kids t)
        (s.setWorker 0 { main with m_current_task := some t, m_deque := q })
        { main with m_current_task := some t, m_deque := q } hws1 hid rfl hflag hinit hc
      obtain ⟨p1, p2, p3, p4⟩ := process_after_execute_no_continuation
        (spawn_all (s.setWorker 0 { main with m_current_task := some t, m_deque := q })
          caller (kids t)).state caller t e5
      have p5 := process_after_execute_spawned
        (spawn_all (s.setWorker 0 { main with m_current_task := some t, m_deque := q })
          caller (kids t)).state caller t
      have hws2 : (Task.process_after_execute
          (spawn_all (s.setWorker 0 { main with m_current_task := some t, m_deque := q })
            caller (kids t)).state caller t).state.dispatcher.m_workers
          = { main with m_current_task := some t, m_deque := (kids t).reverse ++ q }
              :: rest := by
        rw [p2, e2]
      obtain ⟨s3, hdr, hdq, htail, hfl, hret, hspw⟩ := ih _
        { main with m_current_task := some t, m_deque := (kids t).reverse ++ q } ts2
        hws2 hid hstop (by rw [p2]; exact e3) (by rw [p2]; exact e4) p3 hfo2
      refine ⟨s3, ⟨main, q, hw, hd, hflag, e1, p1, hdr⟩, hdq, htail, hfl, ?_, ?_⟩
      · rw [hret, p4, e6]
        simp [State.setWorker]
      · rw [hspw, p5, e7]
        simp [State.setWorker]


/-- The main lane drains under payloads that leave the scheduler alone: the main worker
processes exactly the queued tasks, front first. -/
theorem drain_idle (execute : TaskRef → ThreadId → State → Res) (caller : ThreadId)
    (hq : main_lane_payload execute) (rest : List Worker) :
    ∀ (queue : List TaskRef) (s : State) (main : Worker),
      s.dispatcher.m_workers = main :: rest → main.m_deque = queue →
      main.m_stop_flag = true → s.dispatcher.m_main_processing = true →
      (∀ x, Task.get_continuation s x = none) →
      ∃ s3, main_lane_drain execute caller s queue s3 ∧
        s3.deque 0 = [] ∧ s3.dispatcher.m_workers.tail = rest ∧
        s3.returned = s.returned ++ queue := by
  intro queue
  induction queue with
  | nil =>
    intro s main hws hd hstop hflag hc
    have hw : s.dispatcher.m_workers[0]? = some main := by simp [hws]
    exact ⟨s, ⟨rfl, main, hw, hd, hstop⟩, by simp [State.deque, hw, hd], by simp [hws],
      by simp⟩
  | cons t q ih =>
    intro s main hws hd hstop hflag hc
    have hw : s.dispatcher.m_workers[0]? = some main := by simp [hws]
    have hflag1 : (s.setWorker 0 { main with m_current_task := some t, m_deque := q }
        ).dispatcher.m_main_processing = true := hflag
    have hc1 : ∀ x, Task.get_continuation
        (s.setWorker 0 { main with m_current_task := some t, m_deque := q }) x = none := hc
    obtain ⟨he1, he2, he3, he4⟩ := hq t caller _ hflag1 hc1
    obtain ⟨hp1, hp2, hp3, hp4⟩ := process_after_execute_no_continuation
      (execute t caller
        (s.setWorker 0 { main with m_current_task := some t, m_deque := q })).state caller t he3
    have hws2 : (Task.process_after_execute
        (execute t caller
          (s.setWorker 0 { main with m_current_task := some t, m_deque := q })).state
        caller t).state.dispatcher.m_workers
        = { main with m_current_task := some t, m_deque := q } :: rest := by
      rw [hp2, he2]
      simp [State.setWorker, hws]
    have hflag2 : (Task.process_after_execute
        (execute t caller
          (s.setWorker 0 { main with m_current_task := some t, m_deque := q })).state
        caller t).state.dispatcher.m_main_processing = true := by
      rw [hp2, he2]
      exact hflag
    obtain ⟨s3, hdr, hdq, htail, hret⟩ := ih _
      { main with m_current_task := some t, m_deque := q } hws2 rfl hstop hflag2 hp3
    refine ⟨s3, ⟨main, q, hw, hd, hflag, he1, hp1, hdr⟩, hdq, htail, ?_⟩
    rw [hret, hp4, he4]
    simp [State.setWorker]

/-- The statements of `Task::process` after the payload, when they return normally:
the refcount of the parent (if any) is decremented, then the refcount of the task. -/
theorem process_after_execute_refcount (s : State) (caller : ThreadId) (t : TaskRef)
    (hsig : (Task.process_after_execute s caller t).signal = Signal.returned) (x : TaskRef) :
    Task.get_refcount (Task.process_after_execute s caller t).state x
      = if x = t then
          dec_value (if Task.get_parent s t = some x then dec_value (Task.get_refcount s x)
            else Task.get_refcount s x)
        else if Task.get_parent s t = some x then dec_value (Task.get_refcount s x)
        else Task.get_refcount s x := by
  cases hp : Task.get_parent s t with
  | none =>
    rw [process_after_execute_orphan s caller t hp]
    rw [(decrement_refcount_links (s.record_return t) caller t).2.2 x]
    have hn : ¬ ((none : task_ptr) = some x) := fun h => Option.noConfusion h
    simp only [hn, if_false]
    by_cases hxt : x = t
    · subst hxt
      simp only [if_true]
      rfl
    · simp only [hxt, if_false]
      rfl
  | some p =>
    have hp2 : ((s.record_return t).tasks t).m_parent = some p := hp
    have hl1 := (decrement_refcount_links (s.record_return t) caller p).2.2
    unfold Task.process_after_execute at hsig ⊢
    simp only [hp2] at hsig ⊢
    generalize Task.decrement_refcount (s.record_return t) caller p = r at hsig hl1
    obtain ⟨st, sg⟩ := r
    cases sg with
    | returned =>
      simp only at hl1 ⊢
      rw [(decrement_refcount_links st caller t).2.2 x, hl1 x, hl1 t]
      have e1 : Task.get_refcount (s.record_return t) x = Task.get_refcount s x := rfl
      have e2 : Task.get_refcount (s.record_return t) t = Task.get_refcount s t := rfl
      have e3 : Task.get_refcount (s.record_return t) p = Task.get_refcount s p := rfl
      rw [e1, e2, e3]
      by_cases hxt : x = t
      · subst hxt
        by_cases hxp : x = p
        · subst hxp
          simp
        · have hpx : p ≠ x := fun h => hxp h.symm
          simp [hxp, hpx]
      · by_cases hxp : x = p
        · subst hxp
          simp [hxt]
        · have hpx : p ≠ x := fun h => hxp h.symm
          simp [hxt, hxp, hpx]
    | thrown e => simp at hsig
    | undefined => simp at hsig

theorem demo_main_lane_no_continuation :
    ∀ x, Task.get_continuation demo_main_lane_state x = none := by
  intro x
  have ht : demo_main_lane_state.tasks
      = (Task.set_thread_affinity
          (Task.set_thread_affinity demo_state 7 thread_affinity.main)
          8 thread_affinity.main).tasks := rfl
  unfold Task.get_continuation
  rw [ht]
  simp only [Task.set_thread_affinity, State.setTask]
  split
  · split <;> rfl
  · split <;> rfl

/-- C15: `process_main` on a thread other than the recorded main thread throws
`wrong_thread_exception` and leaves the whole state (flag and deques) as it was.
Called from the main thread it sets the main-processing flag, runs the loop of the
main worker in the state with the flag set, and clears the flag when the loop returns
normally (an exception leaves with the flag still set).  Every loop iteration of the
main worker that finds a task takes the front task of the main deque and processes
it; the main worker (not stealable) never steals.  Whatever the payloads do, a call
that returns normally ends with the main deque empty and the flag clear.  The call
returns when the deque drains: if the main lane is drained by processing the tasks
`ts` (each at the front when its turn comes, its payload run with the flag set and
returning normally, followed by the decrements of `Task::process`), then with one unit
of fuel per task and one for the final test the call returns exactly the drained
state with the flag cleared.  This is the case for payloads that leave the scheduler
alone, where the queued tasks return in deque order, and for payloads that spawn:
the spawned tasks land in front of the main deque and are processed in the same call
before the tasks queued behind them, no other deque changes, and the histories record
the returns and the spawns in processing order.  The statements that follow the
payload of a processed task lower the refcount of its parent (if any) and its own
refcount by one each (a refcount of 0 wraps to the largest value). -/
theorem process_main_effect (execute : TaskRef → ThreadId → State → Res) (s : State)
    (caller : ThreadId) (rands : Nat → Nat) :
    (s.dispatcher.m_main_thread_id ≠ some caller →
      ∀ fuel, Dispatcher.process_main execute fuel s caller rands
        = some ⟨s, Signal.thrown tdl_exception.wrong_thread_exception⟩) ∧
    (∀ fuel r, Dispatcher.process_main execute fuel s caller rands = some r →
      r.signal = Signal.returned →
      r.state.deque 0 = [] ∧ r.state.dispatcher.m_main_processing = false) ∧
    (∀ (s1 : State) (main : Worker) (rand : Nat),
      s1.dispatcher.m_workers[0]? = some main → main.m_can_steal = false →
      Worker.do_work_acquire s1 0 rand = ⟨Worker.do_work_take s1 0, Signal.returned⟩) ∧
    (∀ main rest, s.dispatcher.m_main_thread_id = some caller →
      s.dispatcher.m_workers = main :: rest → main.m_stop_flag = true →
      (∀ x, Task.get_continuation s x = none) → main_lane_payload execute →
      ∀ extra, ∃ s2,
        Dispatcher.process_main execute (main.m_deque.length + 1 + extra) s caller rands
          = some ⟨s2, Signal.returned⟩ ∧
        s2.deque 0 = [] ∧ s2.dispatcher.m_main_processing = false ∧
        (∀ j, j ≠ 0 → s2.deque j = s.deque j) ∧
        s2.returned = s.returned ++ main.m_deque ∧
        ∃ s3, s2 = s3.set_main_processing false ∧
          main_lane_drain execute caller (s.set_main_processing true) main.m_deque s3) ∧
    (s.dispatcher.m_main_thread_id = some caller → s.dispatcher.m_workers ≠ [] →
      ∀ fuel,
        (Worker.do_work execute fuel (s.set_main_processing true) caller 0 rands = none →
          Dispatcher.process_main execute fuel s caller rands = none) ∧
        (∀ r, Worker.do_work execute fuel (s.set_main_processing true) caller 0 rands
            = some r →
          (r.signal = Signal.returned →
            Dispatcher.process_main execute fuel s caller rands
              = some ⟨r.state.set_main_processing false, Signal.returned⟩) ∧
          (r.signal ≠ Signal.returned →
            Dispatcher.process_main execute fuel s caller rands = some r))) ∧
    (∀ (s1 : State) (main : Worker) (t : TaskRef) (q : List TaskRef) (rand : Nat),
      s1.dispatcher.m_workers[0]? = some main → main.m_deque = t :: q →
      Worker.do_work_iteration execute s1 caller 0 rand
        = Task.process execute
            (s1.setWorker 0 { main with m_current_task := some t, m_deque := q })
            caller t) ∧
    (∀ ts s3, s.dispatcher.m_main_thread_id = some caller →
      main_lane_drain execute caller (s.set_main_processing true) ts s3 →
      ∀ extra,
        Dispatcher.process_main execute (ts.length + 1 + extra) s caller rands
          = some ⟨s3.set_main_processing false, Signal.returned⟩ ∧
        (s3.set_main_processing false).deque 0 = [] ∧
        (s3.set_main_processing false).dispatcher.m_main_processing = false) ∧
    (∀ (kids : TaskRef → List TaskRef) (main : Worker) (rest : List Worker) (n : Nat)
        (ts : List TaskRef),
      (∀ t c st, execute t c st = spawning_payload kids t c st) →
      s.dispatcher.m_main_thread_id = some caller →
      s.dispatcher.m_workers = main :: rest → main.m_thread_id = some caller →
      main.m_stop_flag = true → s.dispatcher.m_initialized = true →
      (∀ x, Task.get_continuation s x = none) →
      front_order kids n main.m_deque = some ts →
      ∀ extra, ∃ s3,
        Dispatcher.process_main execute (ts.length + 1 + extra) s caller rands
          = some ⟨s3.set_main_processing false, Signal.returned⟩ ∧
        main_lane_drain execute caller (s.set_main_processing true) ts s3 ∧
        s3.deque 0 = [] ∧ (∀ j, j ≠ 0 → s3.deque j = s.deque j) ∧
        s3.returned = s.returned ++ ts ∧
        s3.spawned = s.spawned ++ ts.flatMap (fun t => (kids t).map (fun k => (t, k)))) ∧
    (∀ (e : State) (t x : TaskRef),
      (Task.process_after_execute e caller t).signal = Signal.returned →
      Task.get_refcount (Task.process_after_execute e caller t).state x
        = if x = t then
            dec_value (if Task.get_parent e t = some x then dec_value (Task.get_refcount e x)
              else Task.get_refcount e x)
          else if Task.get_parent e t = some x then dec_value (Task.get_refcount e x)
          else Task.get_refcount e x) := by
  have hentry : s.dispatcher.m_main_thread_id = some caller → s.dispatcher.m_workers ≠ [] →
      ∀ fuel,
        (Worker.do_work execute fuel (s.set_main_processing true) caller 0 rands = none →
          Dispatcher.process_main execute fuel s caller rands = none) ∧
        (∀ r, Worker.do_work execute fuel (s.set_main_processing true) caller 0 rands
            = some r →
          (r.signal = Signal.returned →
            Dispatcher.process_main execute fuel s caller rands
              = some ⟨r.state.set_main_processing false, Signal.returned⟩) ∧
          (r.signal ≠ Signal.returned →
            Dispatcher.process_main execute fuel s caller rands = some r)) := by
    intro hmain hne fuel
    obtain ⟨w, ws, hws⟩ : ∃ w ws, s.dispatcher.m_workers = w :: ws := by
      cases hl : s.dispatcher.m_workers with
      | nil => exact absurd hl hne
      | cons w ws => exact ⟨w, ws, rfl⟩
    refine ⟨?_, ?_⟩
    · intro hnone
      unfold Dispatcher.process_main
      simp only [hmain, ne_eq, not_true_eq_false, if_false, hws, hnone]
    · intro r hr
      refine ⟨?_, ?_⟩
      · intro hsig
        unfold Dispatcher.process_main
        simp only [hmain, ne_eq, not_true_eq_false, if_false, hws, hr, hsig]
      · intro hsig
        unfold Dispatcher.process_main
        simp only [hmain, ne_eq, not_true_eq_false, if_false, hws, hr]
  have hdrain : ∀ ts s3, s.dispatcher.m_main_thread_id = some caller →
      main_lane_drain execute caller (s.set_main_processing true) ts s3 →
      ∀ extra,
        Dispatcher.process_main execute (ts.length + 1 + extra) s caller rands
          = some ⟨s3.set_main_processing false, Signal.returned⟩ ∧
        (s3.set_main_processing false).deque 0 = [] ∧
        (s3.set_main_processing false).dispatcher.m_main_processing = false := by
    intro ts s3 hmain hdr extra
    have hdo := do_work_of_drain execute caller rands ts _ s3 extra hdr
    have hne : s.dispatcher.m_workers ≠ [] := by
      intro hnil
      have hnone : (s.set_main_processing true).dispatcher.m_workers[0]? = none := by
        show s.dispatcher.m_workers[0]? = none
        rw [hnil]
        rfl
      cases ts with
      | nil =>
        obtain ⟨_, main, hw, _⟩ := hdr
        rw [hnone] at hw
        cases hw
      | cons t ts =>
        obtain ⟨main, q, hw, _⟩ := hdr
        rw [hnone] at hw
        cases hw
    refine ⟨((hentry hmain hne _).2 _ hdo).1 rfl, ?_, rfl⟩
    exact do_work_exit execute caller 0 rands _ _ _ hdo rfl
  refine ⟨?_, ?_, ?_, ?_, hentry, ?_, hdrain, ?_,
    fun e t x hsig => process_after_execute_refcount e caller t hsig x⟩
  · intro hne fuel
    simp [Dispatcher.process_main, hne]
  · intro fuel r h hsig
    unfold Dispatcher.process_main at h
    split at h
    · cases h
      cases hsig
    · split at h
      · cases h
        cases hsig
      · split at h
        · cases h
        · rename_i r2 hdo
          split at h
          · rename_i hsig2
            cases h
            exact ⟨do_work_exit execute caller 0 rands fuel _ r2 hdo hsig2, rfl⟩
          · rename_i hne
            cases h
            exact absurd hsig hne
  · intro s1 main rand hw hcs
    exact do_work_acquire_no_steal s1 rand main hw hcs
  · intro main rest hmain hws hstop hc hq extra
    have hws1 : (s.set_main_processing true).dispatcher.m_workers = main :: rest := hws
    obtain ⟨s3, hdr, hdq, htail, hret⟩ := drain_idle execute caller hq rest
      main.m_deque (s.set_main_processing true) main hws1 rfl hstop rfl hc
    exact ⟨s3.set_main_processing false, (hdrain _ s3 hmain hdr extra).1, hdq, rfl,
      fun j hj => tail_deque_eq s s3 rest (by simp [hws]) htail j hj, hret, s3, rfl, hdr⟩
  · intro s1 main t q rand hw hd
    exact do_work_iteration_front execute s1 caller 0 rand main t q hw hd
  · intro kids main rest n ts hex hmain hws hid hstop hinit hc hfo extra
    have hfun : execute = spawning_payload kids :=
      funext fun t => funext fun c => funext fun st => hex t c st
    subst hfun
    have hws1 : (s.set_main_processing true).dispatcher.m_workers = main :: rest := hws
    obtain ⟨s3, hdr, hdq, htail, _, hret, hspw⟩ := drain_spawning kids caller rest n
      (s.set_main_processing true) main ts hws1 hid hstop rfl hinit hc hfo
    exact ⟨s3, (hdrain ts s3 hmain hdr extra).1, hdr, hdq,
      fun j hj => tail_deque_eq s s3 rest (by simp [hws]) htail j hj, hret, hspw⟩

/-- In `demo_main_continuation_state` the main lane drains by processing task `7` and
then its continuation `9`, which the last decrement on `7` pushes to the main deque. -/
theorem demo_continuation_drain :
    ∃ s3, main_lane_drain idle_payload 100
      (demo_main_continuation_state.set_main_processing true) [7, 9] s3 :=
  ⟨_, _, _, rfl, rfl, rfl, rfl, rfl, _, _, rfl, rfl, rfl, rfl, rfl, rfl, _, rfl, rfl, rfl⟩

/-- Witness for C15: the main-affinity tasks `7` and `8` are queued on the main worker.
With idle payloads `process_main` on main thread `100` drains them in this order.
With the payloads of `demo_kids`, in which task `7` spawns task `9`, the call
processes `7`, then the spawned `9`, then `8`, and returns with the flag clear, the
main deque empty and the refcounts of `7`, `8` and `9` at `0`.  When task `7` is queued
alone and has the continuation `9`, the call processes `7` and then `9`. -/
theorem process_main_effect_witness :
    (∃ s2, Dispatcher.process_main idle_payload (2 + 1 + 0) demo_main_lane_state 100
        (fun _ => 0) = some ⟨s2, Signal.returned⟩ ∧
      s2.deque 0 = [] ∧ s2.dispatcher.m_main_processing = false ∧
      (∀ j, j ≠ 0 → s2.deque j = demo_main_lane_state.deque j) ∧
      s2.returned = demo_main_lane_state.returned ++ [7, 8] ∧
      ∃ s3, s2 = s3.set_main_processing false ∧
        main_lane_drain idle_payload 100
          (demo_main_lane_state.set_main_processing true) [7, 8] s3) ∧
    (∃ s3, Dispatcher.process_main (spawning_payload demo_kids) (3 + 1 + 0)
        demo_main_lane_state 100 (fun _ => 0)
          = some ⟨s3.set_main_processing false, Signal.returned⟩ ∧
      main_lane_drain (spawning_payload demo_kids) 100
        (demo_main_lane_state.set_main_processing true) [7, 9, 8] s3 ∧
      s3.deque 0 = [] ∧ (∀ j, j ≠ 0 → s3.deque j = demo_main_lane_state.deque j) ∧
      s3.returned = demo_main_lane_state.returned ++ [7, 9, 8] ∧
      s3.spawned = demo_main_lane_state.spawned
        ++ [7, 9, 8].flatMap (fun t => (demo_kids t).map (fun k => (t, k)))) ∧
    (Dispatcher.process_main (spawning_payload demo_kids) 4 demo_main_lane_state 100
        (fun _ => 0)).map
      (fun r => (r.signal, r.state.returned, r.state.spawned,
        Task.get_refcount r.state 7, Task.get_refcount r.state 9,
        Task.get_refcount r.state 8, Task.get_parent r.state 9,
        r.state.dispatcher.m_main_processing, r.state.deque 0))
      = some (Signal.returned, [7, 9, 8], [(7, 9)], 0, 0, 0, some 7, false, []) ∧
    (∃ s3 : State, Dispatcher.process_main idle_payload (2 + 1 + 0)
        demo_main_continuation_state 100
        (fun _ => 0) = some ⟨s3.set_main_processing false, Signal.returned⟩ ∧
      (s3.set_main_processing false).deque 0 = [] ∧
      (s3.set_main_processing false).dispatcher.m_main_processing = false) ∧
    (Dispatcher.process_main idle_payload 3 demo_main_continuation_state 100
        (fun _ => 0)).map
      (fun r => (r.signal, r.state.returned, Task.get_refcount r.state 7,
        Task.get_refcount r.state 9, r.state.dispatcher.m_main_processing,
        r.state.deque 0))
      = some (Signal.returned, [7, 9], 0, 0, false, []) :=
  ⟨(process_main_effect idle_payload demo_main_lane_state 100 (fun _ => 0)).2.2.2.1
    { m_can_steal := false, m_stop_flag := true, m_deque := [7, 8], m_thread := none,
      m_thread_id := some 100, m_current_task := none }
    [(Worker.construct false 100).start 101, (Worker.construct false 100).start 102]
    rfl rfl rfl demo_main_lane_no_continuation
    (fun _ _ _ _ hc => ⟨rfl, rfl, hc, rfl⟩) 0,
   (process_main_effect (spawning_payload demo_kids) demo_main_lane_state 100
      (fun _ => 0)).2.2.2.2.2.2.2.1 demo_kids
    { m_can_steal := false, m_stop_flag := true, m_deque := [7, 8], m_thread := none,
      m_thread_id := some 100, m_current_task := none }
    [(Worker.construct false 100).start 101, (Worker.construct false 100).start 102]
    3 [7, 9, 8] (fun _ _ _ => rfl) rfl rfl rfl rfl rfl demo_main_lane_no_continuation
    (by decide) 0,
   rfl,
   demo_continuation_drain.elim (fun s3 hdr =>
     ⟨s3, (process_main_effect idle_payload demo_main_continuation_state 100
       (fun _ => 0)).2.2.2.2.2.2.1 [7, 9] s3 rfl hdr 0⟩),
   rfl⟩


/-- One processing per task is not enforced by the code: when task `1` is queued twice and
processed twice (an execution that is not enabled), its refcount is 0 while its child
`2` is still queued and has not returned. -/
theorem refcount_zero_when_processed_twice :
    valid demo_twice_state demo_twice_trace = false ∧
    Task.get_refcount (run demo_twice_state demo_twice_trace) 1 = 0 ∧
    (run demo_twice_state demo_twice_trace).spawned = [(1, 2)] ∧
    2 ∉ (run demo_twice_state demo_twice_trace).returned ∧
    (run demo_twice_state demo_twice_trace).deque 1 = [2] := by
  decide

end tdl
